import Mathlib

/-!
Shallow embedding of the descriptor index algebra of the rascaline
repository: the Indexes table and the Descriptor operations
prepare, prepare_gradients, densify and dot, translated from
src/rascaline/src/descriptor/descriptor.rs.

Machine integers (IndexValue, an i32 tag) are modelled as Int: the code
only ever compares, copies and orders them, so no overflow is
observable.  The f64 values are modelled as rationals; the only
irrational operation, the square root used by kernel normalization, is
modelled separately over the reals (dotNormalizedEntry).  Rust panics
(assertion failures and out-of-bounds writes that are reachable even on
well-formed data) are modelled by the RunResult.fatal constructor;
reads that can only go out of bounds on ill-formed descriptors are
modelled with default-valued reads, and every general theorem assumes
well-formedness (Descriptor.wellFormed), matching the data-model
invariants of the specification.

The Indexes table itself (names, count, iteration order, position as
first exact match, equality as same names and same rows) follows the
contract stated in the specification, since the revision of the indexes
module that descriptor.rs builds on is not part of the sources; its
behaviour is additionally cross-checked against the older
src/src/descriptor/indexes/mod.rs (size, count with its zero-column
rule, insertion-order iteration).
-/

namespace Rascaline

/-- IndexValue is a signed integer tag, the atomic unit of an index column. -/
abbrev IndexValue := Int

/-- Row: one row of an index table. -/
abbrev Row := List IndexValue

/-- Strict lexicographic order on rows, matching the derived Ord of
Rust Vec of i32 values: element-wise comparison, a strict prefix is
smaller. -/
def rowLt : Row → Row → Bool
  | [], [] => false
  | [], _ :: _ => true
  | _ :: _, [] => false
  | a :: as, b :: bs => if a < b then true else if b < a then false else rowLt as bs

/-- Insertion into a sorted duplicate-free list, modelling
BTreeSet insert for rows (ascending lexicographic iteration order). -/
def btInsert (x : Row) : List Row → List Row
  | [] => [x]
  | y :: ys =>
    if rowLt x y then x :: y :: ys
    else if x = y then y :: ys
    else y :: btInsert x ys

/-- Accumulate a list of rows into a sorted duplicate-free list,
modelling the construction of a BTreeSet from an iterator. -/
def btOfList (l : List Row) : List Row := l.foldl (fun s r => btInsert r s) []

/-- Position of the first occurrence of an element in a list, or the
length of the list when absent. -/
def idxOf {α : Type} [DecidableEq α] (l : List α) (x : α) : Nat :=
  (l.findIdx? (fun y => decide (y = x))).getD l.length

/-- Insertion into an insertion-ordered set, modelling
IndexSet.insert_full: returns the index of the element (its existing
position, or the former length if it is new) together with the
updated set. -/
def insertFull (l : List Row) (x : Row) : Nat × List Row :=
  match l.findIdx? (fun y => decide (y = x)) with
  | some i => (i, l)
  | none => (l.length, l ++ [x])

/-- Removal of the element at a given position, modelling Vec.remove;
none models the Rust panic on an out-of-bounds index. -/
def removeAt {α : Type} : List α → Nat → Option (List α)
  | [], _ => none
  | _ :: xs, 0 => some xs
  | x :: xs, n + 1 => (removeAt xs n).map (x :: ·)

/-- Insert into a list sorted in descending order. -/
def insertDesc (n : Nat) : List Nat → List Nat
  | [] => [n]
  | m :: ms => if m ≤ n then n :: m :: ms else m :: insertDesc n ms

/-- Sort a list of positions in descending order, modelling the
sorted().rev() iteration of remove_from_samples. -/
def sortDesc (l : List Nat) : List Nat := l.foldr insertDesc []

/-- Result of running a fallible Rust operation: a value, a recoverable
InvalidParameter error, or a fatal panic (assertion failure,
out-of-bounds access). -/
inductive RunResult (α : Type) : Type
  | ok : α → RunResult α
  | invalidParameter : String → RunResult α
  | fatal : String → RunResult α
deriving DecidableEq

namespace RunResult

def bindR {α β : Type} : RunResult α → (α → RunResult β) → RunResult β
  | ok a, f => f a
  | invalidParameter m, _ => invalidParameter m
  | fatal m, _ => fatal m

instance : Monad RunResult where
  pure := ok
  bind := bindR

def isOk {α : Type} : RunResult α → Bool
  | ok _ => true
  | _ => false

def isInvalid {α : Type} : RunResult α → Bool
  | invalidParameter _ => true
  | _ => false

def isFatal {α : Type} : RunResult α → Bool
  | fatal _ => true
  | _ => false

/-- Discard the value, keeping only the outcome; used to model methods
that mutate a receiver and return Result of unit. -/
def toUnit {α : Type} : RunResult α → RunResult Unit
  | ok _ => ok ()
  | invalidParameter m => invalidParameter m
  | fatal m => fatal m

end RunResult

/-- Validity of an index column name: non-empty, first character not a
digit, all characters alphanumeric or underscore (is_valid_ident). -/
def isValidIdent (name : String) : Bool :=
  match name.toList with
  | [] => false
  | c :: cs =>
    !c.isDigit && (c :: cs).all (fun ch => ch.isAlphanum || ch = '_')

/-- Indexes: an immutable, ordered, named multi-column table of index
rows.  Rows are stored in insertion order. -/
structure Indexes : Type where
  names : List String
  rows : List Row
deriving DecidableEq

namespace Indexes

/-- Number of columns of the table. -/
def size (i : Indexes) : Nat := i.names.length

/-- Number of rows of the table; zero when there are no columns, since
the linearized storage of the source cannot hold rows without columns. -/
def count (i : Indexes) : Nat := if i.names.length = 0 then 0 else i.rows.length

/-- Positional lookup: index of the first row equal to the given one
(Indexes.position). -/
def position (i : Indexes) (row : Row) : Option Nat :=
  i.rows.findIdx? (fun y => decide (y = row))

end Indexes

/-- Construction of an Indexes through IndexesBuilder: fatal when a
column name is not a valid identifier (IndexesBuilder.new) or when a
row length does not match the number of columns (the assertion in
IndexesBuilder.add). -/
def mkIndexes (names : List String) (rows : List Row) : RunResult Indexes :=
  if !names.all isValidIdent then
    .fatal "all indexes names must be valid identifiers"
  else if !rows.all (fun r => r.length = names.length) then
    .fatal "size mismatch in IndexesBuilder add"
  else
    .ok { names := names, rows := rows }

/-- DensifiedIndex: the information needed to move the values of one
old sample to their new position. -/
structure DensifiedIndex : Type where
  oldSampleI : Nat
  newSampleI : Nat
  vars : Row
deriving DecidableEq

/-- RemovedSamples: result of removing a set of vars from a
samples index. -/
structure RemovedSamples : Type where
  samples : Indexes
  newFeatures : List Row
  mapping : List DensifiedIndex
deriving DecidableEq

/-- Positions of the given vars inside the column names, in
variable order; InvalidParameter on the first missing name, mirroring
the first loop of remove_from_samples. -/
def findPositions (vars names : List String) : RunResult (List Nat) :=
  match vars with
  | [] => .ok []
  | v :: vs =>
    match names.findIdx? (fun n => decide (n = v)) with
    | some p => (findPositions vs names).bindR (fun ps => .ok (p :: ps))
    | none => .invalidParameter ("can not densify along " ++ v ++
        " which is not present in the samples")

/-- Remove the variable positions from a sample row by repeated
Vec.remove over the positions sorted in descending order; none models
the panic on an out-of-bounds removal. -/
def removeRowAt (positions : List Nat) (row : Row) : Option Row :=
  (sortDesc positions).foldl (fun acc i => acc.bind (fun r => removeAt r i)) (some row)

/-- State of the main loop of remove_from_samples. -/
structure RfsState : Type where
  newSamples : List Row
  newFeatures : List Row
  mapping : List DensifiedIndex

/-- One iteration of the main loop of remove_from_samples: split the
sample at the variable positions into a block key (inserted in the
sorted set) and a reduced sample (inserted in the insertion-ordered
set), and record the mapping triple. -/
def rfsStep (positions : List Nat) (oldSampleI : Nat) (row : Row)
    (st : RfsState) : Option RfsState :=
  let newFeature : Row := positions.map (fun i => row.getD i 0)
  let newFeatures := btInsert newFeature st.newFeatures
  match removeRowAt positions row with
  | none => none
  | some newSample =>
    some { newSamples := (insertFull st.newSamples newSample).2,
           newFeatures := newFeatures,
           mapping := st.mapping ++
             [{ oldSampleI := oldSampleI,
                newSampleI := (insertFull st.newSamples newSample).1,
                vars := newFeature }] }

/-- Main loop of remove_from_samples over the enumerated sample rows. -/
def rfsLoop (positions : List Nat) : Nat → List Row → RfsState → Option RfsState
  | _, [], st => some st
  | i, row :: rest, st =>
    match rfsStep positions i row st with
    | none => none
    | some st => rfsLoop positions (i + 1) rest st

/-- Translation of remove_from_samples: remove the given vars from
the samples, returning the reduced samples index, the sorted set of
values taken by the removed vars, and the mapping of every old row
to its new row and block key. -/
def removeFromSamples (samples : Indexes) (vars : List String) :
    RunResult RemovedSamples :=
  (findPositions vars samples.names).bindR (fun positions =>
    match rfsLoop positions 0 samples.rows
        { newSamples := [], newFeatures := [], mapping := [] } with
    | none => .fatal "removal index out of bounds"
    | some st =>
      let names := samples.names.filter (fun n => !vars.contains n)
      (mkIndexes names st.newSamples).bindR (fun idx =>
        .ok { samples := idx, newFeatures := st.newFeatures,
              mapping := st.mapping }))

/-- Value matrices are row-major lists of rows of scalars.  The scalar
type is any commutative ring: the floating-point values of the source
are modelled exactly, so the general theorems below hold in particular
over the reals and the rationals, while concrete witnesses use the
integers, where the kernel can evaluate. -/
abbrev Matrix (K : Type) := List (List K)

/-- Zero-filled matrix of the given shape. -/
def zerosMat (K : Type) [CommRing K] (r c : Nat) : Matrix K :=
  List.replicate r (List.replicate c 0)

/-- Entry access with a default of zero outside the matrix. -/
def getEntry {K : Type} [CommRing K] (m : Matrix K) (i j : Nat) : K :=
  (m.getD i []).getD j 0

/-- Overwrite width entries of row i starting at the given column,
modelling an ndarray slice assignment; none models the panic when the
row does not exist, the slice sticks out of the row, or the widths of
source and target disagree. -/
def setSlice {K : Type} (m : Matrix K) (i start width : Nat) (v : List K) :
    Option (Matrix K) :=
  (m.get? i).bind (fun row =>
    if v.length = width ∧ start + width ≤ row.length then
      some (m.set i (row.take start ++ v ++ row.drop (start + width)))
    else none)

/-- Sum of all entries of a matrix. -/
def sumMat {K : Type} [CommRing K] (m : Matrix K) : K :=
  (m.map (fun r => r.sum)).sum

/-- Inner product of two rows (ndarray dot of two 1-dimensional views;
the views always have equal lengths where the source applies it). -/
def innerProd {K : Type} [CommRing K] (a b : List K) : K :=
  (List.zipWith (fun x y => x * y) a b).sum

/-- Product of a matrix with the transpose of another. -/
def matMulT {K : Type} [CommRing K] (A B : Matrix K) : Matrix K :=
  A.map (fun ar => B.map (fun br => innerProd ar br))

/-- Descriptor: a value matrix indexed by samples and features, with
optional gradient data. -/
structure Descriptor (K : Type) : Type where
  values : Matrix K
  samples : Indexes
  features : Indexes
  gradients : Option (Matrix K)
  gradientsSamples : Option Indexes
deriving DecidableEq

namespace Descriptor

/-- Translation of Descriptor::new: empty indexes, empty values, no
gradient data. -/
def new (K : Type) : Descriptor K :=
  { values := [], samples := { names := [], rows := [] },
    features := { names := [], rows := [] },
    gradients := none, gradientsSamples := none }

/-- Translation of Descriptor::prepare: store the index tables, resize
the values to the matching shape and zero-fill them, clear all gradient
state. -/
def prepare {K : Type} [CommRing K] (_d : Descriptor K)
    (samples features : Indexes) : Descriptor K :=
  { values := zerosMat K samples.count features.count,
    samples := samples, features := features,
    gradients := none, gradientsSamples := none }

/-- Translation of Descriptor::prepare_gradients: same as prepare for
the values, plus a zero-filled gradient matrix; fatal unless the last
gradient-sample column is named spatial. -/
def prepareGradients {K : Type} [CommRing K] (_d : Descriptor K)
    (samples gradients features : Indexes) : RunResult (Descriptor K) :=
  if gradients.names.getLast? ≠ some "spatial" then
    .fatal "the last index of gradient should be spatial"
  else
    .ok { values := zerosMat K samples.count features.count,
          samples := samples, features := features,
          gradients := some (zerosMat K gradients.count features.count),
          gradientsSamples := some gradients }

end Descriptor

/-- Well-formedness of an index table: every row as wide as the name
list, valid and pairwise-distinct identifier names (an index is a table
of named columns), and no rows at all when there are no columns (the
linearized storage of the source cannot hold them). -/
def Indexes.wf (i : Indexes) : Bool :=
  i.rows.all (fun r => r.length = i.names.length) &&
  i.names.all isValidIdent &&
  decide i.names.Nodup &&
  (!i.names.isEmpty || i.rows.isEmpty)

/-- Shape of a matrix. -/
def matWf {K : Type} (m : Matrix K) (r c : Nat) : Bool :=
  m.length = r && m.all (fun row => row.length = c)

/-- Well-formedness of a descriptor, following the data-model
invariants of the specification: the value matrix has one row per
sample and one column per feature, and gradient data, when present,
is shaped by the gradient-samples index. -/
def Descriptor.wellFormed {K : Type} (d : Descriptor K) : Bool :=
  d.samples.wf && d.features.wf &&
  matWf d.values d.samples.count d.features.count &&
  (match d.gradientsSamples with
   | some gs => gs.wf
   | none => true) &&
  (match d.gradients, d.gradientsSamples with
   | some g, some gs => matWf g gs.count d.features.count
   | some _, none => false
   | none, _ => true)

/-- Copy loop of Descriptor::densify: move every mapped old row into
its feature block in the new matrix; a block key absent from the new
features is skipped (it was excluded by an explicit request). -/
def densifyCopy {K : Type} (src : Matrix K) (firstFeatureTail : Row)
    (oldFeatureSize : Nat) (newFeatures : Indexes)
    (mapping : List DensifiedIndex) (init : Matrix K) : Option (Matrix K) :=
  mapping.foldl (fun acc di =>
    acc.bind (fun m =>
      match newFeatures.position (di.vars ++ firstFeatureTail) with
      | none => some m
      | some start =>
        setSlice m di.newSampleI start oldFeatureSize (src.getD di.oldSampleI [])))
    (some init)

/-- Core of Descriptor::densify, applied when the early-return guard
does not fire. -/
def densifyCore {K : Type} [CommRing K] (d : Descriptor K) (vars : List String)
    (requested : Option (Nat × List Row)) : RunResult (Descriptor K) :=
  (match requested with
   | some (ncols, rrows) =>
     if ncols ≠ vars.length then
       RunResult.invalidParameter
         "provided values in densify must match the variable size"
     else RunResult.ok (some (btOfList rrows))
   | none => RunResult.ok none).bindR (fun requestedSet =>
  (removeFromSamples d.samples vars).bindR (fun newSamples =>
  (match d.gradientsSamples with
   | some gs =>
     (removeFromSamples gs vars).bindR (fun ng =>
       if ng.newFeatures ≠ newSamples.newFeatures then
         RunResult.fatal
           "gradient samples contains different values than the samples"
       else RunResult.ok (some ng))
   | none => RunResult.ok none).bindR (fun newGradSamples =>
  let requestedFeatures := match requestedSet with
    | some s => s
    | none => newSamples.newFeatures
  (mkIndexes (vars ++ d.features.names)
      (requestedFeatures.flatMap
        (fun b => d.features.rows.map (fun f => b ++ f)))).bindR (fun newFeatures =>
  match d.features.rows.head? with
  | none => RunResult.fatal "missing first feature"
  | some firstFeatureTail =>
    let oldFeatureSize := d.features.count
    match densifyCopy d.values firstFeatureTail oldFeatureSize newFeatures
        newSamples.mapping
        (zerosMat K newSamples.samples.count newFeatures.count) with
    | none => RunResult.fatal "target slice out of bounds"
    | some newValues =>
      match d.gradients with
      | none =>
        RunResult.ok { values := newValues, samples := newSamples.samples,
                       features := newFeatures, gradients := d.gradients,
                       gradientsSamples := d.gradientsSamples }
      | some gradients =>
        match newGradSamples with
        | none => RunResult.fatal "missing densified gradients"
        | some ng =>
          match densifyCopy gradients firstFeatureTail oldFeatureSize
              newFeatures ng.mapping
              (zerosMat K ng.samples.count newFeatures.count) with
          | none => RunResult.fatal "target slice out of bounds"
          | some newGradients =>
            RunResult.ok { values := newValues, samples := newSamples.samples,
                           features := newFeatures,
                           gradients := some newGradients,
                           gradientsSamples := some ng.samples }))))

/-- Translation of Descriptor::densify.  The receiver is mutated only
on success, so the post-state is the input descriptor unless the
outcome is ok.  The requested argument carries the column count of the
explicit block-key table together with its rows. -/
def Descriptor.densify {K : Type} [CommRing K] (d : Descriptor K)
    (vars : List String) (requested : Option (Nat × List Row)) :
    Descriptor K × RunResult Unit :=
  if vars.isEmpty || d.features.size = 0 then (d, .ok ())
  else
    match densifyCore d vars requested with
    | .ok d2 => (d2, .ok ())
    | .invalidParameter m => (d, .invalidParameter m)
    | .fatal m => (d, .fatal m)

/-- Options of Descriptor::dot. -/
structure DotOptions : Type where
  reduceAcross : List String
  gradients : Bool
  normalize : Bool
deriving DecidableEq

/-- Precondition loop of Descriptor::dot over reduce_across: every name
must appear in the sample columns of both sides. -/
def checkReduceAcross {K : Type} (lhs rhs : Descriptor K) :
    List String → RunResult Unit
  | [] => .ok ()
  | v :: vs =>
    if !lhs.samples.names.contains v then
      .invalidParameter
        ("variable does not appear on the left hand side samples for this dot product: " ++ v)
    else if !rhs.samples.names.contains v then
      .invalidParameter
        ("variable does not appear on the right hand side samples for this dot product: " ++ v)
    else checkReduceAcross lhs rhs vs

/-- Translation of the build_features_id closure of Descriptor::dot.
The BTreeMap from block key to dense integer id is represented by the
list of its keys in first-assignment order: or_insert assigns the
current map size as the id of an unseen key, so an id is exactly a
position in that list.  Returns the rewritten mapping triples
(new sample, old sample, id) and the updated key list, which is shared
across successive calls. -/
def buildIds : List DensifiedIndex → List Row → List (Nat × Nat × Nat) × List Row
  | [], st => ([], st)
  | di :: rest, st =>
    let st2 := if di.vars ∈ st then st else st ++ [di.vars]
    let i := idxOf st2 di.vars
    let (out, stF) := buildIds rest st2
    ((di.newSampleI, di.oldSampleI, i) :: out, stF)

/-- Per-row work list of the dot product (struct DotIndexesPerRow). -/
structure DotIndexesPerRow : Type where
  oldLhs : Nat
  rhsIndexes : List (Nat × Nat)
deriving DecidableEq

/-- Translation of compute_dot_products_indexes: for every left-hand
mapping triple, gather the right-hand pairs with a matching block id
and append the work item to the row owned by its new sample index;
none models the panic on a row index outside the output. -/
def computeDotIndexes (lhs rhs : List (Nat × Nat × Nat)) (nRows : Nat) :
    Option (List (List DotIndexesPerRow)) :=
  lhs.foldl (fun acc t =>
    acc.bind (fun rows =>
      let rhsIndexes := (rhs.filter (fun s => decide (s.2.2 = t.2.2))).map
        (fun s => (s.2.1, s.1))
      if t.1 < rows.length then
        some (rows.set t.1 (rows.getD t.1 [] ++
          [{ oldLhs := t.2.1, rhsIndexes := rhsIndexes }]))
      else none))
    (some (List.replicate nRows []))

/-- Add to one entry of a row; none models the panic on an index
outside the row. -/
def addAt {K : Type} [CommRing K] (row : List K) (i : Nat) (x : K) :
    Option (List K) :=
  if i < row.length then some (row.set i (row.getD i 0 + x)) else none

/-- Body of the parallel value loop of Descriptor::dot for one output
row: accumulate the inner product of every matching pair of old rows
into the column owned by the right-hand new sample index. -/
def accumRow {K : Type} [CommRing K] (lhsValues rhsValues : Matrix K)
    (entries : List DotIndexesPerRow) (row : List K) : Option (List K) :=
  entries.foldl (fun acc e =>
    acc.bind (fun r =>
      e.rhsIndexes.foldl (fun acc2 p =>
        acc2.bind (fun r2 =>
          addAt r2 p.2
            (innerProd (lhsValues.getD e.oldLhs []) (rhsValues.getD p.1 []))))
        (some r)))
    (some row)

/-- All output rows of the dot product: each row starts from the
zero-filled row of the prepared output and is accumulated
independently (the rows are write-disjoint across tasks). -/
def computeDotValues {K : Type} [CommRing K] (lhsValues rhsValues : Matrix K)
    (indexes : List (List DotIndexesPerRow)) (nCols : Nat) : Option (Matrix K) :=
  indexes.mapM (fun entries =>
    accumRow lhsValues rhsValues entries (List.replicate nCols 0))

/-- Translation of compute_norm without its final square root: entry r
accumulates the inner products of all pairs of mapping entries that
land on the same new row r and carry matching block ids.  The square
root lives in the real-valued layer dotNormalizedEntry. -/
def dotNormSq {K : Type} [CommRing K] (values : Matrix K)
    (mapping : List (Nat × Nat × Nat)) (r : Nat) : K :=
  ((mapping.filter (fun a => decide (a.1 = r))).map (fun a =>
    ((mapping.filter (fun b => decide (b.1 = r ∧ b.2.2 = a.2.2))).map (fun b =>
      innerProd (values.getD a.2.1 []) (values.getD b.2.1 []))).sum)).sum

/-- Translation of Descriptor::dot.  The returned descriptor carries
the accumulated (pre-normalization) values: the division by the norms
is irrational because of the square root and is modelled by the
real-valued layer dotNormalizedEntry, while the assertions and the
owning-sample lookup of the gradient normalization branch are modelled
here as fatal outcomes. -/
def Descriptor.dot {K : Type} [CommRing K] (lhs rhs : Descriptor K)
    (opts : DotOptions) : RunResult (Descriptor K) :=
  if lhs.features ≠ rhs.features then
    .invalidParameter "descriptors have different features"
  else
    (checkReduceAcross lhs rhs opts.reduceAcross).bindR (fun _ =>
    (removeFromSamples rhs.samples opts.reduceAcross).bindR (fun removedRhs =>
    (removeFromSamples lhs.samples opts.reduceAcross).bindR (fun removedLhs =>
    (match opts.gradients, lhs.gradientsSamples with
     | true, none => RunResult.invalidParameter
         "the left hand side descriptor does not contain gradient data"
     | true, some gs =>
       (removeFromSamples gs opts.reduceAcross).bindR
         (fun rg => RunResult.ok (some rg))
     | false, _ => RunResult.ok none).bindR (fun removedGrad =>
    (match removedGrad with
     | some rg => Descriptor.prepareGradients (Descriptor.new K)
         removedLhs.samples rg.samples removedRhs.samples
     | none => RunResult.ok (Descriptor.prepare (Descriptor.new K)
         removedLhs.samples removedRhs.samples)).bindR (fun output =>
    let (lhsMapping, st1) := buildIds removedLhs.mapping []
    let (rhsMapping, st2) := buildIds removedRhs.mapping st1
    match computeDotIndexes lhsMapping rhsMapping output.values.length with
    | none => RunResult.fatal "row index out of bounds"
    | some indexes =>
    match computeDotValues lhs.values rhs.values indexes
        output.features.count with
    | none => RunResult.fatal "column index out of bounds"
    | some newValues =>
    (match removedGrad with
     | none => RunResult.ok { output with values := newValues }
     | some rg =>
       match lhs.gradients with
       | none => RunResult.fatal "missing gradient data"
       | some lhsGradients =>
         let (gradMapping, _) := buildIds rg.mapping st2
         let nGradRows := (output.gradients.getD []).length
         match computeDotIndexes gradMapping rhsMapping nGradRows with
         | none => RunResult.fatal "row index out of bounds"
         | some gIndexes =>
         match computeDotValues lhsGradients rhs.values gIndexes
             output.features.count with
         | none => RunResult.fatal "column index out of bounds"
         | some newGradients =>
           RunResult.ok { output with
                          values := newValues
                          gradients := some newGradients }).bindR (fun output =>
    if opts.normalize then
      match output.gradients, output.gradientsSamples with
      | some _, some gs =>
        if gs.size ≠ output.samples.size + 2 then
          RunResult.fatal "unexpected gradient samples size"
        else if gs.names.getLast? ≠ some "spatial" then
          RunResult.fatal "the last gradient samples variable should be spatial"
        else if gs.rows.all (fun gr =>
            (output.samples.position (gr.take (gs.size - 2))).isSome) then
          RunResult.ok output
        else
          RunResult.fatal "this gradient sample does not correspond to a value sample"
      | some _, none => RunResult.fatal "missing gradient storage"
      | none, _ => RunResult.ok output
    else RunResult.ok output))))))

/-- Mapping triples used by dot for the two sides of a reduction, with
the shared block-id state threaded from the left to the right side;
both components are empty when a reduction fails. -/
def dotMappingsPair {K : Type} (lhs rhs : Descriptor K) (vars : List String) :
    List (Nat × Nat × Nat) × List (Nat × Nat × Nat) :=
  match removeFromSamples lhs.samples vars, removeFromSamples rhs.samples vars with
  | .ok rl, .ok rr =>
    let (lm, st1) := buildIds rl.mapping []
    let (rm, _) := buildIds rr.mapping st1
    (lm, rm)
  | _, _ => ([], [])

/-- Reduction mapping of a samples index (empty when the reduction
fails); used to state block-key conditions on descriptors. -/
def reducedMapping (samples : Indexes) (vars : List String) :
    List DensifiedIndex :=
  match removeFromSamples samples vars with
  | .ok r => r.mapping
  | _ => []

/-- Descriptor produced by a successful dot call (the fresh empty
descriptor otherwise); used to state properties of the dot output with
kernel-evaluable hypotheses. -/
def dotOut {K : Type} [CommRing K] (lhs rhs : Descriptor K)
    (opts : DotOptions) : Descriptor K :=
  match lhs.dot rhs opts with
  | .ok o => o
  | _ => Descriptor.new K

/-- Value of one accumulated output cell of the dot product, written as
the sum the accumulation loop computes. -/
def dotRawEntry {K : Type} [CommRing K] (lhs rhs : Descriptor K)
    (vars : List String) (r c : Nat) : K :=
  let lm := (dotMappingsPair lhs rhs vars).1
  let rm := (dotMappingsPair lhs rhs vars).2
  ((lm.filter (fun a => decide (a.1 = r))).map (fun a =>
    ((rm.filter (fun b => decide (b.1 = c ∧ b.2.2 = a.2.2))).map (fun b =>
      innerProd (lhs.values.getD a.2.1 []) (rhs.values.getD b.2.1 []))).sum)).sum

/-- Real-valued layer of the normalization step of Descriptor::dot: one
normalized output cell, the accumulated value divided by the square
roots of the two accumulated squared norms (compute_norm). -/
noncomputable def dotNormalizedEntry (lhs rhs : Descriptor ℝ)
    (vars : List String) (r c : Nat) : ℝ :=
  let lm := (dotMappingsPair lhs rhs vars).1
  let rm := (dotMappingsPair lhs rhs vars).2
  dotRawEntry lhs rhs vars r c /
    (Real.sqrt (dotNormSq lhs.values lm r) * Real.sqrt (dotNormSq rhs.values rm c))

/-- First-seen deduplication of a list of rows: the characterization of
the insertion-ordered set built by remove_from_samples. -/
def firstSeenDedup (l : List Row) : List Row :=
  l.foldl (fun acc x => if x ∈ acc then acc else acc ++ [x]) []

/-- Positions of the given variable names inside a name list, in
variable order (for stating characterizations of the reduction). -/
def varPositions (names vars : List String) : List Nat :=
  vars.map (fun v => idxOf names v)

/-- Block key of a sample row: the values of the variable positions in
variable order. -/
def blockOf (ps : List Nat) (row : Row) : Row := ps.map (fun i => row.getD i 0)

/-- Reduced sample of a row: the entries outside the variable
positions, keeping their original relative order. -/
def dropPositions (ps : List Nat) (row : Row) : Row :=
  ((List.range row.length).filter (fun n => decide (n ∉ ps))).map
    (fun n => row.getD n 0)

/-- Strict sortedness of a list of rows in the lexicographic order. -/
def rowSorted (l : List Row) : Prop := l.Pairwise (fun a b => rowLt a b = true)

/-- Gradient invariant of the specification: the gradient matrix and
the gradient-samples index are present together, and the last
gradient-samples column is named spatial. -/
def gradientInvariant {K : Type} (d : Descriptor K) : Prop :=
  (d.gradients.isSome ↔ d.gradientsSamples.isSome) ∧
  ∀ gs, d.gradientsSamples = some gs → gs.names.getLast? = some "spatial"

/-- Descriptors reachable through the public operations: new, prepare,
prepare_gradients, densify and dot (successful calls). -/
inductive Reachable {K : Type} [CommRing K] : Descriptor K → Prop
  | new : Reachable (Descriptor.new K)
  | prepare (d : Descriptor K) (s f : Indexes) :
      Reachable d → Reachable (d.prepare s f)
  | prepareGradients (d d2 : Descriptor K) (s g f : Indexes) :
      Reachable d → d.prepareGradients s g f = .ok d2 → Reachable d2
  | densify (d d2 : Descriptor K) (vars : List String)
      (requested : Option (Nat × List Row)) :
      Reachable d → d.densify vars requested = (d2, .ok ()) → Reachable d2
  | dot (lhs rhs d2 : Descriptor K) (opts : DotOptions) :
      Reachable lhs → Reachable rhs → lhs.dot rhs opts = .ok d2 → Reachable d2

/-- Descriptors reachable through the public operations when no
densify call lists the spatial column among its variables. -/
inductive ReachableSpatialSafe {K : Type} [CommRing K] : Descriptor K → Prop
  | new : ReachableSpatialSafe (Descriptor.new K)
  | prepare (d : Descriptor K) (s f : Indexes) :
      ReachableSpatialSafe d → ReachableSpatialSafe (d.prepare s f)
  | prepareGradients (d d2 : Descriptor K) (s g f : Indexes) :
      ReachableSpatialSafe d → d.prepareGradients s g f = .ok d2 →
      ReachableSpatialSafe d2
  | densify (d d2 : Descriptor K) (vars : List String)
      (requested : Option (Nat × List Row)) :
      ReachableSpatialSafe d → "spatial" ∉ vars →
      d.densify vars requested = (d2, .ok ()) → ReachableSpatialSafe d2
  | dot (lhs rhs d2 : Descriptor K) (opts : DotOptions) :
      ReachableSpatialSafe lhs → ReachableSpatialSafe rhs →
      lhs.dot rhs opts = .ok d2 → ReachableSpatialSafe d2

/-- Worked example of the specification: four (structure, species)
samples, two features, values 1 to 8. -/
def exC2 : Descriptor ℤ :=
  { values := [[1,2],[3,4],[5,6],[7,8]],
    samples := { names := ["structure","species"],
                 rows := [[0,1],[0,6],[1,6],[1,8]] },
    features := { names := ["n"], rows := [[0],[1]] },
    gradients := none, gradientsSamples := none }

/-- Descriptor with two identical sample rows (sample rows are not
required to be unique by the type). -/
def exDupA : Descriptor ℤ :=
  { values := [[1],[2]],
    samples := { names := ["s"], rows := [[0],[0]] },
    features := { names := ["n"], rows := [[0]] },
    gradients := none, gradientsSamples := none }

/-- Descriptor with two identical (structure, species) sample rows. -/
def exDupB : Descriptor ℤ :=
  { values := [[1],[2]],
    samples := { names := ["s","v"], rows := [[0,1],[0,1]] },
    features := { names := ["n"], rows := [[0]] },
    gradients := none, gradientsSamples := none }

/-- Descriptor whose features index has no columns at all. -/
def exNoFeatureColumns : Descriptor ℤ :=
  { values := [[]],
    samples := { names := ["s","v"], rows := [[0,1]] },
    features := { names := [], rows := [] },
    gradients := none, gradientsSamples := none }

/-- Descriptor carrying gradient data whose gradient-samples index does
not contain the sample column v. -/
def exGradMissingVar : Descriptor ℤ :=
  { values := [[1]],
    samples := { names := ["s","v"], rows := [[0,0]] },
    features := { names := ["n"], rows := [[0]] },
    gradients := some [[1]],
    gradientsSamples := some { names := ["s","spatial"], rows := [[0,0]] } }

/-- Samples index that itself contains a column named spatial. -/
def exSpatialSamples : Indexes := { names := ["a","spatial"], rows := [[0,0]] }

/-- Feature index with a single column and row. -/
def exOneFeature : Indexes := { names := ["f"], rows := [[0]] }

/-- Descriptor shaped by prepare_gradients over exSpatialSamples. -/
def exSpatialPrepared : Descriptor ℤ :=
  { values := [[0]],
    samples := exSpatialSamples,
    features := exOneFeature,
    gradients := some [[0]],
    gradientsSamples := some exSpatialSamples }

/-- State of exSpatialPrepared after densifying along spatial. -/
def exSpatialDensified : Descriptor ℤ :=
  (exSpatialPrepared.densify ["spatial"] none).1

/-- Two-sample descriptor with distinct block keys, for the
block-respecting kernel property of dot. -/
def exC5 : Descriptor ℤ :=
  { values := [[1],[2]], samples := { names := ["s","v"], rows := [[0,1],[1,6]] },
    features := { names := ["n"], rows := [[0]] },
    gradients := none, gradientsSamples := none }

/-- Work item of compute_dot_products_indexes for one lhs mapping
triple: the lhs old row together with the rhs (old row, new sample)
pairs whose block id matches. -/
def dotWorkItem (rm : List (Nat × Nat × Nat)) (t : Nat × Nat × Nat) :
    DotIndexesPerRow :=
  { oldLhs := t.2.1,
    rhsIndexes := (rm.filter (fun s => decide (s.2.2 = t.2.2))).map
      (fun s => (s.2.1, s.1)) }

/-- Real-valued one-cell descriptor for the normalization layer. -/
def exR : Descriptor ℝ :=
  { values := [[1]], samples := { names := ["s"], rows := [[0]] },
    features := { names := ["f"], rows := [[0]] },
    gradients := none, gradientsSamples := none }

/-- Variable positions of a densify call on a descriptor. -/
def densifyPositions {K : Type} (d : Descriptor K) (vars : List String) :
    List Nat :=
  varPositions d.samples.names vars

/-- Sorted set of block keys observed in the samples of a descriptor. -/
def densifyBlocks {K : Type} (d : Descriptor K) (vars : List String) :
    List Row :=
  btOfList (d.samples.rows.map (blockOf (densifyPositions d vars)))

/-- Reduced sample rows of a descriptor in first-seen order. -/
def densifyReduced {K : Type} (d : Descriptor K) (vars : List String) :
    List Row :=
  firstSeenDedup (d.samples.rows.map (dropPositions (densifyPositions d vars)))

/-- Mapping triples of the sample reduction of a descriptor. -/
def densifyMapping {K : Type} (d : Descriptor K) (vars : List String) :
    List DensifiedIndex :=
  d.samples.rows.enum.map (fun p =>
    { oldSampleI := p.1,
      newSampleI := idxOf (densifyReduced d vars)
        (dropPositions (densifyPositions d vars) p.2),
      vars := blockOf (densifyPositions d vars) p.2 })

/-- Reduced samples index produced by densify. -/
def densifySamplesIdx {K : Type} (d : Descriptor K) (vars : List String) :
    Indexes :=
  { names := d.samples.names.filter (fun n => !vars.contains n),
    rows := densifyReduced d vars }

/-- Feature index produced by densify for a given finalized block list:
the variables names prepended to the feature names, and one block of
feature rows per block key. -/
def densifyFeaturesIdx {K : Type} (d : Descriptor K) (vars : List String)
    (blocksList : List Row) : Indexes :=
  { names := vars ++ d.features.names,
    rows := blocksList.flatMap (fun b => d.features.rows.map (b ++ ·)) }

/-- Claim C2: densifying the worked example along species succeeds and
produces two structure rows, six feature columns in three width-two
blocks for species 1, 6, 8 in sorted order, and the stated zero-filled
values. -/
theorem claim_C2_densify_worked_example :
    exC2.densify ["species"] none =
      ({ values := [[1,2,3,4,0,0],[0,0,5,6,7,8]],
         samples := { names := ["structure"], rows := [[0],[1]] },
         features := { names := ["species","n"]
                       rows := [[1,0],[1,1],[6,0],[6,1],[8,0],[8,1]] },
         gradients := none, gradientsSamples := none }, .ok ()) := by
  decide

/-- Claim C1 counterexample: with duplicated sample rows the dot
product merges the duplicates (its output has a single deduplicated
sample row summing their contributions), while densify with an empty
variable list is a no-op, so the plain matrix product keeps two rows;
the claimed equality of the samples indexes and of the value matrices
fails. -/
theorem claim_C1_counterexample :
    exDupA.dot exDupA { reduceAcross := [], gradients := false, normalize := false } =
      .ok { values := [[9]],
            samples := { names := ["s"], rows := [[0]] },
            features := { names := ["s"], rows := [[0]] },
            gradients := none, gradientsSamples := none } ∧
    exDupA.densify [] none = (exDupA, .ok ()) ∧
    ({ names := ["s"], rows := [[0]] } : Indexes) ≠ exDupA.samples ∧
    ([[9]] : Matrix ℤ) ≠ matMulT exDupA.values exDupA.values := by
  refine ⟨by decide, by decide, by decide, by decide⟩

/-- Claim C4 counterexample: with duplicated sample rows densify
overwrites one copy with the other, so the total of the values drops
from 3 to 2 although the call succeeds. -/
theorem claim_C4_counterexample :
    exDupB.densify ["v"] none =
      ({ values := [[2]],
         samples := { names := ["s"], rows := [[0]] },
         features := { names := ["v","n"], rows := [[1,0]] },
         gradients := none, gradientsSamples := none }, .ok ()) ∧
    sumMat ([[2]] : Matrix ℤ) ≠ sumMat exDupB.values := by
  refine ⟨by decide, by decide⟩

/-- Claim C3 counterexample: on a descriptor whose features index has
no columns, densify along a present, non-empty variable list succeeds
as a no-op, so neither the claimed reduced samples nor the claimed
feature layout is produced. -/
theorem claim_C3_counterexample :
    exNoFeatureColumns.densify ["v"] none = (exNoFeatureColumns, .ok ()) ∧
    "v" ∈ exNoFeatureColumns.samples.names ∧
    exNoFeatureColumns.samples.rows ≠
      firstSeenDedup (exNoFeatureColumns.samples.rows.map
        (dropPositions (varPositions exNoFeatureColumns.samples.names ["v"]))) ∧
    exNoFeatureColumns.features.names ≠
      ["v"] ++ exNoFeatureColumns.features.names := by
  refine ⟨by decide, by decide, by decide, by decide⟩

/-- Claim C6 counterexample: none of the four listed causes holds
(equal features, the reduced name appears in the samples of both
sides, gradient data is present), yet the call returns an
InvalidParameter error because the name is missing from the
gradient-samples columns; so the four listed cases are not exhaustive. -/
theorem claim_C6_counterexample :
    (exGradMissingVar.dot exGradMissingVar
      { reduceAcross := ["v"], gradients := true, normalize := false }).isInvalid
        = true ∧
    exGradMissingVar.features = exGradMissingVar.features ∧
    "v" ∈ exGradMissingVar.samples.names ∧
    exGradMissingVar.gradients.isSome = true ∧
    exGradMissingVar.gradientsSamples.isSome = true := by
  refine ⟨by decide, rfl, by decide, by decide, by decide⟩

/-- Claim C8 counterexample: a descriptor reachable through
prepare_gradients followed by densify along a samples column named
spatial ends with gradient data whose gradient-samples index no longer
has spatial as its last column name. -/
theorem claim_C8_counterexample :
    Reachable exSpatialDensified ∧ ¬ gradientInvariant exSpatialDensified := by
  constructor
  · exact Reachable.densify exSpatialPrepared exSpatialDensified ["spatial"] none
      (Reachable.prepareGradients (Descriptor.new ℤ) exSpatialPrepared
        exSpatialSamples exSpatialSamples exOneFeature Reachable.new (by decide))
      (by decide)
  · intro h
    have h2 := h.2 { names := ["a"], rows := [[0]] } (by decide)
    exact absurd h2 (by decide)

theorem rowLt_irrefl (a : Row) : rowLt a a = false := by
  induction a with
  | nil => rfl
  | cons x xs ih => simp [rowLt, ih]

theorem rowLt_trans {a b c : Row} (h1 : rowLt a b = true)
    (h2 : rowLt b c = true) : rowLt a c = true := by
  induction a generalizing b c with
  | nil =>
    cases b with
    | nil => simp [rowLt] at h1
    | cons y ys =>
      cases c with
      | nil => simp [rowLt] at h2
      | cons z zs => simp [rowLt]
  | cons x xs ih =>
    cases b with
    | nil => simp [rowLt] at h1
    | cons y ys =>
      cases c with
      | nil => simp [rowLt] at h2
      | cons z zs =>
        simp only [rowLt] at h1 h2 ⊢
        by_cases hxy : x < y
        · by_cases hyz : y < z
          · simp [lt_trans hxy hyz]
          · by_cases hzy : z < y
            · simp [hyz, hzy] at h2
            · have : y = z := le_antisymm (not_lt.1 hzy) (not_lt.1 hyz)
              subst this
              simp [hxy]
        · by_cases hyx : y < x
          · simp [hxy, hyx] at h1
          · have : x = y := le_antisymm (not_lt.1 hyx) (not_lt.1 hxy)
            subst this
            by_cases hyz : x < z
            · simp [hyz]
            · by_cases hzy : z < x
              · simp [hyz, hzy] at h2
              · have : x = z := le_antisymm (not_lt.1 hzy) (not_lt.1 hyz)
                subst this
                simp [lt_irrefl] at h1 h2 ⊢
                exact ih h1 h2

theorem rowLt_asymm {a b : Row} (h : rowLt a b = true) : rowLt b a = false := by
  by_contra hc
  have h2 : rowLt b a = true := by
    cases hb : rowLt b a with
    | true => rfl
    | false => exact absurd hb hc
  have := rowLt_trans h h2
  rw [rowLt_irrefl] at this
  exact Bool.false_ne_true this

theorem rowLt_connex {a b : Row} (h1 : rowLt a b = false)
    (h2 : rowLt b a = false) : a = b := by
  induction a generalizing b with
  | nil =>
    cases b with
    | nil => rfl
    | cons y ys => simp [rowLt] at h1
  | cons x xs ih =>
    cases b with
    | nil => simp [rowLt] at h2
    | cons y ys =>
      simp only [rowLt] at h1 h2
      by_cases hxy : x < y
      · simp [hxy] at h1
      · by_cases hyx : y < x
        · simp [hxy, hyx] at h2
        · have hx : x = y := le_antisymm (not_lt.1 hyx) (not_lt.1 hxy)
          subst hx
          simp [lt_irrefl] at h1 h2
          rw [ih h1 h2]

theorem mem_btInsert {y x : Row} {l : List Row} :
    y ∈ btInsert x l ↔ y = x ∨ y ∈ l := by
  induction l with
  | nil => simp [btInsert]
  | cons z zs ih =>
    simp only [btInsert]
    by_cases h1 : rowLt x z = true
    · rw [if_pos h1]
      simp [List.mem_cons]
    · rw [if_neg h1]
      by_cases h2 : x = z
      · subst h2
        rw [if_pos rfl]
        simp only [List.mem_cons]
        tauto
      · rw [if_neg h2]
        simp only [List.mem_cons, ih]
        tauto

theorem rowSorted_btInsert {x : Row} {l : List Row} (h : rowSorted l) :
    rowSorted (btInsert x l) := by
  induction l with
  | nil => simp [btInsert, rowSorted]
  | cons z zs ih =>
    rw [rowSorted, List.pairwise_cons] at h
    obtain ⟨hz, hzs⟩ := h
    simp only [btInsert]
    by_cases h1 : rowLt x z = true
    · rw [if_pos h1, rowSorted, List.pairwise_cons]
      refine ⟨?_, ?_⟩
      · intro b hb
        rcases List.mem_cons.1 hb with hb | hb
        · subst hb; exact h1
        · exact rowLt_trans h1 (hz b hb)
      · rw [List.pairwise_cons]
        exact ⟨hz, hzs⟩
    · rw [if_neg h1]
      by_cases h2 : x = z
      · subst h2
        rw [if_pos rfl, rowSorted, List.pairwise_cons]
        exact ⟨hz, hzs⟩
      · rw [if_neg h2, rowSorted, List.pairwise_cons]
        constructor
        · intro b hb
          rcases mem_btInsert.1 hb with hb | hb
          · rw [hb]
            cases hzx : rowLt z x with
            | true => rfl
            | false =>
              cases hxz : rowLt x z with
              | true => exact absurd hxz h1
              | false => exact absurd (rowLt_connex hxz hzx) h2
          · exact hz b hb
        · exact ih hzs

theorem rowSorted_nodup {l : List Row} (h : rowSorted l) : l.Nodup := by
  refine List.Pairwise.imp ?_ h
  intro a b hab
  intro he
  subst he
  rw [rowLt_irrefl] at hab
  exact Bool.false_ne_true hab

theorem rowSorted_btOfList (l : List Row) : rowSorted (btOfList l) := by
  have main : ∀ (l : List Row) (acc : List Row), rowSorted acc →
      rowSorted (l.foldl (fun s r => btInsert r s) acc) := by
    intro l
    induction l with
    | nil => intro acc h; exact h
    | cons x xs ih =>
      intro acc h
      exact ih (btInsert x acc) (rowSorted_btInsert h)
  exact main l [] (by simp [rowSorted])

theorem mem_btOfList {x : Row} {l : List Row} : x ∈ btOfList l ↔ x ∈ l := by
  have main : ∀ (l : List Row) (acc : List Row) (x : Row),
      x ∈ l.foldl (fun s r => btInsert r s) acc ↔ x ∈ acc ∨ x ∈ l := by
    intro l
    induction l with
    | nil => intro acc x; simp
    | cons y ys ih =>
      intro acc x
      rw [List.foldl_cons, ih, mem_btInsert]
      simp [List.mem_cons]
      tauto
  rw [btOfList, main]
  simp

theorem rowSorted_ext {l1 l2 : List Row} (h1 : rowSorted l1) (h2 : rowSorted l2)
    (hm : ∀ x, x ∈ l1 ↔ x ∈ l2) : l1 = l2 := by
  induction l1 generalizing l2 with
  | nil =>
    cases l2 with
    | nil => rfl
    | cons y ys => exact absurd ((hm y).2 (List.mem_cons_self y ys)) (List.not_mem_nil y)
  | cons x xs ih =>
    cases l2 with
    | nil => exact absurd ((hm x).1 (List.mem_cons_self x xs)) (List.not_mem_nil x)
    | cons y ys =>
      rw [rowSorted, List.pairwise_cons] at h1 h2
      obtain ⟨hx1, hs1⟩ := h1
      obtain ⟨hy2, hs2⟩ := h2
      have hxy : x = y := by
        rcases List.mem_cons.1 ((hm x).1 (List.mem_cons_self x xs)) with h | h
        · exact h
        · rcases List.mem_cons.1 ((hm y).2 (List.mem_cons_self y ys)) with h' | h'
          · exact h'.symm
          · have t1 := hy2 x h
            have t2 := hx1 y h'
            rw [rowLt_asymm t1] at t2
            exact absurd t2 Bool.false_ne_true
      subst hxy
      have htl : ∀ z, z ∈ xs ↔ z ∈ ys := by
        intro z
        constructor
        · intro hz
          rcases List.mem_cons.1 ((hm z).1 (List.mem_cons.2 (Or.inr hz))) with h | h
          · subst h
            have := hx1 z hz
            rw [rowLt_irrefl] at this
            exact absurd this Bool.false_ne_true
          · exact h
        · intro hz
          rcases List.mem_cons.1 ((hm z).2 (List.mem_cons.2 (Or.inr hz))) with h | h
          · subst h
            have := hy2 z hz
            rw [rowLt_irrefl] at this
            exact absurd this Bool.false_ne_true
          · exact h
      rw [ih hs1 hs2 htl]

theorem btOfList_perm {l1 l2 : List Row} (h : l1.Perm l2) :
    btOfList l1 = btOfList l2 := by
  refine rowSorted_ext (rowSorted_btOfList l1) (rowSorted_btOfList l2) ?_
  intro x
  rw [mem_btOfList, mem_btOfList]
  exact ⟨fun hx => h.mem_iff.1 hx, fun hx => h.mem_iff.2 hx⟩

theorem idxOf_eq_indexOf {α : Type} [DecidableEq α] (l : List α) (x : α) :
    idxOf l x = List.indexOf x l := by
  rw [idxOf]
  induction l with
  | nil => rfl
  | cons a l ih =>
    rw [List.findIdx?_cons]
    by_cases h : a = x
    · subst h
      simp [List.indexOf_cons_self]
    · rw [if_neg (by simp [h]), List.indexOf_cons_ne _ (by simpa using h)]
      rw [List.findIdx?_succ]
      cases hf : l.findIdx? (fun y => decide (y = x)) with
      | none => simp [hf] at ih ⊢; omega
      | some i => simp [hf] at ih ⊢; omega

theorem idxOf_lt_length {α : Type} [DecidableEq α] {l : List α} {x : α}
    (h : x ∈ l) : idxOf l x < l.length := by
  rw [idxOf_eq_indexOf]
  exact List.indexOf_lt_length.2 h

theorem getD_idxOf {α : Type} [DecidableEq α] {l : List α} {x : α}
    (h : x ∈ l) (d : α) : l.getD (idxOf l x) d = x := by
  rw [idxOf_eq_indexOf,
    List.getD_eq_getElem l d (List.indexOf_lt_length.2 h)]
  exact List.getElem_indexOf (List.indexOf_lt_length.2 h)

theorem idxOf_append_of_mem {α : Type} [DecidableEq α] {l t : List α} {x : α}
    (h : x ∈ l) : idxOf (l ++ t) x = idxOf l x := by
  rw [idxOf_eq_indexOf, idxOf_eq_indexOf]
  exact List.indexOf_append_of_mem h

theorem idxOf_prefix {α : Type} [DecidableEq α] {l t : List α} {x : α}
    (hp : l <+: t) (h : x ∈ l) : idxOf t x = idxOf l x := by
  obtain ⟨s, rfl⟩ := hp
  exact idxOf_append_of_mem h

theorem idxOf_append_self {α : Type} [DecidableEq α] {l : List α} {x : α}
    (h : x ∉ l) : idxOf (l ++ [x]) x = l.length := by
  rw [idxOf_eq_indexOf, List.indexOf_append_of_not_mem h,
    List.indexOf_cons_self]
  omega

theorem idxOf_inj {α : Type} [DecidableEq α] {l : List α} {x y : α}
    (hx : x ∈ l) (hy : y ∈ l) (h : idxOf l x = idxOf l y) : x = y := by
  rw [idxOf_eq_indexOf, idxOf_eq_indexOf] at h
  exact (List.indexOf_inj hx hy).1 h

theorem findIdxP_of_mem {α : Type} [DecidableEq α] {l : List α} {x : α}
    (h : x ∈ l) :
    l.findIdx? (fun y => decide (y = x)) = some (List.indexOf x l) := by
  have hne : l.findIdx? (fun y => decide (y = x)) ≠ none := by
    intro hnone
    rw [List.findIdx?_eq_none_iff] at hnone
    have := hnone x h
    simp at this
  cases hf : l.findIdx? (fun y => decide (y = x)) with
  | none => exact absurd hf hne
  | some i =>
    have h2 := idxOf_eq_indexOf l x
    rw [idxOf, hf] at h2
    simp at h2
    rw [h2]

theorem findIdxP_of_not_mem {α : Type} [DecidableEq α] {l : List α} {x : α}
    (h : x ∉ l) : l.findIdx? (fun y => decide (y = x)) = none := by
  rw [List.findIdx?_eq_none_iff]
  intro y hy
  simp only [decide_eq_false_iff_not]
  intro he
  exact h (he ▸ hy)

theorem insertFull_snd (l : List Row) (x : Row) :
    (insertFull l x).2 = if x ∈ l then l else l ++ [x] := by
  rw [insertFull]
  by_cases h : x ∈ l
  · rw [findIdxP_of_mem h, if_pos h]
  · rw [findIdxP_of_not_mem h, if_neg h]

theorem insertFull_fst (l : List Row) (x : Row) :
    (insertFull l x).1 = idxOf (insertFull l x).2 x := by
  rw [insertFull_snd, insertFull]
  by_cases h : x ∈ l
  · rw [findIdxP_of_mem h, if_pos h, idxOf_eq_indexOf]
  · rw [findIdxP_of_not_mem h, if_neg h, idxOf_append_self h]

theorem mem_firstSeenFold {x : Row} (l : List Row) (acc : List Row) :
    x ∈ l.foldl (fun acc y => if y ∈ acc then acc else acc ++ [y]) acc ↔
      x ∈ acc ∨ x ∈ l := by
  induction l generalizing acc with
  | nil => simp
  | cons y ys ih =>
    rw [List.foldl_cons, ih]
    by_cases h : y ∈ acc
    · rw [if_pos h]
      simp only [List.mem_cons]
      constructor
      · rintro (h1 | h1)
        · exact Or.inl h1
        · exact Or.inr (Or.inr h1)
      · rintro (h1 | h1 | h1)
        · exact Or.inl h1
        · exact Or.inl (h1 ▸ h)
        · exact Or.inr h1
    · rw [if_neg h]
      simp only [List.mem_append, List.mem_singleton, List.mem_cons]
      tauto

theorem mem_firstSeenDedup {x : Row} {l : List Row} :
    x ∈ firstSeenDedup l ↔ x ∈ l := by
  rw [firstSeenDedup, mem_firstSeenFold]
  simp

theorem firstSeenFold_prefix (l : List Row) (acc : List Row) :
    acc <+: l.foldl (fun acc y => if y ∈ acc then acc else acc ++ [y]) acc := by
  induction l generalizing acc with
  | nil => exact List.prefix_refl acc
  | cons y ys ih =>
    rw [List.foldl_cons]
    by_cases h : y ∈ acc
    · rw [if_pos h]; exact ih acc
    · rw [if_neg h]
      exact List.IsPrefix.trans (List.prefix_append acc [y]) (ih (acc ++ [y]))

theorem firstSeenFold_nodup (l : List Row) (acc : List Row) (h : acc.Nodup) :
    (l.foldl (fun acc y => if y ∈ acc then acc else acc ++ [y]) acc).Nodup := by
  induction l generalizing acc with
  | nil => exact h
  | cons y ys ih =>
    rw [List.foldl_cons]
    by_cases hy : y ∈ acc
    · rw [if_pos hy]; exact ih acc h
    · rw [if_neg hy]
      refine ih (acc ++ [y]) ?_
      rw [List.nodup_append]
      exact ⟨h, List.nodup_singleton y, by simpa using hy⟩

theorem firstSeenDedup_nodup (l : List Row) : (firstSeenDedup l).Nodup :=
  firstSeenFold_nodup l [] List.nodup_nil

theorem removeAt_eq_take_drop {α : Type} {l : List α} {p : Nat}
    (h : p < l.length) : removeAt l p = some (l.take p ++ l.drop (p + 1)) := by
  induction l generalizing p with
  | nil => simp at h
  | cons a l ih =>
    cases p with
    | zero => simp [removeAt]
    | succ q =>
      simp only [removeAt, List.take_succ_cons, List.drop_succ_cons]
      rw [ih (by simpa using h)]
      rfl

theorem removeAt_length {α : Type} {l l' : List α} {p : Nat}
    (h : removeAt l p = some l') : l'.length + 1 = l.length := by
  induction l generalizing p l' with
  | nil => simp [removeAt] at h
  | cons a l ih =>
    cases p with
    | zero =>
      simp only [removeAt, Option.some.injEq] at h
      subst h
      rfl
    | succ q =>
      simp only [removeAt] at h
      cases hr : removeAt l q with
      | none => rw [hr] at h; simp at h
      | some t =>
        rw [hr] at h
        simp only [Option.map_some', Option.some.injEq] at h
        subst h
        have := ih hr
        simp only [List.length_cons]
        omega

theorem insertDesc_perm (n : Nat) (l : List Nat) :
    (insertDesc n l).Perm (n :: l) := by
  induction l with
  | nil => exact List.Perm.refl _
  | cons m ms ih =>
    rw [insertDesc]
    by_cases h : m ≤ n
    · rw [if_pos h]
    · rw [if_neg h]
      exact List.Perm.trans (List.Perm.cons m ih) (List.Perm.swap n m ms)

theorem sortDesc_perm (l : List Nat) : (sortDesc l).Perm l := by
  induction l with
  | nil => exact List.Perm.refl _
  | cons n ns ih =>
    rw [sortDesc, List.foldr_cons]
    exact List.Perm.trans (insertDesc_perm n _) (List.Perm.cons n ih)

theorem insertDesc_sorted {n : Nat} {l : List Nat}
    (h : l.Pairwise (fun a b => b ≤ a)) :
    (insertDesc n l).Pairwise (fun a b => b ≤ a) := by
  induction l with
  | nil => simp [insertDesc]
  | cons m ms ih =>
    rw [List.pairwise_cons] at h
    obtain ⟨hm, hms⟩ := h
    rw [insertDesc]
    by_cases hc : m ≤ n
    · rw [if_pos hc, List.pairwise_cons]
      refine ⟨?_, List.pairwise_cons.2 ⟨hm, hms⟩⟩
      intro b hb
      rcases List.mem_cons.1 hb with hb | hb
      · omega
      · have := hm b hb
        omega
    · rw [if_neg hc, List.pairwise_cons]
      constructor
      · intro b hb
        rcases List.mem_cons.1 ((insertDesc_perm n ms).mem_iff.1 hb) with hb | hb
        · omega
        · exact hm b hb
      · exact ih hms

theorem sortDesc_sorted (l : List Nat) :
    (sortDesc l).Pairwise (fun a b => b ≤ a) := by
  induction l with
  | nil => simp [sortDesc]
  | cons n ns ih => exact insertDesc_sorted ih

theorem getD_removeOne {α : Type} [Inhabited α] {r : List α} {p : Nat}
    (hp : p < r.length) (n : Nat) (d : α) :
    (r.take p ++ r.drop (p + 1)).getD n d =
      if n < p then r.getD n d else r.getD (n + 1) d := by
  induction r generalizing p n with
  | nil => simp at hp
  | cons a t ih =>
    cases p with
    | zero => simp [List.getD_cons_succ]
    | succ q =>
      cases n with
      | zero => simp [List.getD_cons_zero]
      | succ m =>
        simp only [List.take_succ_cons, List.drop_succ_cons, List.cons_append,
          List.getD_cons_succ]
        rw [ih (by simpa using hp) m]
        by_cases hc : m < q
        · rw [if_pos hc, if_pos (by omega)]
        · rw [if_neg hc, if_neg (by omega)]

theorem rangeFilter_shift {len p : Nat} {qs : List Nat}
    (hq : ∀ x ∈ qs, x < p) (hp : p < len) :
    (List.range len).filter (fun n => decide (n ∉ p :: qs)) =
      ((List.range (len - 1)).filter (fun n => decide (n ∉ qs))).map
        (fun n => if n < p then n else n + 1) := by
  obtain ⟨k, rfl⟩ : ∃ k, len = p + (k + 1) := ⟨len - p - 1, by omega⟩
  have hsub : p + (k + 1) - 1 = p + k := by omega
  have hfirst : (List.range p).filter (fun n => decide (n ∉ p :: qs)) =
      (List.range p).filter (fun n => decide (n ∉ qs)) := by
    apply List.filter_congr
    intro n hn
    have hlt : n < p := List.mem_range.1 hn
    simp only [List.mem_cons, decide_eq_decide]
    constructor
    · intro hx h2; exact hx (Or.inr h2)
    · intro hx h2
      rcases h2 with h2 | h2
      · omega
      · exact hx h2
  have hL : (List.range (p + (k + 1))).filter (fun n => decide (n ∉ p :: qs)) =
      (List.range p).filter (fun n => decide (n ∉ qs)) ++
        (List.range k).map (fun j => p + j + 1) := by
    rw [List.range_add, List.filter_append, hfirst]
    congr 1
    rw [List.range_succ_eq_map, List.map_cons, List.filter_cons]
    rw [if_neg (by simp)]
    rw [List.map_map]
    have hall : ∀ t ∈ (List.range k).map ((fun x => p + x) ∘ Nat.succ),
        (fun n => decide (n ∉ p :: qs)) t = true := by
      intro t ht
      rcases List.mem_map.1 ht with ⟨j, hj, rfl⟩
      simp only [Function.comp_apply, List.mem_cons, decide_eq_true_eq]
      intro hcon
      rcases hcon with hcon | hcon
      · omega
      · have := hq _ hcon
        omega
    rw [List.filter_eq_self.2 hall]
    apply List.map_congr_left
    intro j _
    simp only [Function.comp_apply]
    omega
  have hR : (List.range (p + k)).filter (fun n => decide (n ∉ qs)) =
      (List.range p).filter (fun n => decide (n ∉ qs)) ++
        (List.range k).map (fun j => p + j) := by
    rw [List.range_add, List.filter_append]
    congr 1
    apply List.filter_eq_self.2
    intro t ht
    rcases List.mem_map.1 ht with ⟨j, hj, rfl⟩
    simp only [decide_eq_true_eq]
    intro hcon
    have := hq _ hcon
    omega
  rw [hsub, hL, hR, List.map_append, List.map_map]
  congr 1
  · have : ∀ n ∈ (List.range p).filter (fun n => decide (n ∉ qs)),
        (if n < p then n else n + 1) = n := by
      intro n hn
      have : n < p := List.mem_range.1 (List.mem_filter.1 hn).1
      rw [if_pos this]
    refine ((List.map_congr_left this).trans ?_).symm
    simp
  · apply (List.map_congr_left ?_).symm
    intro j _
    simp only [Function.comp_apply]
    rw [if_neg (by omega)]

theorem dropPositions_nil (r : Row) : dropPositions [] r = r := by
  rw [dropPositions]
  have : ∀ n ∈ List.range r.length, (fun n => decide (n ∉ ([] : List Nat))) n = true := by
    intro n _
    simp
  rw [List.filter_eq_self.2 this]
  apply List.ext_getElem
  · simp
  · intro n h1 h2
    simp only [List.getElem_map, List.getElem_range]
    rw [List.getD_eq_getElem r 0 (by simpa using h2)]

theorem dropPositions_cons_max {p : Nat} {qs : List Nat} {r : Row}
    (hp : p < r.length) (hq : ∀ x ∈ qs, x < p) :
    dropPositions (p :: qs) r = dropPositions qs (r.take p ++ r.drop (p + 1)) := by
  rw [dropPositions, dropPositions]
  have hlen : (r.take p ++ r.drop (p + 1)).length = r.length - 1 := by
    simp
    omega
  rw [hlen, rangeFilter_shift hq hp, List.map_map]
  apply List.map_congr_left
  intro n hn
  simp only [Function.comp_apply]
  rw [getD_removeOne hp]
  by_cases hc : n < p
  · rw [if_pos hc, if_pos hc]
  · rw [if_neg hc, if_neg hc]

theorem removeSorted_eq {q : List Nat} {r : Row}
    (hs : q.Pairwise (fun a b => b ≤ a)) (hnd : q.Nodup)
    (hb : ∀ x ∈ q, x < r.length) :
    q.foldl (fun acc i => acc.bind (fun t => removeAt t i)) (some r) =
      some (dropPositions q r) := by
  induction q generalizing r with
  | nil => simp [dropPositions_nil]
  | cons p qs ih =>
    rw [List.pairwise_cons] at hs
    obtain ⟨hple, hqs⟩ := hs
    rw [List.nodup_cons] at hnd
    obtain ⟨hpn, hqnd⟩ := hnd
    have hplt : p < r.length := hb p (List.mem_cons_self p qs)
    have hqlt : ∀ x ∈ qs, x < p := by
      intro x hx
      have h1 := hple x hx
      have h2 : x ≠ p := fun he => hpn (he ▸ hx)
      omega
    rw [List.foldl_cons]
    simp only [Option.some_bind]
    rw [removeAt_eq_take_drop hplt]
    have hb2 : ∀ x ∈ qs, x < (r.take p ++ r.drop (p + 1)).length := by
      intro x hx
      have := hqlt x hx
      simp
      omega
    rw [ih hqs hqnd hb2, dropPositions_cons_max hplt hqlt]

theorem removeRowAt_eq_dropPositions {ps : List Nat} {r : Row}
    (hnd : ps.Nodup) (hb : ∀ p ∈ ps, p < r.length) :
    removeRowAt ps r = some (dropPositions ps r) := by
  rw [removeRowAt]
  have hperm := sortDesc_perm ps
  rw [removeSorted_eq (sortDesc_sorted ps) (hperm.nodup_iff.2 hnd)
    (fun x hx => hb x (hperm.mem_iff.1 hx))]
  congr 1
  rw [dropPositions, dropPositions]
  congr 1
  apply List.filter_congr
  intro n _
  simp only [decide_eq_decide]
  rw [hperm.mem_iff]

theorem mem_insertFull_snd (l : List Row) (x : Row) : x ∈ (insertFull l x).2 := by
  rw [insertFull_snd]
  by_cases h : x ∈ l
  · rw [if_pos h]; exact h
  · rw [if_neg h]; simp

theorem foldRemove_none (q : List Nat) :
    q.foldl (fun acc i => acc.bind (fun t => removeAt t i))
      (none : Option Row) = none := by
  induction q with
  | nil => rfl
  | cons p qs ih => simpa using ih

theorem foldRemove_length {q : List Nat} {r s : Row}
    (h : q.foldl (fun acc i => acc.bind (fun t => removeAt t i)) (some r) = some s) :
    s.length + q.length = r.length := by
  induction q generalizing r with
  | nil =>
    simp at h
    subst h
    rfl
  | cons p qs ih =>
    rw [List.foldl_cons] at h
    simp only [Option.some_bind] at h
    cases hr : removeAt r p with
    | none =>
      rw [hr, foldRemove_none] at h
      simp at h
    | some t =>
      rw [hr] at h
      have h1 := ih h
      have h2 := removeAt_length hr
      simp only [List.length_cons]
      omega

theorem removeRowAt_some_length {ps : List Nat} {r s : Row}
    (h : removeRowAt ps r = some s) : s.length + ps.length = r.length := by
  rw [removeRowAt] at h
  have := foldRemove_length h
  rwa [(sortDesc_perm ps).length_eq] at this

theorem dropPositions_length {ps : List Nat} {r : Row} (hnd : ps.Nodup)
    (hb : ∀ p ∈ ps, p < r.length) :
    (dropPositions ps r).length + ps.length = r.length :=
  removeRowAt_some_length (removeRowAt_eq_dropPositions hnd hb)

theorem rfsLoop_char (positions : List Nat) :
    ∀ (rows : List Row) (k : Nat) (st st' : RfsState),
    rfsLoop positions k rows st = some st' →
    st'.newSamples = rows.foldl (fun acc r =>
        if (removeRowAt positions r).getD [] ∈ acc then acc
        else acc ++ [(removeRowAt positions r).getD []]) st.newSamples ∧
    st'.newFeatures = rows.foldl (fun acc r =>
        btInsert (blockOf positions r) acc) st.newFeatures ∧
    st'.mapping = st.mapping ++ (List.enumFrom k rows).map (fun p =>
      { oldSampleI := p.1,
        newSampleI := idxOf st'.newSamples ((removeRowAt positions p.2).getD []),
        vars := blockOf positions p.2 }) ∧
    st.newSamples <+: st'.newSamples ∧
    ∀ r ∈ rows, (removeRowAt positions r).isSome = true := by
  intro rows
  induction rows with
  | nil =>
    intro k st st' h
    simp only [rfsLoop, Option.some.injEq] at h
    subst h
    simp
  | cons row rest ih =>
    intro k st st' h
    rw [rfsLoop] at h
    cases hstep : rfsStep positions k row st with
    | none => rw [hstep] at h; simp at h
    | some st1 =>
      rw [hstep] at h
      obtain ⟨h1, h2, h3, h4, h5⟩ := ih (k + 1) st1 st' h
      rw [rfsStep] at hstep
      cases hrem : removeRowAt positions row with
      | none => rw [hrem] at hstep; simp at hstep
      | some red =>
        rw [hrem] at hstep
        simp only [Option.some.injEq] at hstep
        have hblock : positions.map (fun i => row.getD i 0) = blockOf positions row := rfl
        have hS1 : st1.newSamples = (insertFull st.newSamples red).2 := by
          rw [← hstep]
        have hF1 : st1.newFeatures = btInsert (blockOf positions row) st.newFeatures := by
          rw [← hstep, ← hblock]
        have hM1 : st1.mapping = st.mapping ++
            [{ oldSampleI := k,
               newSampleI := (insertFull st.newSamples red).1,
               vars := blockOf positions row }] := by
          rw [← hstep, ← hblock]
        have hpre1 : st.newSamples <+: st1.newSamples := by
          rw [hS1, insertFull_snd]
          by_cases hc : red ∈ st.newSamples
          · rw [if_pos hc]
          · rw [if_neg hc]; exact List.prefix_append _ _
        have hredmem : red ∈ st1.newSamples := by
          rw [hS1]
          exact mem_insertFull_snd st.newSamples red
        refine ⟨?_, ?_, ?_, ?_, ?_⟩
        · rw [h1, List.foldl_cons, hrem]
          simp only [Option.getD_some]
          rw [hS1, insertFull_snd]
        · rw [h2, List.foldl_cons, hF1]
        · rw [h3, hM1, List.enumFrom_cons, List.map_cons, List.append_assoc,
            List.singleton_append]
          have hhead : idxOf st'.newSamples ((removeRowAt positions row).getD []) =
              (insertFull st.newSamples red).1 := by
            rw [hrem]
            simp only [Option.getD_some]
            rw [insertFull_fst, ← hS1]
            exact idxOf_prefix h4 hredmem
          rw [hhead]
        · exact hpre1.trans h4
        · intro r hr
          rcases List.mem_cons.1 hr with hr | hr
          · rw [hr, hrem]; rfl
          · exact h5 r hr

theorem findPositions_ok {vars names : List String}
    (hmem : ∀ v ∈ vars, v ∈ names) :
    findPositions vars names = .ok (varPositions names vars) := by
  induction vars with
  | nil => rfl
  | cons v vs ih =>
    rw [findPositions, findIdxP_of_mem (hmem v (List.mem_cons_self v vs))]
    rw [ih (fun w hw => hmem w (List.mem_cons.2 (Or.inr hw)))]
    show RunResult.ok (List.indexOf v names :: varPositions names vs) =
      RunResult.ok (varPositions names (v :: vs))
    simp [varPositions, idxOf_eq_indexOf]

theorem findPositions_invalid_iff (vars names : List String) :
    (findPositions vars names).isInvalid = true ↔ ∃ v ∈ vars, v ∉ names := by
  induction vars with
  | nil => simp [findPositions, RunResult.isInvalid]
  | cons v vs ih =>
    rw [findPositions]
    by_cases h : v ∈ names
    · rw [findIdxP_of_mem h]
      cases hf : findPositions vs names with
      | ok ps =>
        rw [hf] at ih
        simp only [RunResult.bindR, RunResult.isInvalid] at ih ⊢
        simp only [Bool.false_eq_true, false_iff] at ih ⊢
        push_neg at ih ⊢
        intro w hw
        rcases List.mem_cons.1 hw with hw | hw
        · subst hw; exact h
        · exact ih w hw
      | invalidParameter m =>
        rw [hf] at ih
        simp only [RunResult.bindR, RunResult.isInvalid, true_iff] at ih ⊢
        obtain ⟨w, hw, hwn⟩ := ih
        exact ⟨w, List.mem_cons.2 (Or.inr hw), hwn⟩
      | fatal m =>
        rw [hf] at ih
        simp only [RunResult.bindR, RunResult.isInvalid] at ih ⊢
        simp only [Bool.false_eq_true, false_iff] at ih ⊢
        push_neg at ih ⊢
        intro w hw
        rcases List.mem_cons.1 hw with hw | hw
        · subst hw; exact h
        · exact ih w hw
    · rw [findIdxP_of_not_mem h]
      simp only [RunResult.isInvalid, true_iff]
      exact ⟨v, List.mem_cons_self v vs, h⟩

theorem findPositions_not_fatal (vars names : List String) :
    (findPositions vars names).isFatal = false := by
  induction vars with
  | nil => rfl
  | cons v vs ih =>
    rw [findPositions]
    cases hf : names.findIdx? (fun n => decide (n = v)) with
    | none => rfl
    | some p =>
      cases hp : findPositions vs names with
      | ok ps => rfl
      | invalidParameter m => rfl
      | fatal m => rw [hp] at ih; exact absurd ih (by simp [RunResult.isFatal])

theorem varPositions_lt {names vars : List String}
    (hmem : ∀ v ∈ vars, v ∈ names) :
    ∀ p ∈ varPositions names vars, p < names.length := by
  intro p hp
  rcases List.mem_map.1 hp with ⟨v, hv, rfl⟩
  exact idxOf_lt_length (hmem v hv)

theorem varPositions_nodup {names vars : List String} (hnd : vars.Nodup)
    (hmem : ∀ v ∈ vars, v ∈ names) : (varPositions names vars).Nodup := by
  rw [varPositions]
  refine List.Nodup.map_on ?_ hnd
  intro v hv w hw he
  exact idxOf_inj (hmem v hv) (hmem w hw) he

theorem length_filter_split {α : Type} (p : α → Bool) (l : List α) :
    (l.filter p).length + (l.filter (fun x => !p x)).length = l.length := by
  induction l with
  | nil => rfl
  | cons a t ih =>
    rw [List.filter_cons, List.filter_cons]
    cases h : p a with
    | true => simp only [h, Bool.not_true, if_pos, if_neg]; simp; omega
    | false => simp only [h, Bool.not_false]; simp; omega

theorem filter_contains_length {names vars : List String}
    (hnames : names.Nodup) (hvars : vars.Nodup)
    (hmem : ∀ v ∈ vars, v ∈ names) :
    (names.filter (fun n => vars.contains n)).length = vars.length := by
  have hperm : (names.filter (fun n => vars.contains n)).Perm vars := by
    refine List.Subperm.antisymm ?_ ?_
    · refine List.Nodup.subperm (List.Nodup.filter _ hnames) ?_
      intro n hn
      have := (List.mem_filter.1 hn).2
      simpa [List.elem_iff] using this
    · refine List.Nodup.subperm hvars ?_
      intro v hv
      rw [List.mem_filter]
      refine ⟨hmem v hv, ?_⟩
      simpa [List.elem_iff] using hv
  exact hperm.length_eq

theorem mkIndexes_ok {names : List String} {rows : List Row}
    (h1 : names.all isValidIdent = true)
    (h2 : rows.all (fun r => r.length = names.length) = true) :
    mkIndexes names rows = .ok { names := names, rows := rows } := by
  rw [mkIndexes, if_neg (by simp [h1]), if_neg (by simp [h2])]

theorem Indexes.wf_rows {i : Indexes} (h : i.wf = true) :
    ∀ r ∈ i.rows, r.length = i.names.length := by
  rw [Indexes.wf] at h
  simp only [Bool.and_eq_true, List.all_eq_true, decide_eq_true_eq] at h
  intro r hr
  exact h.1.1.1 r hr

theorem Indexes.wf_names_valid {i : Indexes} (h : i.wf = true) :
    i.names.all isValidIdent = true := by
  rw [Indexes.wf] at h
  simp only [Bool.and_eq_true, List.all_eq_true, decide_eq_true_eq] at h
  simp only [List.all_eq_true]
  exact h.1.1.2

theorem Indexes.wf_names_nodup {i : Indexes} (h : i.wf = true) :
    i.names.Nodup := by
  rw [Indexes.wf] at h
  simp only [Bool.and_eq_true, List.all_eq_true, decide_eq_true_eq] at h
  exact h.1.2

theorem Indexes.wf_empty {i : Indexes} (h : i.wf = true)
    (hn : i.names = []) : i.rows = [] := by
  rw [Indexes.wf] at h
  simp only [Bool.and_eq_true, List.all_eq_true, decide_eq_true_eq,
    Bool.or_eq_true, Bool.not_eq_true', List.isEmpty_iff] at h
  rcases h.2 with h2 | h2
  · rw [hn] at h2
    simp at h2
  · exact h2

theorem foldl_congr_mem {α β : Type} {l : List α} {f g : β → α → β} {b : β}
    (h : ∀ (bb : β), ∀ a ∈ l, f bb a = g bb a) : l.foldl f b = l.foldl g b := by
  induction l generalizing b with
  | nil => rfl
  | cons a t ih =>
    rw [List.foldl_cons, List.foldl_cons, h b a (List.mem_cons_self a t)]
    exact ih (fun bb a ha => h bb a (List.mem_cons.2 (Or.inr ha)))

theorem rfsLoop_isSome (positions : List Nat) :
    ∀ (rows : List Row) (k : Nat) (st : RfsState),
    (∀ r ∈ rows, (removeRowAt positions r).isSome = true) →
    ∃ st', rfsLoop positions k rows st = some st' := by
  intro rows
  induction rows with
  | nil => intro k st _; exact ⟨st, rfl⟩
  | cons row rest ih =>
    intro k st h
    have hrow := h row (List.mem_cons_self row rest)
    cases hrem : removeRowAt positions row with
    | none => rw [hrem] at hrow; simp [Option.isSome] at hrow
    | some red =>
      obtain ⟨st', hst'⟩ := ih (k + 1)
        { newSamples := (insertFull st.newSamples red).2,
          newFeatures := btInsert (positions.map (fun i => row.getD i 0)) st.newFeatures,
          mapping := st.mapping ++
            [{ oldSampleI := k,
               newSampleI := (insertFull st.newSamples red).1,
               vars := positions.map (fun i => row.getD i 0) }] }
        (fun r hr => h r (List.mem_cons.2 (Or.inr hr)))
      refine ⟨st', ?_⟩
      rw [rfsLoop, rfsStep, hrem]
      exact hst'

theorem removeFromSamples_ok (samples : Indexes) (vars : List String)
    (hwf : samples.wf = true) (hnd : vars.Nodup)
    (hmem : ∀ v ∈ vars, v ∈ samples.names) :
    removeFromSamples samples vars = .ok
      { samples := { names := samples.names.filter (fun n => !vars.contains n)
                     rows := firstSeenDedup (samples.rows.map
                       (dropPositions (varPositions samples.names vars))) },
        newFeatures := btOfList (samples.rows.map
          (blockOf (varPositions samples.names vars))),
        mapping := samples.rows.enum.map (fun p =>
          { oldSampleI := p.1,
            newSampleI := idxOf (firstSeenDedup (samples.rows.map
              (dropPositions (varPositions samples.names vars))))
              (dropPositions (varPositions samples.names vars) p.2),
            vars := blockOf (varPositions samples.names vars) p.2 }) } := by
  have hlt : ∀ p ∈ varPositions samples.names vars, p < samples.names.length :=
    varPositions_lt hmem
  have hpnd : (varPositions samples.names vars).Nodup := varPositions_nodup hnd hmem
  have hrow : ∀ r ∈ samples.rows, r.length = samples.names.length :=
    Indexes.wf_rows hwf
  have hremEq : ∀ r ∈ samples.rows,
      removeRowAt (varPositions samples.names vars) r =
        some (dropPositions (varPositions samples.names vars) r) := by
    intro r hr
    exact removeRowAt_eq_dropPositions hpnd (fun p hp => (hrow r hr) ▸ hlt p hp)
  have hsome : ∀ r ∈ samples.rows,
      (removeRowAt (varPositions samples.names vars) r).isSome = true := by
    intro r hr
    rw [hremEq r hr]
    rfl
  obtain ⟨st', hloop⟩ := rfsLoop_isSome (varPositions samples.names vars)
    samples.rows 0 { newSamples := [], newFeatures := [], mapping := [] } hsome
  obtain ⟨h1, h2, h3, _, _⟩ := rfsLoop_char (varPositions samples.names vars)
    samples.rows 0 _ st' hloop
  have hsamplesEq : st'.newSamples = firstSeenDedup (samples.rows.map
      (dropPositions (varPositions samples.names vars))) := by
    rw [h1, firstSeenDedup, List.foldl_map]
    exact foldl_congr_mem (fun bb r hr => by rw [hremEq r hr, Option.getD_some])
  have hfeaturesEq : st'.newFeatures = btOfList (samples.rows.map
      (blockOf (varPositions samples.names vars))) := by
    rw [h2, btOfList, List.foldl_map]
  have hmappingEq : st'.mapping = samples.rows.enum.map (fun p =>
      { oldSampleI := p.1,
        newSampleI := idxOf (firstSeenDedup (samples.rows.map
          (dropPositions (varPositions samples.names vars))))
          (dropPositions (varPositions samples.names vars) p.2),
        vars := blockOf (varPositions samples.names vars) p.2 }) := by
    rw [h3, List.nil_append, List.enum]
    apply List.map_congr_left
    intro p hp
    have hp2 : p.2 ∈ samples.rows := by
      have := List.enumFrom_map_snd 0 samples.rows
      exact this ▸ List.mem_map_of_mem Prod.snd hp
    rw [hremEq p.2 hp2, Option.getD_some, hsamplesEq]
  have hlen : ∀ r ∈ st'.newSamples,
      r.length = (samples.names.filter (fun n => !vars.contains n)).length := by
    intro r hr
    rw [hsamplesEq] at hr
    rcases List.mem_map.1 (mem_firstSeenDedup.1 hr) with ⟨row, hrow2, rfl⟩
    have hdl := dropPositions_length hpnd
      (fun p hp => (hrow row hrow2) ▸ hlt p hp)
    have hps : (varPositions samples.names vars).length = vars.length := by
      rw [varPositions, List.length_map]
    have hsplit := length_filter_split (fun n => vars.contains n) samples.names
    have hfl := filter_contains_length (Indexes.wf_names_nodup hwf) hnd hmem
    rw [hrow row hrow2] at hdl
    omega
  have hvalid : (samples.names.filter (fun n => !vars.contains n)).all
      isValidIdent = true := by
    have := Indexes.wf_names_valid hwf
    simp only [List.all_eq_true] at this ⊢
    intro n hn
    exact this n (List.mem_of_mem_filter hn)
  rw [removeFromSamples, findPositions_ok hmem]
  show (match rfsLoop (varPositions samples.names vars) 0 samples.rows
      ({ newSamples := [], newFeatures := [], mapping := [] } : RfsState) with
    | none => RunResult.fatal "removal index out of bounds"
    | some st =>
      (mkIndexes (samples.names.filter (fun n => !vars.contains n))
          st.newSamples).bindR (fun idx =>
        RunResult.ok ({ samples := idx, newFeatures := st.newFeatures,
                        mapping := st.mapping } : RemovedSamples))) = _
  rw [hloop]
  show (mkIndexes (samples.names.filter (fun n => !vars.contains n))
      st'.newSamples).bindR (fun idx =>
    RunResult.ok ({ samples := idx, newFeatures := st'.newFeatures,
                    mapping := st'.mapping } : RemovedSamples)) = _
  rw [mkIndexes_ok hvalid (by simp only [List.all_eq_true, decide_eq_true_eq]; exact hlen)]
  show RunResult.ok _ = _
  rw [hsamplesEq, hfeaturesEq, hmappingEq]

theorem setSlice_some {K : Type} {m : Matrix K} {i start width : Nat}
    {v : List K} {R C : Nat} (hm : matWf m R C = true) (hi : i < R)
    (hv : v.length = width) (hb : start + width ≤ C) :
    ∃ m2, setSlice m i start width v = some m2 ∧ matWf m2 R C = true := by
  rw [matWf, Bool.and_eq_true] at hm
  obtain ⟨hR, hC⟩ := hm
  simp only [decide_eq_true_eq] at hR
  simp only [List.all_eq_true, decide_eq_true_eq] at hC
  have hi2 : i < m.length := by omega
  obtain ⟨row, hrow⟩ : ∃ row, m.get? i = some row := ⟨m[i], by simp [List.get?_eq_getElem?, hi2]⟩
  have hrowlen : row.length = C := by
    refine hC row ?_
    exact List.get?_mem hrow
  refine ⟨m.set i (row.take start ++ v ++ row.drop (start + width)), ?_, ?_⟩
  · rw [setSlice, hrow, Option.some_bind, if_pos ⟨hv, by omega⟩]
  · rw [matWf, Bool.and_eq_true]
    constructor
    · simp only [List.length_set, decide_eq_true_eq]
      exact hR
    · simp only [List.all_eq_true, decide_eq_true_eq]
      intro r hr
      rcases List.mem_or_eq_of_mem_set hr with hr | hr
      · exact hC r hr
      · subst hr
        simp only [List.length_append, List.length_take, List.length_drop]
        omega

theorem spliced_getD {K : Type} [CommRing K] (row v : List K)
    (start width k : Nat) (hv : v.length = width)
    (hb : start + width ≤ row.length) :
    (row.take start ++ v ++ row.drop (start + width)).getD k 0 =
      if start ≤ k ∧ k < start + width then v.getD (k - start) 0
      else row.getD k 0 := by
  have htake : (row.take start).length = start := by simp; omega
  rw [List.getD_eq_getElem?_getD, List.getD_eq_getElem?_getD,
    List.getD_eq_getElem?_getD]
  have hlen2 : (row.take start ++ v).length = start + width := by
    simp [htake, hv]
  by_cases h1 : k < start
  · rw [if_neg (by omega)]
    rw [List.getElem?_append_left (by omega : k < (row.take start ++ v).length),
      List.getElem?_append_left (by omega), List.getElem?_take]
    rw [if_pos h1]
  · by_cases h2 : k < start + width
    · rw [if_pos ⟨by omega, h2⟩]
      rw [List.getElem?_append_left (by omega : k < (row.take start ++ v).length)]
      rw [List.getElem?_append_right (by omega), htake]
    · rw [if_neg (by omega)]
      rw [List.getElem?_append_right
        (by omega : (row.take start ++ v).length ≤ k)]
      rw [List.getElem?_drop]
      have hidx : start + width + (k - (row.take start ++ v).length) = k := by
        rw [hlen2]
        omega
      rw [hidx]

theorem setSlice_entry {K : Type} [CommRing K] {m m2 : Matrix K}
    {i start width : Nat} {v : List K}
    (h : setSlice m i start width v = some m2) (r k : Nat) :
    getEntry m2 r k =
      if r = i ∧ start ≤ k ∧ k < start + width then v.getD (k - start) 0
      else getEntry m r k := by
  rw [setSlice] at h
  cases hrow : m.get? i with
  | none => rw [hrow] at h; simp at h
  | some row =>
    rw [hrow, Option.some_bind] at h
    by_cases hcond : v.length = width ∧ start + width ≤ row.length
    · rw [if_pos hcond] at h
      simp only [Option.some.injEq] at h
      subst h
      have hi : i < m.length := by
        by_contra hc
        rw [List.get?_eq_getElem?, List.getElem?_eq_none (by omega)] at hrow
        exact Option.noConfusion hrow
      have hrowval : m[i] = row := by
        rw [List.get?_eq_getElem?, List.getElem?_eq_getElem hi] at hrow
        simpa using hrow
      by_cases hr : r = i
      · subst hr
        rw [getEntry, getEntry, List.getD_eq_getElem?_getD m,
          List.getD_eq_getElem?_getD (m.set r _),
          List.getElem?_set_self (by omega), List.getElem?_eq_getElem hi,
          hrowval]
        simp only [Option.getD_some]
        rw [spliced_getD row v start width k hcond.1 hcond.2]
        by_cases hk : start ≤ k ∧ k < start + width
        · simp [hk]
        · simp [hk]
      · rw [if_neg (by tauto), getEntry, getEntry,
          List.getD_eq_getElem?_getD (m.set i _),
          List.getD_eq_getElem?_getD m, List.getElem?_set_ne (by omega)]
    · rw [if_neg hcond] at h
      simp at h

theorem findBlockTail {blocks frows : List Row} {tail b : Row} {kk : Nat}
    (hhead : frows.head? = some tail)
    (hblens : ∀ bb ∈ blocks, bb.length = kk) (hb : b.length = kk) :
    (blocks.flatMap (fun bb => frows.map (bb ++ ·))).findIdx?
        (fun y => decide (y = b ++ tail)) =
      if b ∈ blocks then some (idxOf blocks b * frows.length) else none := by
  induction blocks with
  | nil => simp
  | cons bb rest ih =>
    rw [List.flatMap_cons, List.findIdx?_append]
    by_cases hcase : b = bb
    · subst hcase
      cases hfr : frows with
      | nil => rw [hfr] at hhead; simp at hhead
      | cons f0 ft =>
        rw [hfr] at hhead
        simp only [List.head?_cons, Option.some.injEq] at hhead
        subst hhead
        rw [List.map_cons, List.findIdx?_cons]
        rw [if_pos (by simp)]
        rw [if_pos (List.mem_cons_self b rest)]
        rw [idxOf_eq_indexOf, List.indexOf_cons_self]
        simp [Option.or]
    · have hfirst : (frows.map (fun f => bb ++ f)).findIdx?
          (fun y => decide (y = b ++ tail)) = none := by
        rw [List.findIdx?_eq_none_iff]
        intro y hy
        rcases List.mem_map.1 hy with ⟨f, hf, rfl⟩
        simp only [decide_eq_false_iff_not]
        intro he
        have hlen : bb.length = b.length := by
          rw [hblens bb (List.mem_cons_self bb rest), hb]
        have := (List.append_inj he.symm hlen.symm).1
        exact hcase this
      rw [hfirst]
      rw [ih (fun x hx => hblens x (List.mem_cons.2 (Or.inr hx)))]
      by_cases hmem : b ∈ rest
      · rw [if_pos hmem, if_pos (List.mem_cons.2 (Or.inr hmem))]
        simp only [Option.none_or, Option.map_some', Option.some.injEq,
          List.length_map]
        rw [idxOf_eq_indexOf, idxOf_eq_indexOf,
          List.indexOf_cons_ne _ (fun he => hcase he.symm)]
        rw [Nat.succ_eq_add_one]
        ring
      · rw [if_neg hmem, if_neg ?_]
        · rfl
        · intro hc
          rcases List.mem_cons.1 hc with hc | hc
          · exact hcase hc
          · exact hmem hc

theorem densifyCopy_entry {K : Type} [CommRing K] {src : Matrix K} {tail : Row}
    {F kk R C : Nat} {NF : Indexes} {blocks frows : List Row} :
    ∀ {mapping : List DensifiedIndex} {init : Matrix K},
    NF.rows = blocks.flatMap (fun bb => frows.map (bb ++ ·)) →
    frows.head? = some tail →
    frows.length = F →
    (∀ bb ∈ blocks, bb.length = kk) →
    (∀ e ∈ mapping, e.vars ∈ blocks ∧ e.vars.length = kk) →
    matWf init R C = true →
    (∀ e ∈ mapping, e.newSampleI < R) →
    (∀ e ∈ mapping, (src.getD e.oldSampleI []).length = F) →
    (∀ e ∈ mapping, idxOf blocks e.vars * F + F ≤ C) →
    mapping.Pairwise (fun e1 e2 =>
      e1.newSampleI ≠ e2.newSampleI ∨ e1.vars ≠ e2.vars) →
    ∃ m2, densifyCopy src tail F NF mapping init = some m2 ∧
      matWf m2 R C = true ∧
      ∀ r k, getEntry m2 r k =
        (match mapping.find? (fun e => decide (e.newSampleI = r ∧
            idxOf blocks e.vars * F ≤ k ∧ k < idxOf blocks e.vars * F + F)) with
         | some e => (src.getD e.oldSampleI []).getD
             (k - idxOf blocks e.vars * F) 0
         | none => getEntry init r k) := by
  intro mapping
  induction mapping with
  | nil =>
    intro init hNF hhead hF hblens hment hinit hrows hsrc hC hdisj
    exact ⟨init, rfl, hinit, fun r k => by simp⟩
  | cons e rest ih =>
    intro init hNF hhead hF hblens hment hinit hrows hsrc hC hdisj
    have hme := hment e (List.mem_cons_self e rest)
    have hpos : NF.position (e.vars ++ tail) =
        some (idxOf blocks e.vars * F) := by
      rw [Indexes.position, hNF,
        findBlockTail hhead hblens hme.2, if_pos hme.1, hF]
    obtain ⟨m1, hm1, hm1wf⟩ := setSlice_some (v := src.getD e.oldSampleI [])
      hinit (hrows e (List.mem_cons_self e rest))
      (hsrc e (List.mem_cons_self e rest))
      (hC e (List.mem_cons_self e rest))
    rw [List.pairwise_cons] at hdisj
    obtain ⟨hdisj1, hdisj2⟩ := hdisj
    obtain ⟨m2, hm2, hm2wf, hentry⟩ := @ih m1 hNF hhead hF hblens
      (fun x hx => hment x (List.mem_cons.2 (Or.inr hx))) hm1wf
      (fun x hx => hrows x (List.mem_cons.2 (Or.inr hx)))
      (fun x hx => hsrc x (List.mem_cons.2 (Or.inr hx)))
      (fun x hx => hC x (List.mem_cons.2 (Or.inr hx))) hdisj2
    refine ⟨m2, ?_, hm2wf, ?_⟩
    · show densifyCopy src tail F NF (e :: rest) init = some m2
      rw [densifyCopy, List.foldl_cons]
      simp only [Option.some_bind, hpos]
      rw [hm1]
      exact hm2
    · intro r k
      rw [hentry r k]
      by_cases hcov : e.newSampleI = r ∧ idxOf blocks e.vars * F ≤ k ∧
          k < idxOf blocks e.vars * F + F
      · rw [List.find?_cons_of_pos _ (by simpa using hcov)]
        have hrest : rest.find? (fun e2 => decide (e2.newSampleI = r ∧
            idxOf blocks e2.vars * F ≤ k ∧
            k < idxOf blocks e2.vars * F + F)) = none := by
          rw [List.find?_eq_none]
          intro e2 he2
          simp only [decide_eq_true_eq]
          intro hcov2
          have hne := hdisj1 e2 he2
          rcases hne with hne | hne
          · exact hne (hcov.1.trans hcov2.1.symm)
          · have hidx : idxOf blocks e.vars = idxOf blocks e2.vars := by
              by_contra hc
              rcases Nat.lt_or_ge (idxOf blocks e.vars) (idxOf blocks e2.vars)
                with hlt | hge
              · have : idxOf blocks e.vars * F + F ≤
                    idxOf blocks e2.vars * F := by
                  have : idxOf blocks e.vars + 1 ≤ idxOf blocks e2.vars := hlt
                  calc idxOf blocks e.vars * F + F
                      = (idxOf blocks e.vars + 1) * F := by ring
                    _ ≤ idxOf blocks e2.vars * F :=
                        Nat.mul_le_mul_right F this
                omega
              · have hgt : idxOf blocks e2.vars < idxOf blocks e.vars := by
                  omega
                have : idxOf blocks e2.vars * F + F ≤
                    idxOf blocks e.vars * F := by
                  have h1 : idxOf blocks e2.vars + 1 ≤ idxOf blocks e.vars := hgt
                  calc idxOf blocks e2.vars * F + F
                      = (idxOf blocks e2.vars + 1) * F := by ring
                    _ ≤ idxOf blocks e.vars * F :=
                        Nat.mul_le_mul_right F h1
                omega
            exact hne (idxOf_inj hme.1
              (hment e2 (List.mem_cons.2 (Or.inr he2))).1 hidx)
        rw [hrest]
        rw [setSlice_entry hm1 r k]
        rw [if_pos ⟨hcov.1.symm, hcov.2.1, hcov.2.2⟩]
      · rw [List.find?_cons_of_neg _ (by simpa using hcov)]
        cases hfind : rest.find? (fun e2 => decide (e2.newSampleI = r ∧
            idxOf blocks e2.vars * F ≤ k ∧
            k < idxOf blocks e2.vars * F + F)) with
        | some e2 => rfl
        | none =>
          rw [setSlice_entry hm1 r k]
          rw [if_neg (by tauto)]

theorem removeFromSamples_ok_d {K : Type} [CommRing K] (d : Descriptor K)
    (vars : List String) (hwf : d.samples.wf = true) (hnd : vars.Nodup)
    (hmem : ∀ v ∈ vars, v ∈ d.samples.names) :
    removeFromSamples d.samples vars = .ok
      { samples := densifySamplesIdx d vars,
        newFeatures := densifyBlocks d vars,
        mapping := densifyMapping d vars } :=
  removeFromSamples_ok d.samples vars hwf hnd hmem

theorem wf_samples {K : Type} {d : Descriptor K} (h : d.wellFormed = true) :
    d.samples.wf = true := by
  rw [Descriptor.wellFormed] at h
  simp only [Bool.and_eq_true] at h
  exact h.1.1.1.1

theorem wf_features {K : Type} {d : Descriptor K} (h : d.wellFormed = true) :
    d.features.wf = true := by
  rw [Descriptor.wellFormed] at h
  simp only [Bool.and_eq_true] at h
  exact h.1.1.1.2

theorem wf_values {K : Type} {d : Descriptor K} (h : d.wellFormed = true) :
    matWf d.values d.samples.count d.features.count = true := by
  rw [Descriptor.wellFormed] at h
  simp only [Bool.and_eq_true] at h
  exact h.1.1.2

theorem densifyBlocks_len {K : Type} {d : Descriptor K} {vars : List String}
    {b : Row} (hb : b ∈ densifyBlocks d vars) : b.length = vars.length := by
  rcases List.mem_map.1 (mem_btOfList.1 hb) with ⟨row, _, rfl⟩
  rw [blockOf, List.length_map, densifyPositions, varPositions, List.length_map]

theorem densifyFeatures_mk {K : Type} [CommRing K] (d : Descriptor K)
    (vars : List String) (hwf : d.wellFormed = true)
    (hmem : ∀ v ∈ vars, v ∈ d.samples.names) :
    mkIndexes (vars ++ d.features.names)
      ((densifyBlocks d vars).flatMap
        (fun b => d.features.rows.map (fun f => b ++ f))) =
      .ok (densifyFeaturesIdx d vars (densifyBlocks d vars)) := by
  have hvalid : (vars ++ d.features.names).all isValidIdent = true := by
    rw [List.all_append, Bool.and_eq_true]
    constructor
    · rw [List.all_eq_true]
      intro v hv
      have hs := Indexes.wf_names_valid (wf_samples hwf)
      rw [List.all_eq_true] at hs
      exact hs v (hmem v hv)
    · exact Indexes.wf_names_valid (wf_features hwf)
  have hlens : ((densifyBlocks d vars).flatMap
      (fun b => d.features.rows.map (fun f => b ++ f))).all
      (fun r => r.length = (vars ++ d.features.names).length) = true := by
    rw [List.all_eq_true]
    intro r hr
    rcases List.mem_flatMap.1 hr with ⟨b, hb, hr2⟩
    rcases List.mem_map.1 hr2 with ⟨f, hf, rfl⟩
    simp only [decide_eq_true_eq, List.length_append]
    rw [densifyBlocks_len hb, Indexes.wf_rows (wf_features hwf) f hf]
  exact mkIndexes_ok hvalid hlens

theorem densify_none_ok_spine {K : Type} [CommRing K] {d : Descriptor K}
    {vars : List String}
    (hwf : d.wellFormed = true) (hnd : vars.Nodup)
    (hmem : ∀ v ∈ vars, v ∈ d.samples.names)
    (hvne : vars ≠ []) (hfs : d.features.size ≠ 0)
    (hok : (d.densify vars none).2 = .ok ()) :
    ∃ (nv : Matrix K) (tail : Row) (restF : List Row) (g : Option (Matrix K))
      (gs : Option Indexes),
      d.features.rows = tail :: restF ∧
      densifyCopy d.values tail d.features.count
        (densifyFeaturesIdx d vars (densifyBlocks d vars))
        (densifyMapping d vars)
        (zerosMat K (densifySamplesIdx d vars).count
          (densifyFeaturesIdx d vars (densifyBlocks d vars)).count) = some nv ∧
      (d.densify vars none).1 =
        { values := nv, samples := densifySamplesIdx d vars,
          features := densifyFeaturesIdx d vars (densifyBlocks d vars),
          gradients := g, gradientsSamples := gs } := by
  have hguard : (vars.isEmpty || decide (d.features.size = 0)) = false := by
    rw [Bool.or_eq_false_iff]
    constructor
    · rw [List.isEmpty_eq_false]
      exact hvne
    · simpa using hfs
  have hdef : d.densify vars none =
      (match densifyCore d vars none with
       | .ok d2 => (d2, .ok ())
       | .invalidParameter m => (d, .invalidParameter m)
       | .fatal m => (d, .fatal m)) := by
    rw [Descriptor.densify]
    rw [if_neg (by simp only [hguard]; exact Bool.false_ne_true)]
  cases hcore : densifyCore d vars none with
  | invalidParameter m =>
    rw [hdef, hcore] at hok
    simp at hok
  | fatal m =>
    rw [hdef, hcore] at hok
    simp at hok
  | ok d2 =>
    have hfst : (d.densify vars none).1 = d2 := by rw [hdef, hcore]
    rw [densifyCore] at hcore
    rw [removeFromSamples_ok_d d vars (wf_samples hwf) hnd hmem] at hcore
    simp only [RunResult.bindR] at hcore
    rw [densifyFeatures_mk d vars hwf hmem] at hcore
    cases hgs : d.gradientsSamples with
    | none =>
      rw [hgs] at hcore
      simp only [RunResult.bindR] at hcore
      cases hfr : d.features.rows with
      | nil =>
        rw [hfr] at hcore
        simp only [List.head?_nil, RunResult.bindR] at hcore
        exact absurd hcore (by simp)
      | cons tail restF =>
        rw [hfr] at hcore
        simp only [List.head?_cons, RunResult.bindR] at hcore
        cases hcopy : densifyCopy d.values tail d.features.count
            (densifyFeaturesIdx d vars (densifyBlocks d vars))
            (densifyMapping d vars)
            (zerosMat K (densifySamplesIdx d vars).count
              (densifyFeaturesIdx d vars (densifyBlocks d vars)).count) with
        | none =>
          rw [hcopy] at hcore
          exact absurd hcore (by simp)
        | some nv =>
          rw [hcopy] at hcore
          cases hg : d.gradients with
          | none =>
            rw [hg] at hcore
            simp only [RunResult.ok.injEq] at hcore
            refine ⟨nv, tail, restF, d.gradients, d.gradientsSamples,
              rfl, hcopy, ?_⟩
            rw [hfst, ← hcore, hg, hgs]
          | some grad =>
            rw [hg] at hcore
            exact absurd hcore (by simp)
    | some gsIdx =>
      rw [hgs] at hcore
      dsimp only at hcore
      cases hrg : removeFromSamples gsIdx vars with
      | invalidParameter m =>
        rw [hrg] at hcore
        simp only [RunResult.bindR] at hcore
        exact absurd hcore (by simp)
      | fatal m =>
        rw [hrg] at hcore
        simp only [RunResult.bindR] at hcore
        exact absurd hcore (by simp)
      | ok rg =>
        rw [hrg] at hcore
        simp only [RunResult.bindR] at hcore
        by_cases hne : rg.newFeatures ≠ densifyBlocks d vars
        · rw [if_pos (by simpa using hne)] at hcore
          simp only [RunResult.bindR] at hcore
          exact absurd hcore (by simp)
        · rw [if_neg (by simpa using hne)] at hcore
          simp only [RunResult.bindR] at hcore
          cases hfr : d.features.rows with
          | nil =>
            rw [hfr] at hcore
            simp only [List.head?_nil, RunResult.bindR] at hcore
            exact absurd hcore (by simp)
          | cons tail restF =>
            rw [hfr] at hcore
            simp only [List.head?_cons, RunResult.bindR] at hcore
            cases hcopy : densifyCopy d.values tail d.features.count
                (densifyFeaturesIdx d vars (densifyBlocks d vars))
                (densifyMapping d vars)
                (zerosMat K (densifySamplesIdx d vars).count
                  (densifyFeaturesIdx d vars (densifyBlocks d vars)).count) with
            | none =>
              rw [hcopy] at hcore
              exact absurd hcore (by simp)
            | some nv =>
              rw [hcopy] at hcore
              dsimp only at hcore
              cases hg : d.gradients with
              | none =>
                rw [hg] at hcore
                simp only [RunResult.ok.injEq] at hcore
                refine ⟨nv, tail, restF, d.gradients, d.gradientsSamples,
                  rfl, hcopy, ?_⟩
                rw [hfst, ← hcore, hg, hgs]
              | some grad =>
                rw [hg] at hcore
                dsimp only at hcore
                cases hgc : densifyCopy grad tail d.features.count
                    (densifyFeaturesIdx d vars (densifyBlocks d vars))
                    rg.mapping
                    (zerosMat K rg.samples.count
                      (densifyFeaturesIdx d vars (densifyBlocks d vars)).count) with
                | none =>
                  rw [hgc] at hcore
                  exact absurd hcore (by simp)
                | some ngv =>
                  rw [hgc] at hcore
                  simp only [RunResult.ok.injEq] at hcore
                  refine ⟨nv, tail, restF, some ngv, some rg.samples,
                    rfl, hcopy, ?_⟩
                  rw [hfst, ← hcore]

/-- Claim C3, amended: the early no-op when the features index has no
columns is excluded.  After a successful densify along a non-empty,
duplicate-free variable list fully present in the sample columns of a
well-formed descriptor with at least one feature column, the new
samples index keeps the distinct reduced rows in first-seen order
under the surviving column names, and the new features index is the
block-key-major, feature-row-minor cartesian product: an ascending
lexicographically sorted list of exactly the observed block keys, each
prefixed to every original feature row in order, under the variable
names prepended to the original feature names. -/
theorem claim_C3_amended {K : Type} [CommRing K] {d : Descriptor K}
    {vars : List String}
    (hwf : d.wellFormed = true) (hnd : vars.Nodup)
    (hmem : ∀ v ∈ vars, v ∈ d.samples.names)
    (hvne : vars ≠ []) (hfs : d.features.size ≠ 0)
    (hok : (d.densify vars none).2 = .ok ()) :
    (d.densify vars none).1.samples =
      { names := d.samples.names.filter (fun n => !vars.contains n)
        rows := firstSeenDedup (d.samples.rows.map
          (dropPositions (densifyPositions d vars))) } ∧
    ∃ blocks : List Row,
      rowSorted blocks ∧
      (∀ b, b ∈ blocks ↔
        b ∈ d.samples.rows.map (blockOf (densifyPositions d vars))) ∧
      (d.densify vars none).1.features =
        { names := vars ++ d.features.names
          rows := blocks.flatMap (fun b => d.features.rows.map (fun f => b ++ f)) } := by
  obtain ⟨nv, tail, restF, g, gs, hfr, hcopy, hout⟩ :=
    densify_none_ok_spine hwf hnd hmem hvne hfs hok
  rw [hout]
  refine ⟨rfl, densifyBlocks d vars, rowSorted_btOfList _, ?_, rfl⟩
  intro b
  simp only [densifyBlocks]
  exact mem_btOfList

/-- Witness for the amended claim C3 at the worked example. -/
theorem claim_C3_amended_witness :
    (exC2.densify ["species"] none).1.samples =
      { names := exC2.samples.names.filter (fun n => !(["species"].contains n))
        rows := firstSeenDedup (exC2.samples.rows.map
          (dropPositions (densifyPositions exC2 ["species"]))) } ∧
    ∃ blocks : List Row,
      rowSorted blocks ∧
      (∀ b, b ∈ blocks ↔
        b ∈ exC2.samples.rows.map (blockOf (densifyPositions exC2 ["species"]))) ∧
      (exC2.densify ["species"] none).1.features =
        { names := ["species"] ++ exC2.features.names
          rows := blocks.flatMap
            (fun b => exC2.features.rows.map (fun f => b ++ f)) } :=
  @claim_C3_amended ℤ _ exC2 ["species"] (by decide) (by decide) (by decide)
    (by decide) (by decide) (by decide)

theorem list_map_sum_range {α K : Type} [AddCommMonoid K] (g : α → K) (x : α) :
    ∀ l : List α, (l.map g).sum = ∑ i in Finset.range l.length, g (l.getD i x)
  | [] => by simp
  | a :: t => by
    rw [List.map_cons, List.sum_cons, list_map_sum_range g x t,
      List.length_cons, Finset.sum_range_succ']
    simp [add_comm]

theorem list_range_map_sum {K : Type} [AddCommMonoid K] (h : Nat → K) :
    ∀ n : Nat, ((List.range n).map h).sum = ∑ i in Finset.range n, h i
  | 0 => by simp
  | n + 1 => by
    rw [List.range_succ, List.map_append, List.sum_append,
      list_range_map_sum h n, Finset.sum_range_succ]
    simp

theorem row_sum_entries {K : Type} [CommRing K] {l : List K} {C : Nat}
    (h : l.length = C) : l.sum = ∑ j in Finset.range C, l.getD j 0 := by
  have h2 := list_map_sum_range (fun z => z) (0 : K) l
  rw [List.map_id'] at h2
  rw [h2, h]

theorem sumMat_eq_entries {K : Type} [CommRing K] {m : Matrix K} {R C : Nat}
    (h : matWf m R C = true) :
    sumMat m = ∑ r in Finset.range R, ∑ k in Finset.range C, getEntry m r k := by
  rw [matWf, Bool.and_eq_true] at h
  obtain ⟨hR, hC⟩ := h
  simp only [decide_eq_true_eq] at hR
  simp only [List.all_eq_true, decide_eq_true_eq] at hC
  rw [sumMat, list_map_sum_range (fun r => r.sum) ([] : List K) m, hR]
  apply Finset.sum_congr rfl
  intro r hr
  rw [Finset.mem_range] at hr
  have hr2 : r < m.length := by omega
  have hrow : m.getD r [] ∈ m := by
    rw [List.getD_eq_getElem _ _ hr2]
    exact List.getElem_mem hr2
  exact row_sum_entries (hC _ hrow)

theorem getD_replicate_zero {K : Type} [CommRing K] (C k : Nat) :
    (List.replicate C (0 : K)).getD k 0 = 0 := by
  rcases Nat.lt_or_ge k C with h | h
  · rw [List.getD_eq_getElem _ _ (by simpa using h), List.getElem_replicate]
  · rw [List.getD_eq_default _ _ (by simpa using h)]

theorem getEntry_zerosMat {K : Type} [CommRing K] (R C r k : Nat) :
    getEntry (zerosMat K R C) r k = 0 := by
  rw [getEntry, zerosMat]
  rcases Nat.lt_or_ge r R with h | h
  · have hrow : (List.replicate R (List.replicate C (0 : K))).getD r [] =
        List.replicate C 0 := by
      rw [List.getD_eq_getElem _ _ (by simpa using h), List.getElem_replicate]
    rw [hrow]
    exact getD_replicate_zero C k
  · have hrow : (List.replicate R (List.replicate C (0 : K))).getD r [] = [] := by
      rw [List.getD_eq_default _ _ (by simpa using h)]
    rw [hrow]
    simp

theorem row_eq_of_block_drop {ps : List Nat} {r1 r2 : Row} {L : Nat}
    (h1 : r1.length = L) (h2 : r2.length = L)
    (hb : blockOf ps r1 = blockOf ps r2)
    (hd : dropPositions ps r1 = dropPositions ps r2) : r1 = r2 := by
  rw [blockOf, blockOf] at hb
  rw [dropPositions, dropPositions, h1, h2] at hd
  rw [List.map_inj_left] at hb hd
  apply List.ext_getElem (by omega)
  intro n hn1 hn2
  by_cases hp : n ∈ ps
  · have hx := hb n hp
    rw [List.getD_eq_getElem _ _ hn1, List.getD_eq_getElem _ _ hn2] at hx
    exact hx
  · have hmem : n ∈ (List.range L).filter (fun n => decide (n ∉ ps)) := by
      rw [List.mem_filter]
      refine ⟨List.mem_range.2 (by omega), by simpa using hp⟩
    have hx := hd n hmem
    rw [List.getD_eq_getElem _ _ hn1, List.getD_eq_getElem _ _ hn2] at hx
    exact hx

theorem densifyMapping_mem {K : Type} [CommRing K] {d : Descriptor K}
    {vars : List String} {e : DensifiedIndex}
    (he : e ∈ densifyMapping d vars) :
    ∃ row ∈ d.samples.rows,
      e.oldSampleI < d.samples.rows.length ∧
      e.newSampleI = idxOf (densifyReduced d vars)
        (dropPositions (densifyPositions d vars) row) ∧
      e.vars = blockOf (densifyPositions d vars) row := by
  rw [densifyMapping, List.mem_map] at he
  obtain ⟨p, hp, rfl⟩ := he
  have hget := List.mem_enum_iff_getElem?.1 hp
  rw [List.getElem?_eq_some] at hget
  obtain ⟨hlt, hrow⟩ := hget
  exact ⟨p.2, hrow ▸ List.getElem_mem hlt, hlt, rfl, rfl⟩

theorem densifyMapping_vars {K : Type} [CommRing K] {d : Descriptor K}
    {vars : List String} {e : DensifiedIndex}
    (he : e ∈ densifyMapping d vars) :
    e.vars ∈ densifyBlocks d vars ∧ e.vars.length = vars.length := by
  obtain ⟨row, hrow, _, _, hv⟩ := densifyMapping_mem he
  constructor
  · rw [densifyBlocks]
    exact mem_btOfList.2 (hv ▸ List.mem_map_of_mem _ hrow)
  · rw [hv, blockOf, List.length_map, densifyPositions, varPositions,
      List.length_map]

theorem densifyMapping_new_lt {K : Type} [CommRing K] {d : Descriptor K}
    {vars : List String} {e : DensifiedIndex}
    (he : e ∈ densifyMapping d vars) :
    e.newSampleI < (densifyReduced d vars).length := by
  obtain ⟨row, hrow, _, hn, _⟩ := densifyMapping_mem he
  rw [hn]
  apply idxOf_lt_length
  rw [densifyReduced, mem_firstSeenDedup]
  exact List.mem_map_of_mem _ hrow

theorem densifyMapping_pairwise {K : Type} [CommRing K] {d : Descriptor K}
    {vars : List String} (hwf : d.samples.wf = true)
    (hrows : d.samples.rows.Nodup) :
    (densifyMapping d vars).Pairwise (fun e1 e2 =>
      e1.newSampleI ≠ e2.newSampleI ∨ e1.vars ≠ e2.vars) := by
  rw [densifyMapping, List.pairwise_map]
  have hsnd : d.samples.rows.enum.Pairwise (fun p q => p.2 ≠ q.2) := by
    have h2 : (d.samples.rows.enum.map Prod.snd).Pairwise (· ≠ ·) := by
      rw [List.enum_map_snd]
      exact hrows
    exact List.pairwise_map.1 h2
  apply hsnd.imp_of_mem
  intro p q hp hq hne
  by_contra hcon
  push_neg at hcon
  obtain ⟨hnewEq, hvarsEq⟩ := hcon
  simp only at hnewEq hvarsEq
  have hpmem : p.2 ∈ d.samples.rows := by
    rw [← List.enum_map_snd d.samples.rows]
    exact List.mem_map_of_mem _ hp
  have hqmem : q.2 ∈ d.samples.rows := by
    rw [← List.enum_map_snd d.samples.rows]
    exact List.mem_map_of_mem _ hq
  have hdp : dropPositions (densifyPositions d vars) p.2 ∈
      densifyReduced d vars := by
    rw [densifyReduced, mem_firstSeenDedup]
    exact List.mem_map_of_mem _ hpmem
  have hdq : dropPositions (densifyPositions d vars) q.2 ∈
      densifyReduced d vars := by
    rw [densifyReduced, mem_firstSeenDedup]
    exact List.mem_map_of_mem _ hqmem
  have hdropEq := idxOf_inj hdp hdq hnewEq
  have hlens := Indexes.wf_rows hwf
  exact hne (row_eq_of_block_drop (hlens p.2 hpmem) (hlens q.2 hqmem)
    hvarsEq hdropEq)

theorem foldl_bind_none {α β : Type} (g : α → β → Option β) :
    ∀ l : List α, l.foldl (fun acc di => acc.bind (g di)) none = none
  | [] => rfl
  | a :: t => by
    rw [List.foldl_cons]
    show t.foldl _ (Option.bind none (g a)) = none
    rw [Option.none_bind]
    exact foldl_bind_none g t

theorem idxOf_eq_of_overlap {blocks : List Row} {v1 v2 : Row} {F k : Nat}
    (h1 : idxOf blocks v1 * F ≤ k) (h2 : k < idxOf blocks v1 * F + F)
    (h3 : idxOf blocks v2 * F ≤ k) (h4 : k < idxOf blocks v2 * F + F) :
    idxOf blocks v1 = idxOf blocks v2 := by
  by_contra hc
  rcases Nat.lt_or_ge (idxOf blocks v1) (idxOf blocks v2) with hlt | hge
  · have hmul : idxOf blocks v1 * F + F ≤ idxOf blocks v2 * F := by
      have hsucc : idxOf blocks v1 + 1 ≤ idxOf blocks v2 := hlt
      calc idxOf blocks v1 * F + F = (idxOf blocks v1 + 1) * F := by ring
        _ ≤ idxOf blocks v2 * F := Nat.mul_le_mul_right F hsucc
    omega
  · have hgt : idxOf blocks v2 < idxOf blocks v1 := by omega
    have hmul : idxOf blocks v2 * F + F ≤ idxOf blocks v1 * F := by
      have hsucc : idxOf blocks v2 + 1 ≤ idxOf blocks v1 := hgt
      calc idxOf blocks v2 * F + F = (idxOf blocks v2 + 1) * F := by ring
        _ ≤ idxOf blocks v1 * F := Nat.mul_le_mul_right F hsucc
    omega

theorem sum_find_cells {K : Type} [CommRing K] {src : Matrix K}
    {blocks : List Row} {F R C : Nat} :
    ∀ mapping : List DensifiedIndex,
    (∀ e ∈ mapping, e.vars ∈ blocks) →
    (∀ e ∈ mapping, e.newSampleI < R) →
    (∀ e ∈ mapping, idxOf blocks e.vars * F + F ≤ C) →
    List.Pairwise (fun e1 e2 =>
      e1.newSampleI ≠ e2.newSampleI ∨ e1.vars ≠ e2.vars) mapping →
    (∑ r in Finset.range R, ∑ k in Finset.range C,
      (match mapping.find? (fun e => decide (e.newSampleI = r ∧
          idxOf blocks e.vars * F ≤ k ∧
          k < idxOf blocks e.vars * F + F)) with
       | some e => (src.getD e.oldSampleI []).getD
           (k - idxOf blocks e.vars * F) 0
       | none => (0 : K))) =
    (mapping.map (fun e => ∑ j in Finset.range F,
      (src.getD e.oldSampleI []).getD j 0)).sum := by
  intro mapping
  induction mapping with
  | nil =>
    intro _ _ _ _
    simp
  | cons e rest ih =>
    intro hblk hlt hC hpw
    rw [List.pairwise_cons] at hpw
    obtain ⟨hd, hpwr⟩ := hpw
    have hpt : ∀ r k,
        (match (e :: rest).find? (fun e2 => decide (e2.newSampleI = r ∧
            idxOf blocks e2.vars * F ≤ k ∧
            k < idxOf blocks e2.vars * F + F)) with
         | some e2 => (src.getD e2.oldSampleI []).getD
             (k - idxOf blocks e2.vars * F) 0
         | none => (0 : K)) =
        (if e.newSampleI = r ∧ idxOf blocks e.vars * F ≤ k ∧
            k < idxOf blocks e.vars * F + F then
          (src.getD e.oldSampleI []).getD (k - idxOf blocks e.vars * F) 0
         else 0) +
        (match rest.find? (fun e2 => decide (e2.newSampleI = r ∧
            idxOf blocks e2.vars * F ≤ k ∧
            k < idxOf blocks e2.vars * F + F)) with
         | some e2 => (src.getD e2.oldSampleI []).getD
             (k - idxOf blocks e2.vars * F) 0
         | none => (0 : K)) := by
      intro r k
      by_cases hcase : e.newSampleI = r ∧ idxOf blocks e.vars * F ≤ k ∧
          k < idxOf blocks e.vars * F + F
      · rw [List.find?_cons_of_pos _ (by simpa using hcase), if_pos hcase]
        have hrest : rest.find? (fun e2 => decide (e2.newSampleI = r ∧
            idxOf blocks e2.vars * F ≤ k ∧
            k < idxOf blocks e2.vars * F + F)) = none := by
          rw [List.find?_eq_none]
          intro e2 he2
          simp only [decide_eq_true_eq]
          intro hcov2
          have hne := hd e2 he2
          rcases hne with hne | hne
          · exact hne (hcase.1.trans hcov2.1.symm)
          · have hidx := idxOf_eq_of_overlap hcase.2.1 hcase.2.2
              hcov2.2.1 hcov2.2.2
            exact hne (idxOf_inj (hblk e (List.mem_cons_self e rest))
              (hblk e2 (List.mem_cons.2 (Or.inr he2))) hidx)
        rw [hrest, add_zero]
      · rw [List.find?_cons_of_neg _ (by simpa using hcase), if_neg hcase,
          zero_add]
    have hsplit : (∑ r in Finset.range R, ∑ k in Finset.range C,
        (match (e :: rest).find? (fun e2 => decide (e2.newSampleI = r ∧
            idxOf blocks e2.vars * F ≤ k ∧
            k < idxOf blocks e2.vars * F + F)) with
         | some e2 => (src.getD e2.oldSampleI []).getD
             (k - idxOf blocks e2.vars * F) 0
         | none => (0 : K))) =
        (∑ r in Finset.range R, ∑ k in Finset.range C,
          (if e.newSampleI = r ∧ idxOf blocks e.vars * F ≤ k ∧
              k < idxOf blocks e.vars * F + F then
            (src.getD e.oldSampleI []).getD (k - idxOf blocks e.vars * F) 0
           else 0)) +
        (∑ r in Finset.range R, ∑ k in Finset.range C,
          (match rest.find? (fun e2 => decide (e2.newSampleI = r ∧
              idxOf blocks e2.vars * F ≤ k ∧
              k < idxOf blocks e2.vars * F + F)) with
           | some e2 => (src.getD e2.oldSampleI []).getD
               (k - idxOf blocks e2.vars * F) 0
           | none => (0 : K))) := by
      rw [← Finset.sum_add_distrib]
      apply Finset.sum_congr rfl
      intro r _
      rw [← Finset.sum_add_distrib]
      apply Finset.sum_congr rfl
      intro k _
      exact hpt r k
    rw [hsplit, ih (fun x hx => hblk x (List.mem_cons.2 (Or.inr hx)))
      (fun x hx => hlt x (List.mem_cons.2 (Or.inr hx)))
      (fun x hx => hC x (List.mem_cons.2 (Or.inr hx))) hpwr]
    rw [List.map_cons, List.sum_cons]
    congr 1
    have hnew : e.newSampleI < R := hlt e (List.mem_cons_self e rest)
    have hCe : idxOf blocks e.vars * F + F ≤ C :=
      hC e (List.mem_cons_self e rest)
    rw [Finset.sum_eq_single_of_mem e.newSampleI (Finset.mem_range.2 hnew)]
    · have hiff : ∀ k : Nat, (idxOf blocks e.vars * F ≤ k ∧
          k < idxOf blocks e.vars * F + F) ↔
          k ∈ Finset.Ico (idxOf blocks e.vars * F)
            (idxOf blocks e.vars * F + F) := by
        intro k
        simp [Finset.mem_Ico]
      simp only [eq_self_iff_true, true_and, hiff]
      rw [Finset.sum_ite_mem]
      have hinter : Finset.range C ∩ Finset.Ico (idxOf blocks e.vars * F)
          (idxOf blocks e.vars * F + F) =
          Finset.Ico (idxOf blocks e.vars * F)
            (idxOf blocks e.vars * F + F) := by
        rw [Finset.inter_eq_right]
        intro x hx
        rw [Finset.mem_Ico] at hx
        rw [Finset.mem_range]
        omega
      rw [hinter, Finset.sum_Ico_eq_sum_range]
      have hF : idxOf blocks e.vars * F + F - idxOf blocks e.vars * F = F := by
        omega
      rw [hF]
      apply Finset.sum_congr rfl
      intro j _
      rw [Nat.add_sub_cancel_left]
    · intro b _ hb
      apply Finset.sum_eq_zero
      intro k _
      rw [if_neg]
      intro hcc
      exact hb hcc.1.symm

theorem matWf_length {K : Type} {m : Matrix K} {r c : Nat}
    (h : matWf m r c = true) : m.length = r := by
  rw [matWf, Bool.and_eq_true] at h
  simpa using h.1

theorem matWf_rowlen {K : Type} {m : Matrix K} {r c : Nat}
    (h : matWf m r c = true) : ∀ row ∈ m, row.length = c := by
  rw [matWf, Bool.and_eq_true] at h
  have h2 := h.2
  rw [List.all_eq_true] at h2
  intro row hrow
  simpa using h2 row hrow

theorem sumMat_zeros {K : Type} [CommRing K] (r c : Nat) :
    sumMat (zerosMat K r c) = 0 := by
  simp [sumMat, zerosMat, List.map_replicate, List.sum_replicate]

theorem matWf_zeros {K : Type} [CommRing K] (r c : Nat) :
    matWf (zerosMat K r c) r c = true := by
  simp [matWf, zerosMat, List.all_eq_true, List.eq_of_mem_replicate]

theorem densifyMapping_sum_old {K M : Type} [CommRing K] [AddCommMonoid M]
    (d : Descriptor K) (vars : List String) (h : Nat → M) :
    ((densifyMapping d vars).map (fun e => h e.oldSampleI)).sum =
    ∑ i in Finset.range d.samples.rows.length, h i := by
  rw [densifyMapping, List.map_map]
  have h2 : d.samples.rows.enum.map ((fun e => h e.oldSampleI) ∘
      (fun p : Nat × Row =>
        ({ oldSampleI := p.1,
           newSampleI := idxOf (densifyReduced d vars)
             (dropPositions (densifyPositions d vars) p.2),
           vars := blockOf (densifyPositions d vars) p.2 } : DensifiedIndex))) =
      (List.range d.samples.rows.length).map h := by
    rw [← List.enum_map_fst, List.map_map]
    exact List.map_congr_left (fun p hp => rfl)
  rw [h2, list_range_map_sum]

/-- Claim C4, amended: the conservation of the total of the values
holds for duplicate-free sample rows.  For a well-formed descriptor
whose sample rows are pairwise distinct and a duplicate-free variable
list contained in the sample column names, a successful
densify(vars, none) preserves the sum of all entries of the
values matrix. -/
theorem claim_C4_amended {K : Type} [CommRing K] {d : Descriptor K}
    {vars : List String}
    (hwf : d.wellFormed = true) (hnd : vars.Nodup)
    (hmem : ∀ v ∈ vars, v ∈ d.samples.names)
    (hrows : d.samples.rows.Nodup)
    (hok : (d.densify vars none).2 = .ok ()) :
    sumMat (d.densify vars none).1.values = sumMat d.values := by
  by_cases hguard : (vars.isEmpty || decide (d.features.size = 0)) = true
  · rw [Descriptor.densify, if_pos hguard]
  · have hguard2 : (vars.isEmpty || decide (d.features.size = 0)) = false :=
      Bool.eq_false_iff.2 hguard
    rw [Bool.or_eq_false_iff] at hguard2
    have hvne : vars ≠ [] := by
      have h := hguard2.1
      rw [List.isEmpty_eq_false] at h
      exact h
    have hfs : d.features.size ≠ 0 := by
      have h := hguard2.2
      simpa using h
    obtain ⟨nv, tail, restF, g, gs, hfr, hcopy, hout⟩ :=
      densify_none_ok_spine hwf hnd hmem hvne hfs hok
    rw [hout]
    show sumMat nv = sumMat d.values
    have hvalwf := wf_values hwf
    have hF : d.features.count = d.features.rows.length := by
      rw [Indexes.count, if_neg]
      intro h0
      exact hfs h0
    by_cases hre : d.samples.rows = []
    · have hmap : densifyMapping d vars = [] := by
        rw [densifyMapping, hre]
        rfl
      rw [hmap] at hcopy
      have hnv : nv = zerosMat K (densifySamplesIdx d vars).count
          (densifyFeaturesIdx d vars (densifyBlocks d vars)).count := by
        have hid : densifyCopy d.values tail d.features.count
            (densifyFeaturesIdx d vars (densifyBlocks d vars)) []
            (zerosMat K (densifySamplesIdx d vars).count
              (densifyFeaturesIdx d vars (densifyBlocks d vars)).count) =
            some (zerosMat K (densifySamplesIdx d vars).count
              (densifyFeaturesIdx d vars (densifyBlocks d vars)).count) := rfl
        rw [hid] at hcopy
        exact (Option.some.inj hcopy).symm
      have hdv : d.values = [] := by
        have hlen := matWf_length hvalwf
        have hc0 : d.samples.count = 0 := by
          rw [Indexes.count, hre]
          simp
        rw [hc0] at hlen
        exact List.length_eq_zero.1 hlen
      rw [hnv, hdv, sumMat_zeros]
      rfl
    · have hnamesne : d.samples.names ≠ [] := by
        have hswf := wf_samples hwf
        rw [Indexes.wf] at hswf
        simp only [Bool.and_eq_true, Bool.or_eq_true] at hswf
        rcases hswf.2 with h | h
        · rw [Bool.not_eq_true', List.isEmpty_eq_false] at h
          exact h
        · exact absurd (by simpa using h) hre
      have hcount : d.samples.count = d.samples.rows.length := by
        rw [Indexes.count, if_neg]
        intro h0
        exact hnamesne (List.length_eq_zero.1 h0)
      have hhead : d.features.rows.head? = some tail := by
        rw [hfr]
        rfl
      have hblens : ∀ bb ∈ densifyBlocks d vars, bb.length = vars.length :=
        fun bb hb => densifyBlocks_len hb
      by_cases hfe : d.samples.names.filter (fun n => !vars.contains n) = []
      · exfalso
        obtain ⟨r0, rest, hre2⟩ := List.exists_cons_of_ne_nil hre
        have hc0 : (densifySamplesIdx d vars).count = 0 := by
          show (if (d.samples.names.filter
              (fun n => !vars.contains n)).length = 0 then 0
            else (densifyReduced d vars).length) = 0
          rw [if_pos]
          rw [hfe]
          rfl
        rw [hc0] at hcopy
        have hz : zerosMat K 0 (densifyFeaturesIdx d vars
            (densifyBlocks d vars)).count = ([] : Matrix K) := rfl
        rw [hz] at hcopy
        have hmapeq : densifyMapping d vars =
            ({ oldSampleI := 0,
               newSampleI := idxOf (densifyReduced d vars)
                 (dropPositions (densifyPositions d vars) r0),
               vars := blockOf (densifyPositions d vars) r0 } :
                 DensifiedIndex) ::
            (List.enumFrom 1 rest).map (fun p =>
              ({ oldSampleI := p.1,
                 newSampleI := idxOf (densifyReduced d vars)
                   (dropPositions (densifyPositions d vars) p.2),
                 vars := blockOf (densifyPositions d vars) p.2 } :
                   DensifiedIndex)) := by
          rw [densifyMapping, hre2]
          rfl
        rw [hmapeq] at hcopy
        have hb0len : (blockOf (densifyPositions d vars) r0).length =
            vars.length := by
          rw [blockOf, List.length_map, densifyPositions, varPositions,
            List.length_map]
        have hb0mem : blockOf (densifyPositions d vars) r0 ∈
            densifyBlocks d vars := by
          rw [densifyBlocks]
          apply mem_btOfList.2
          apply List.mem_map_of_mem
          rw [hre2]
          exact List.mem_cons_self r0 rest
        have hpos : (densifyFeaturesIdx d vars (densifyBlocks d vars)).position
            (blockOf (densifyPositions d vars) r0 ++ tail) =
            some (idxOf (densifyBlocks d vars)
              (blockOf (densifyPositions d vars) r0) *
                d.features.rows.length) := by
          rw [Indexes.position]
          have hNF : (densifyFeaturesIdx d vars (densifyBlocks d vars)).rows =
              (densifyBlocks d vars).flatMap
                (fun bb => d.features.rows.map (bb ++ ·)) := rfl
          rw [hNF, findBlockTail hhead hblens hb0len, if_pos hb0mem]
        rw [densifyCopy, List.foldl_cons] at hcopy
        simp only [Option.some_bind] at hcopy
        rw [hpos] at hcopy
        dsimp only at hcopy
        have hss : ∀ (i s w : Nat) (v : List K),
            setSlice ([] : Matrix K) i s w v = none := by
          intro i s w v
          rfl
        rw [hss] at hcopy
        rw [foldl_bind_none] at hcopy
        exact absurd hcopy (by simp)
      · have hRcount : (densifySamplesIdx d vars).count =
            (densifyReduced d vars).length := by
          show (if (d.samples.names.filter
              (fun n => !vars.contains n)).length = 0 then 0
            else (densifyReduced d vars).length) =
            (densifyReduced d vars).length
          rw [if_neg]
          intro h0
          exact hfe (List.length_eq_zero.1 h0)
        rw [hRcount] at hcopy
        have hvl : d.values.length = d.samples.rows.length := by
          rw [matWf_length hvalwf, hcount]
        have hment : ∀ e ∈ densifyMapping d vars,
            e.vars ∈ densifyBlocks d vars ∧ e.vars.length = vars.length :=
          fun e he => densifyMapping_vars he
        have hnewlt : ∀ e ∈ densifyMapping d vars,
            e.newSampleI < (densifyReduced d vars).length :=
          fun e he => densifyMapping_new_lt he
        have hsrc : ∀ e ∈ densifyMapping d vars,
            (d.values.getD e.oldSampleI []).length = d.features.count := by
          intro e he
          obtain ⟨row, hrow, holt, _, _⟩ := densifyMapping_mem he
          have h2 : e.oldSampleI < d.values.length := by
            rw [hvl]
            exact holt
          rw [List.getD_eq_getElem _ _ h2]
          exact matWf_rowlen hvalwf _ (List.getElem_mem h2)
        have hNFlen : (densifyFeaturesIdx d vars (densifyBlocks d vars)).count =
            (densifyBlocks d vars).length * d.features.count := by
          have hfne : d.features.names ≠ [] := by
            intro h0
            apply hfs
            rw [Indexes.size, h0]
            rfl
          show (if (vars ++ d.features.names).length = 0 then 0
            else ((densifyBlocks d vars).flatMap
              (fun b => d.features.rows.map (fun f => b ++ f))).length) = _
          rw [if_neg, List.length_flatMap]
          · have hme : List.map (List.length ∘
                (fun b => d.features.rows.map (fun f => b ++ f)))
                (densifyBlocks d vars) =
                List.map (fun _ => d.features.rows.length)
                  (densifyBlocks d vars) := by
              apply List.map_congr_left
              intro b _
              show (d.features.rows.map (fun f => b ++ f)).length = _
              rw [List.length_map]
            rw [hme, List.map_const', List.sum_replicate, smul_eq_mul, hF]
          · intro h0
            rw [List.length_append] at h0
            exact hfne (List.length_eq_zero.1 (by omega))
        have hC : ∀ e ∈ densifyMapping d vars,
            idxOf (densifyBlocks d vars) e.vars * d.features.count +
              d.features.count ≤
              (densifyFeaturesIdx d vars (densifyBlocks d vars)).count := by
          intro e he
          rw [hNFlen]
          have hlt2 : idxOf (densifyBlocks d vars) e.vars + 1 ≤
              (densifyBlocks d vars).length := idxOf_lt_length (hment e he).1
          calc idxOf (densifyBlocks d vars) e.vars * d.features.count +
                d.features.count
              = (idxOf (densifyBlocks d vars) e.vars + 1) *
                  d.features.count := by ring
            _ ≤ (densifyBlocks d vars).length * d.features.count :=
                Nat.mul_le_mul_right _ hlt2
        have hpw := @densifyMapping_pairwise K _ d vars (wf_samples hwf) hrows
        have hNF : (densifyFeaturesIdx d vars (densifyBlocks d vars)).rows =
            (densifyBlocks d vars).flatMap
              (fun bb => d.features.rows.map (bb ++ ·)) := rfl
        obtain ⟨m2, hm2, hm2wf, hentry⟩ := densifyCopy_entry hNF hhead hF.symm
          hblens hment
          (matWf_zeros (densifyReduced d vars).length
            (densifyFeaturesIdx d vars (densifyBlocks d vars)).count)
          hnewlt hsrc hC hpw
        have hnveq : nv = m2 := Option.some.inj (hcopy.symm.trans hm2)
        subst hnveq
        calc sumMat nv
            = ∑ r in Finset.range (densifyReduced d vars).length,
              ∑ k in Finset.range (densifyFeaturesIdx d vars
                (densifyBlocks d vars)).count,
                getEntry nv r k := sumMat_eq_entries hm2wf
          _ = ∑ r in Finset.range (densifyReduced d vars).length,
              ∑ k in Finset.range (densifyFeaturesIdx d vars
                (densifyBlocks d vars)).count,
                (match (densifyMapping d vars).find? (fun e =>
                    decide (e.newSampleI = r ∧
                    idxOf (densifyBlocks d vars) e.vars * d.features.count ≤ k ∧
                    k < idxOf (densifyBlocks d vars) e.vars *
                      d.features.count + d.features.count)) with
                 | some e => (d.values.getD e.oldSampleI []).getD
                     (k - idxOf (densifyBlocks d vars) e.vars *
                       d.features.count) 0
                 | none => (0 : K)) := by
              apply Finset.sum_congr rfl
              intro r _
              apply Finset.sum_congr rfl
              intro k _
              rw [hentry r k]
              cases hfind : (densifyMapping d vars).find? (fun e =>
                  decide (e.newSampleI = r ∧
                  idxOf (densifyBlocks d vars) e.vars * d.features.count ≤ k ∧
                  k < idxOf (densifyBlocks d vars) e.vars *
                    d.features.count + d.features.count)) with
              | some e => rfl
              | none => exact getEntry_zerosMat _ _ r k
          _ = ((densifyMapping d vars).map (fun e =>
                ∑ j in Finset.range d.features.count,
                  (d.values.getD e.oldSampleI []).getD j 0)).sum :=
              sum_find_cells (densifyMapping d vars)
                (fun e he => (hment e he).1) hnewlt hC hpw
          _ = ∑ i in Finset.range d.samples.rows.length,
              ∑ j in Finset.range d.features.count,
                (d.values.getD i []).getD j 0 :=
              densifyMapping_sum_old d vars (fun i =>
                ∑ j in Finset.range d.features.count,
                  (d.values.getD i []).getD j 0)
          _ = sumMat d.values := by
              have hvalwf2 : matWf d.values d.samples.rows.length
                  d.features.count := by
                rw [← hcount]
                exact hvalwf
              exact (sumMat_eq_entries hvalwf2).symm

/-- Witness for the amended claim C4 at the worked example. -/
theorem claim_C4_amended_witness :
    sumMat (exC2.densify ["species"] none).1.values = sumMat exC2.values :=
  @claim_C4_amended ℤ _ exC2 ["species"] (by decide) (by decide) (by decide)
    (by decide) (by decide)

theorem bindR_eq_ok {α β : Type} {x : RunResult α} {f : α → RunResult β}
    {b : β} (h : x.bindR f = .ok b) : ∃ a, x = .ok a ∧ f a = .ok b := by
  cases x with
  | ok a => exact ⟨a, rfl, h⟩
  | invalidParameter m => exact absurd h (by simp [RunResult.bindR])
  | fatal m => exact absurd h (by simp [RunResult.bindR])

theorem mkIndexes_ok_inv {names : List String} {rows : List Row} {idx : Indexes}
    (h : mkIndexes names rows = .ok idx) :
    idx = { names := names, rows := rows } := by
  rw [mkIndexes] at h
  by_cases h1 : names.all isValidIdent
  · rw [if_neg (by simp [h1])] at h
    by_cases h2 : rows.all (fun r => r.length = names.length)
    · rw [if_neg (by simp [h2])] at h
      exact (RunResult.ok.inj h).symm
    · rw [if_pos (by simp [h2])] at h
      exact absurd h (by simp)
  · rw [if_pos (by simp [h1])] at h
    exact absurd h (by simp)

theorem prepareGradients_ok_inv {K : Type} [CommRing K] {d : Descriptor K}
    {s g f : Indexes} {d2 : Descriptor K}
    (h : d.prepareGradients s g f = .ok d2) :
    g.names.getLast? = some "spatial" ∧
    d2 = { values := zerosMat K s.count f.count, samples := s, features := f,
           gradients := some (zerosMat K g.count f.count),
           gradientsSamples := some g } := by
  rw [Descriptor.prepareGradients] at h
  by_cases hg : g.names.getLast? ≠ some "spatial"
  · rw [if_pos hg] at h
    exact absurd h (by simp)
  · rw [if_neg hg] at h
    push_neg at hg
    exact ⟨hg, (RunResult.ok.inj h).symm⟩

theorem getLast?_filter {l : List String} {x : String} {p : String → Bool}
    (h : l.getLast? = some x) (hp : p x = true) :
    (l.filter p).getLast? = some x := by
  obtain ⟨l2, rfl⟩ := List.getLast?_eq_some_iff.1 h
  rw [List.filter_append]
  have h2 : List.filter p [x] = [x] := by simp [hp]
  rw [h2, List.getLast?_concat]

theorem removeFromSamples_ok_names {s : Indexes} {vars : List String}
    {r : RemovedSamples} (h : removeFromSamples s vars = .ok r) :
    r.samples.names = s.names.filter (fun n => !vars.contains n) := by
  rw [removeFromSamples] at h
  obtain ⟨ps, hps, h⟩ := bindR_eq_ok h
  cases hloop : rfsLoop ps 0 s.rows
      { newSamples := [], newFeatures := [], mapping := [] } with
  | none =>
    rw [hloop] at h
    exact absurd h (by simp)
  | some st =>
    rw [hloop] at h
    dsimp only at h
    obtain ⟨idx, hmk, h⟩ := bindR_eq_ok h
    have hidx := mkIndexes_ok_inv hmk
    have hr := (RunResult.ok.inj h).symm
    rw [hr]
    show idx.names = _
    rw [hidx]

theorem densify_ok_gradients {K : Type} [CommRing K] {d d2 : Descriptor K}
    {vars : List String} {requested : Option (Nat × List Row)}
    (h : d.densify vars requested = (d2, .ok ())) :
    (d2.gradients = d.gradients ∧ d2.gradientsSamples = d.gradientsSamples) ∨
    (∃ gs0 rg, d.gradientsSamples = some gs0 ∧
      removeFromSamples gs0 vars = .ok rg ∧
      d2.gradients.isSome = true ∧ d2.gradientsSamples = some rg.samples) := by
  rw [Descriptor.densify] at h
  by_cases hguard : (vars.isEmpty || decide (d.features.size = 0)) = true
  · rw [if_pos hguard] at h
    have hd : d = d2 := congrArg Prod.fst h
    left
    rw [← hd]
    exact ⟨rfl, rfl⟩
  · rw [if_neg hguard] at h
    cases hcore : densifyCore d vars requested with
    | invalidParameter m =>
      rw [hcore] at h
      exact absurd (congrArg Prod.snd h) (by simp)
    | fatal m =>
      rw [hcore] at h
      exact absurd (congrArg Prod.snd h) (by simp)
    | ok dc =>
      rw [hcore] at h
      have hd2 : dc = d2 := congrArg Prod.fst h
      rw [densifyCore.eq_def] at hcore
      obtain ⟨rset, hA, hcore⟩ := bindR_eq_ok hcore
      obtain ⟨rs, hrs, hcore⟩ := bindR_eq_ok hcore
      obtain ⟨ngs, hngs, hcore⟩ := bindR_eq_ok hcore
      obtain ⟨nf, hnf, hcore⟩ := bindR_eq_ok hcore
      cases hfr : d.features.rows.head? with
      | none =>
        rw [hfr] at hcore
        exact absurd hcore (by simp)
      | some fft =>
        rw [hfr] at hcore
        dsimp only at hcore
        cases hcp : densifyCopy d.values fft d.features.count nf rs.mapping
            (zerosMat K rs.samples.count nf.count) with
        | none =>
          rw [hcp] at hcore
          exact absurd hcore (by simp)
        | some nvals =>
          rw [hcp] at hcore
          cases hg : d.gradients with
          | none =>
            rw [hg] at hcore
            left
            have hdc := (RunResult.ok.inj hcore).symm
            rw [← hd2, hdc]
            exact ⟨rfl, rfl⟩
          | some grads =>
            rw [hg] at hcore
            cases hngs2 : ngs with
            | none =>
              rw [hngs2] at hcore
              exact absurd hcore (by simp)
            | some ng =>
              rw [hngs2] at hcore
              dsimp only at hcore
              cases hgc : densifyCopy grads fft d.features.count nf ng.mapping
                  (zerosMat K ng.samples.count nf.count) with
              | none =>
                rw [hgc] at hcore
                exact absurd hcore (by simp)
              | some ngrads =>
                rw [hgc] at hcore
                right
                rw [hngs2] at hngs
                cases hgs : d.gradientsSamples with
                | none =>
                  rw [hgs] at hngs
                  exact absurd hngs (by simp)
                | some gs0 =>
                  rw [hgs] at hngs
                  dsimp only at hngs
                  obtain ⟨rg, hrg, hif⟩ := bindR_eq_ok hngs
                  by_cases hne : rg.newFeatures ≠ rs.newFeatures
                  · rw [if_pos hne] at hif
                    exact absurd hif (by simp)
                  · rw [if_neg hne] at hif
                    have hrgng : rg = ng := by simpa using hif
                    refine ⟨gs0, ng, rfl, hrgng ▸ hrg, ?_, ?_⟩
                    · rw [← hd2, (RunResult.ok.inj hcore).symm]
                      rfl
                    · rw [← hd2, (RunResult.ok.inj hcore).symm]

theorem dot_ok_gradients {K : Type} [CommRing K] {lhs rhs : Descriptor K}
    {opts : DotOptions} {d2 : Descriptor K}
    (h : lhs.dot rhs opts = .ok d2) :
    (d2.gradients = none ∧ d2.gradientsSamples = none) ∨
    (∃ rg : RemovedSamples, d2.gradients.isSome = true ∧
      d2.gradientsSamples = some rg.samples ∧
      rg.samples.names.getLast? = some "spatial") := by
  rw [Descriptor.dot] at h
  by_cases hfe : lhs.features ≠ rhs.features
  · rw [if_pos hfe] at h
    exact absurd h (by simp)
  · rw [if_neg hfe] at h
    obtain ⟨u, hcheck, h⟩ := bindR_eq_ok h
    obtain ⟨rr, hrr, h⟩ := bindR_eq_ok h
    obtain ⟨rl, hrl, h⟩ := bindR_eq_ok h
    obtain ⟨rgOpt, hrg, h⟩ := bindR_eq_ok h
    obtain ⟨output, hout, h⟩ := bindR_eq_ok h
    rcases hb1 : buildIds rl.mapping [] with ⟨lm, st1⟩
    rw [hb1] at h
    dsimp only at h
    rcases hb2 : buildIds rr.mapping st1 with ⟨rm2, st2⟩
    rw [hb2] at h
    dsimp only at h
    split at h
    · exact absurd h (by simp)
    split at h
    · exact absurd h (by simp)
    obtain ⟨o2, hmid, hnorm⟩ := bindR_eq_ok h
    cases hro : rgOpt with
    | none =>
      rw [hro] at hmid hout
      dsimp only at hmid hout
      have ho := RunResult.ok.inj hout
      have ho2 := RunResult.ok.inj hmid
      left
      have hg2 : o2.gradients = none := by
        rw [← ho2]
        show output.gradients = none
        rw [← ho]
        rfl
      have hgs2 : o2.gradientsSamples = none := by
        rw [← ho2]
        show output.gradientsSamples = none
        rw [← ho]
        rfl
      cases hn : opts.normalize with
      | false =>
        rw [hn, if_neg (by simp)] at hnorm
        have hfin := RunResult.ok.inj hnorm
        rw [← hfin]
        exact ⟨hg2, hgs2⟩
      | true =>
        rw [hn, if_pos rfl] at hnorm
        rw [hg2] at hnorm
        dsimp only at hnorm
        have hfin := RunResult.ok.inj hnorm
        rw [← hfin]
        exact ⟨hg2, hgs2⟩
    | some rg =>
      rw [hro] at hmid hout
      dsimp only at hmid hout
      obtain ⟨hspatial, ho⟩ := prepareGradients_ok_inv hout
      cases hlg : lhs.gradients with
      | none =>
        rw [hlg] at hmid
        exact absurd hmid (by simp)
      | some lg =>
        rw [hlg] at hmid
        dsimp only at hmid
        rcases hb3 : buildIds rg.mapping st2 with ⟨gm, st3⟩
        rw [hb3] at hmid
        dsimp only at hmid
        split at hmid
        · exact absurd hmid (by simp)
        split at hmid
        · exact absurd hmid (by simp)
        have ho2 := RunResult.ok.inj hmid
        right
        have hg2 : o2.gradients.isSome = true := by
          rw [← ho2]
          rfl
        have hgs2 : o2.gradientsSamples = some rg.samples := by
          rw [← ho2]
          show output.gradientsSamples = some rg.samples
          rw [ho]
        cases hn : opts.normalize with
        | false =>
          rw [hn, if_neg (by simp)] at hnorm
          have hfin := RunResult.ok.inj hnorm
          refine ⟨rg, ?_, ?_, hspatial⟩
          · rw [← hfin]
            exact hg2
          · rw [← hfin]
            exact hgs2
        | true =>
          rw [hn, if_pos rfl] at hnorm
          obtain ⟨ngrv, hngrv⟩ := Option.isSome_iff_exists.1 hg2
          rw [hngrv, hgs2] at hnorm
          dsimp only at hnorm
          split at hnorm
          · exact absurd hnorm (by simp)
          split at hnorm
          · exact absurd hnorm (by simp)
          split at hnorm
          · have hfin := RunResult.ok.inj hnorm
            refine ⟨rg, ?_, ?_, hspatial⟩
            · rw [← hfin]
              exact hg2
            · rw [← hfin]
              exact hgs2
          · exact absurd hnorm (by simp)

/-- Claim C8, amended: the invariant holds for every descriptor
reachable through the public operations as long as no densify call
lists spatial among its variables: the gradient matrix and the
gradient-samples index are present together, and when present the last
gradient-samples column name is spatial. -/
theorem claim_C8_amended {K : Type} [CommRing K] (d : Descriptor K)
    (h : ReachableSpatialSafe d) : gradientInvariant d := by
  induction h with
  | new =>
    exact ⟨Iff.rfl, fun gs hgs => Option.noConfusion hgs⟩
  | prepare d s f hr ih =>
    exact ⟨Iff.rfl, fun gs hgs => Option.noConfusion hgs⟩
  | prepareGradients d d2 s g f hr hok ih =>
    obtain ⟨hsp, hd2⟩ := prepareGradients_ok_inv hok
    rw [hd2]
    refine ⟨Iff.rfl, fun gs hgs => ?_⟩
    have hg : g = gs := Option.some.inj hgs
    rw [← hg]
    exact hsp
  | densify d d2 vars requested hr hns hok ih =>
    rcases densify_ok_gradients hok with ⟨hg, hgs⟩ |
      ⟨gs0, rg, hgs0, hrg, hiso, hgs2⟩
    · refine ⟨?_, fun gs hgseq => ih.2 gs (hgs ▸ hgseq)⟩
      rw [hg, hgs]
      exact ih.1
    · refine ⟨⟨fun _ => by rw [hgs2]; rfl, fun _ => hiso⟩,
        fun gs hgseq => ?_⟩
      rw [hgs2] at hgseq
      have hgseq2 : gs = rg.samples := (Option.some.inj hgseq).symm
      rw [hgseq2, removeFromSamples_ok_names hrg]
      apply getLast?_filter (ih.2 gs0 hgs0)
      simp only [Bool.not_eq_true']
      rw [← Bool.not_eq_true]
      intro hc
      exact hns (by simpa using hc)
  | dot lhs rhs d2 opts hrl hrr hok ihl ihr =>
    rcases dot_ok_gradients hok with ⟨hg, hgs⟩ | ⟨rg, hiso, hgs2, hsp⟩
    · refine ⟨?_, fun gs hgseq => absurd (hgs ▸ hgseq) (by simp)⟩
      rw [hg, hgs]
      exact Iff.rfl
    · refine ⟨⟨fun _ => by rw [hgs2]; rfl, fun _ => hiso⟩,
        fun gs hgseq => ?_⟩
      rw [hgs2] at hgseq
      have hgseq2 : gs = rg.samples := (Option.some.inj hgseq).symm
      rw [hgseq2]
      exact hsp

/-- Witness for the amended claim C8: the descriptor obtained by
preparing gradients and densifying along a non-spatial variable is
reachable without a spatial densify and satisfies the invariant. -/
theorem claim_C8_amended_witness :
    gradientInvariant (exSpatialPrepared.densify ["a"] none).1 :=
  claim_C8_amended (exSpatialPrepared.densify ["a"] none).1
    (ReachableSpatialSafe.densify exSpatialPrepared
      (exSpatialPrepared.densify ["a"] none).1 ["a"] none
      (ReachableSpatialSafe.prepareGradients (Descriptor.new ℤ)
        exSpatialPrepared exSpatialSamples exSpatialSamples exOneFeature
        ReachableSpatialSafe.new (by decide))
      (by decide) (by decide))

theorem isInvalid_bindR {α β : Type} (x : RunResult α) (f : α → RunResult β) :
    (x.bindR f).isInvalid = true ↔
    x.isInvalid = true ∨ ∃ a, x = .ok a ∧ (f a).isInvalid = true := by
  cases x <;> simp [RunResult.bindR, RunResult.isInvalid]

theorem removeFromSamples_invalid {s : Indexes} {vars : List String}
    (h : ∃ v ∈ vars, v ∉ s.names) :
    (removeFromSamples s vars).isInvalid = true := by
  rw [removeFromSamples, isInvalid_bindR]
  left
  exact (findPositions_invalid_iff vars s.names).2 h

theorem densifyCore_invalid_of_missing {K : Type} [CommRing K]
    {d : Descriptor K} {vars : List String}
    {requested : Option (Nat × List Row)}
    (hmiss : ∃ v ∈ vars, v ∉ d.samples.names) :
    (densifyCore d vars requested).isInvalid = true := by
  rw [densifyCore.eq_def, isInvalid_bindR]
  cases requested with
  | none =>
    right
    refine ⟨none, rfl, ?_⟩
    rw [isInvalid_bindR]
    left
    exact removeFromSamples_invalid hmiss
  | some p =>
    rcases p with ⟨nc, rr⟩
    by_cases hne : nc ≠ vars.length
    · left
      dsimp only
      rw [if_pos hne]
      rfl
    · right
      refine ⟨some (btOfList rr), ?_, ?_⟩
      · dsimp only
        rw [if_neg hne]
      · rw [isInvalid_bindR]
        left
        exact removeFromSamples_invalid hmiss

/-- Claim C7: densify with an empty variable list or no feature
columns is a successful no-op; with the no-op guard off it reports
InvalidParameter when a variable is missing from the sample column
names or when the requested table has a column count different from
the number of variables; and any non-ok outcome leaves the receiver
unchanged. -/
theorem claim_C7 {K : Type} [CommRing K] (d : Descriptor K)
    (vars : List String) (requested : Option (Nat × List Row)) :
    (vars = [] ∨ d.features.size = 0 →
      d.densify vars requested = (d, .ok ())) ∧
    (vars ≠ [] → d.features.size ≠ 0 →
      (∃ v ∈ vars, v ∉ d.samples.names) →
      ((d.densify vars requested).2).isInvalid = true) ∧
    (vars ≠ [] → d.features.size ≠ 0 → ∀ ncols rrows,
      requested = some (ncols, rrows) → ncols ≠ vars.length →
      ((d.densify vars requested).2).isInvalid = true) ∧
    ((d.densify vars requested).2 ≠ .ok () →
      (d.densify vars requested).1 = d) := by
  refine ⟨?_, ?_, ?_, ?_⟩
  · intro h
    rw [Descriptor.densify, if_pos]
    rcases h with h | h
    · rw [h]
      simp
    · simp [h]
  · intro hvne hfs hmiss
    have hguard : (vars.isEmpty || decide (d.features.size = 0)) = false := by
      rw [Bool.or_eq_false_iff]
      exact ⟨List.isEmpty_eq_false.2 hvne, by simpa using hfs⟩
    have hcinv : (densifyCore d vars requested).isInvalid = true :=
      densifyCore_invalid_of_missing hmiss
    cases hcore : densifyCore d vars requested with
    | ok dc =>
      rw [hcore] at hcinv
      exact absurd hcinv (by simp [RunResult.isInvalid])
    | fatal m =>
      rw [hcore] at hcinv
      exact absurd hcinv (by simp [RunResult.isInvalid])
    | invalidParameter m =>
      rw [Descriptor.densify,
        if_neg (by simp only [hguard]; exact Bool.false_ne_true), hcore]
      rfl
  · intro hvne hfs ncols rrows hreq hne
    have hguard : (vars.isEmpty || decide (d.features.size = 0)) = false := by
      rw [Bool.or_eq_false_iff]
      exact ⟨List.isEmpty_eq_false.2 hvne, by simpa using hfs⟩
    have hcinv : (densifyCore d vars requested).isInvalid = true := by
      rw [hreq, densifyCore.eq_def, isInvalid_bindR]
      left
      dsimp only
      rw [if_pos hne]
      rfl
    cases hcore : densifyCore d vars requested with
    | ok dc =>
      rw [hcore] at hcinv
      exact absurd hcinv (by simp [RunResult.isInvalid])
    | fatal m =>
      rw [hcore] at hcinv
      exact absurd hcinv (by simp [RunResult.isInvalid])
    | invalidParameter m =>
      rw [Descriptor.densify,
        if_neg (by simp only [hguard]; exact Bool.false_ne_true), hcore]
      rfl
  · intro h
    by_cases hguard : (vars.isEmpty || decide (d.features.size = 0)) = true
    · exfalso
      apply h
      rw [Descriptor.densify, if_pos hguard]
    · cases hcore : densifyCore d vars requested with
      | ok dc =>
        exfalso
        apply h
        rw [Descriptor.densify, if_neg hguard, hcore]
      | invalidParameter m =>
        rw [Descriptor.densify, if_neg hguard, hcore]
      | fatal m =>
        rw [Descriptor.densify, if_neg hguard, hcore]

/-- Witness for claim C7: the no-op, the missing-variable error, the
requested-width error and the unchanged receiver, all at concrete
descriptors. -/
theorem claim_C7_witness :
    exC2.densify [] none = (exC2, .ok ()) ∧
    ((exC2.densify ["nope"] none).2).isInvalid = true ∧
    ((exC2.densify ["species"] (some (2, [[1,2]]))).2).isInvalid = true ∧
    (exC2.densify ["nope"] none).1 = exC2 :=
  ⟨(claim_C7 exC2 [] none).1 (Or.inl rfl),
   (claim_C7 exC2 ["nope"] none).2.1 (by decide) (by decide)
     ⟨"nope", by decide, by decide⟩,
   (claim_C7 exC2 ["species"] (some (2, [[1,2]]))).2.2.1 (by decide)
     (by decide) 2 [[1,2]] rfl (by decide),
   (claim_C7 exC2 ["nope"] none).2.2.2 (by decide)⟩

theorem densify_requested_features {K : Type} [CommRing K]
    {d d2 : Descriptor K} {vars : List String} {ncols : Nat}
    {rrows : List Row}
    (h : d.densify vars (some (ncols, rrows)) = (d2, .ok ()))
    (hvne : vars ≠ []) (hfs : d.features.size ≠ 0) :
    d2.features = densifyFeaturesIdx d vars (btOfList rrows) := by
  have hguard : (vars.isEmpty || decide (d.features.size = 0)) = false := by
    rw [Bool.or_eq_false_iff]
    exact ⟨List.isEmpty_eq_false.2 hvne, by simpa using hfs⟩
  rw [Descriptor.densify,
    if_neg (by simp only [hguard]; exact Bool.false_ne_true)] at h
  cases hcore : densifyCore d vars (some (ncols, rrows)) with
  | invalidParameter m =>
    rw [hcore] at h
    exact absurd (congrArg Prod.snd h) (by simp)
  | fatal m =>
    rw [hcore] at h
    exact absurd (congrArg Prod.snd h) (by simp)
  | ok dc =>
    rw [hcore] at h
    have hd2 : dc = d2 := congrArg Prod.fst h
    rw [densifyCore.eq_def] at hcore
    obtain ⟨rset, hA, hcore⟩ := bindR_eq_ok hcore
    dsimp only at hA
    by_cases hnc : ncols ≠ vars.length
    · rw [if_pos hnc] at hA
      exact absurd hA (by simp)
    · rw [if_neg hnc] at hA
      have hrset : rset = some (btOfList rrows) := (RunResult.ok.inj hA).symm
      subst hrset
      obtain ⟨rs, hrs, hcore⟩ := bindR_eq_ok hcore
      obtain ⟨ngs, hngs, hcore⟩ := bindR_eq_ok hcore
      obtain ⟨nf, hnf, hcore⟩ := bindR_eq_ok hcore
      dsimp only at hnf
      have hnfeq := mkIndexes_ok_inv hnf
      cases hfr : d.features.rows.head? with
      | none =>
        rw [hfr] at hcore
        exact absurd hcore (by simp)
      | some fft =>
        rw [hfr] at hcore
        dsimp only at hcore
        cases hcp : densifyCopy d.values fft d.features.count nf rs.mapping
            (zerosMat K rs.samples.count nf.count) with
        | none =>
          rw [hcp] at hcore
          exact absurd hcore (by simp)
        | some nvals =>
          rw [hcp] at hcore
          cases hg : d.gradients with
          | none =>
            rw [hg] at hcore
            have hdc := (RunResult.ok.inj hcore).symm
            rw [← hd2, hdc]
            show nf = _
            rw [hnfeq]
            rfl
          | some grads =>
            rw [hg] at hcore
            cases hngs2 : ngs with
            | none =>
              rw [hngs2] at hcore
              exact absurd hcore (by simp)
            | some ng =>
              rw [hngs2] at hcore
              dsimp only at hcore
              cases hgc : densifyCopy grads fft d.features.count nf ng.mapping
                  (zerosMat K ng.samples.count nf.count) with
              | none =>
                rw [hgc] at hcore
                exact absurd hcore (by simp)
              | some ngrads =>
                rw [hgc] at hcore
                have hdc := (RunResult.ok.inj hcore).symm
                rw [← hd2, hdc]
                show nf = _
                rw [hnfeq]
                rfl

/-- Claim C10: with an explicit requested table (and the no-op guard
off), the finalized feature blocks of a successful densify are the
distinct requested rows in ascending lexicographic order, duplicates
collapsed, with the listed order of the requested rows having no
effect on the layout. -/
theorem claim_C10 {K : Type} [CommRing K] {d d2 : Descriptor K}
    {vars : List String} {ncols : Nat} {rrows rrows2 : List Row}
    (h : d.densify vars (some (ncols, rrows)) = (d2, .ok ()))
    (hvne : vars ≠ []) (hfs : d.features.size ≠ 0) :
    (∃ bs : List Row, rowSorted bs ∧ (∀ b, b ∈ bs ↔ b ∈ rrows) ∧
      d2.features =
        { names := vars ++ d.features.names
          rows := bs.flatMap
            (fun b => d.features.rows.map (fun f => b ++ f)) }) ∧
    (rrows.Perm rrows2 → densifyFeaturesIdx d vars (btOfList rrows) =
      densifyFeaturesIdx d vars (btOfList rrows2)) := by
  constructor
  · refine ⟨btOfList rrows, rowSorted_btOfList rrows,
      fun b => mem_btOfList, ?_⟩
    rw [densify_requested_features h hvne hfs]
    rfl
  · intro hperm
    rw [densifyFeaturesIdx, densifyFeaturesIdx, btOfList_perm hperm]

/-- Witness for claim C10: an unsorted requested table with a
duplicate row at the worked example. -/
theorem claim_C10_witness :
    (∃ bs : List Row, rowSorted bs ∧
      (∀ b, b ∈ bs ↔ b ∈ [[6],[1],[6]]) ∧
      (exC2.densify ["species"] (some (1, [[6],[1],[6]]))).1.features =
        { names := ["species"] ++ exC2.features.names
          rows := bs.flatMap
            (fun b => exC2.features.rows.map (fun f => b ++ f)) }) ∧
    (([[6],[1],[6]] : List Row).Perm [[1],[6],[6]] →
      densifyFeaturesIdx exC2 ["species"] (btOfList [[6],[1],[6]]) =
      densifyFeaturesIdx exC2 ["species"] (btOfList [[1],[6],[6]])) :=
  @claim_C10 ℤ _ exC2 (exC2.densify ["species"] (some (1, [[6],[1],[6]]))).1
    ["species"] 1 [[6],[1],[6]] [[1],[6],[6]] (by decide) (by decide)
    (by decide)

theorem buildIds_cons (di : DensifiedIndex) (rest : List DensifiedIndex)
    (st : List Row) :
    buildIds (di :: rest) st =
      ((di.newSampleI, di.oldSampleI,
        idxOf (if di.vars ∈ st then st else st ++ [di.vars]) di.vars) ::
        (buildIds rest (if di.vars ∈ st then st else st ++ [di.vars])).1,
       (buildIds rest (if di.vars ∈ st then st else st ++ [di.vars])).2) := by
  rw [buildIds]

theorem buildIds_char (m : List DensifiedIndex) : ∀ st : List Row,
    (∃ ext, (buildIds m st).2 = st ++ ext ∧
      ∀ b ∈ ext, ∃ di ∈ m, di.vars = b) ∧
    (∀ di ∈ m, di.vars ∈ (buildIds m st).2) ∧
    (buildIds m st).1 = m.map (fun di =>
      (di.newSampleI, di.oldSampleI, idxOf (buildIds m st).2 di.vars)) := by
  induction m with
  | nil =>
    intro st
    refine ⟨⟨[], by simp [buildIds], by simp⟩, by simp, by simp [buildIds]⟩
  | cons di rest ih =>
    intro st
    rw [buildIds_cons]
    obtain ⟨⟨ext3, hext3, hext3m⟩, hmem, hfst⟩ :=
      ih (if di.vars ∈ st then st else st ++ [di.vars])
    have hst2 : ∃ ext2, (if di.vars ∈ st then st else st ++ [di.vars]) =
        st ++ ext2 ∧ ∀ b ∈ ext2, b = di.vars := by
      by_cases hmem2 : di.vars ∈ st
      · exact ⟨[], by rw [if_pos hmem2, List.append_nil], by simp⟩
      · exact ⟨[di.vars], by rw [if_neg hmem2], by simp⟩
    obtain ⟨ext2, hext2, hext2m⟩ := hst2
    have hvmem : di.vars ∈ (if di.vars ∈ st then st else st ++ [di.vars]) := by
      by_cases hmem2 : di.vars ∈ st
      · rw [if_pos hmem2]
        exact hmem2
      · rw [if_neg hmem2]
        exact List.mem_append_right st (List.mem_singleton.2 rfl)
    have hidx : idxOf (if di.vars ∈ st then st else st ++ [di.vars]) di.vars =
        idxOf (buildIds rest
          (if di.vars ∈ st then st else st ++ [di.vars])).2 di.vars := by
      rw [hext3]
      exact (idxOf_append_of_mem hvmem).symm
    refine ⟨⟨ext2 ++ ext3, ?_, ?_⟩, ?_, ?_⟩
    · show (buildIds rest (if di.vars ∈ st then st else st ++ [di.vars])).2 =
        st ++ (ext2 ++ ext3)
      rw [hext3, hext2, List.append_assoc]
    · intro b hb
      rcases List.mem_append.1 hb with hb | hb
      · exact ⟨di, List.mem_cons_self di rest, (hext2m b hb).symm⟩
      · obtain ⟨dj, hdj, hdjv⟩ := hext3m b hb
        exact ⟨dj, List.mem_cons.2 (Or.inr hdj), hdjv⟩
    · intro dj hdj
      rcases List.mem_cons.1 hdj with hdj | hdj
      · show dj.vars ∈ (buildIds rest _).2
        rw [hext3, hdj]
        exact List.mem_append_left ext3 hvmem
      · exact hmem dj hdj
    · show _ :: (buildIds rest _).1 = _
      rw [List.map_cons, hfst, hidx]

theorem buildIds_stable (m : List DensifiedIndex) : ∀ st : List Row,
    (∀ di ∈ m, di.vars ∈ st) →
    buildIds m st = (m.map (fun di =>
      (di.newSampleI, di.oldSampleI, idxOf st di.vars)), st) := by
  induction m with
  | nil =>
    intro st _
    rw [buildIds]
    rfl
  | cons di rest ih =>
    intro st hmem
    rw [buildIds_cons,
      if_pos (hmem di (List.mem_cons_self di rest)),
      ih st (fun dj hdj => hmem dj (List.mem_cons.2 (Or.inr hdj)))]
    rfl

theorem dotMappingsPair_self {K : Type} [CommRing K] (d : Descriptor K)
    (vars : List String) :
    (dotMappingsPair d d vars).1 = (dotMappingsPair d d vars).2 := by
  rw [dotMappingsPair]
  cases hr : removeFromSamples d.samples vars with
  | ok r =>
    dsimp only
    obtain ⟨⟨ext, hext, hextm⟩, hmem, hfst⟩ := buildIds_char r.mapping []
    rw [buildIds_stable r.mapping (buildIds r.mapping []).2 hmem]
    dsimp only
    exact hfst
  | invalidParameter m => rfl
  | fatal m => rfl

theorem dotRawEntry_diag {K : Type} [CommRing K] (d : Descriptor K)
    (vars : List String) (r : Nat) :
    dotRawEntry d d vars r r =
      dotNormSq d.values (dotMappingsPair d d vars).1 r := by
  rw [dotRawEntry, dotNormSq, ← dotMappingsPair_self d vars]

/-- Claim C9: for a successful self dot product with normalization, the
normalized diagonal entries equal one exactly (over the reals) whenever
the accumulated squared row norm is positive. -/
theorem claim_C9 (d : Descriptor ℝ) (vars : List String) (r : Nat)
    (hok : (d.dot d
      { reduceAcross := vars
        gradients := false
        normalize := true }).isOk = true)
    (hpos : 0 < dotNormSq d.values (dotMappingsPair d d vars).1 r) :
    dotNormalizedEntry d d vars r r = 1 := by
  rw [dotNormalizedEntry]
  rw [← dotMappingsPair_self d vars, dotRawEntry_diag d vars r]
  rw [Real.mul_self_sqrt (le_of_lt hpos)]
  exact div_self (ne_of_gt hpos)

/-- Witness for claim C9 at a one-cell real descriptor. -/
theorem claim_C9_witness :
    dotNormalizedEntry exR exR [] 0 0 = 1 :=
  claim_C9 exR [] 0 (by rfl)
    (by
      have h1 : (dotMappingsPair exR exR []).1 = [(0, 0, 0)] := rfl
      rw [h1, dotNormSq]
      simp [innerProd, exR])

theorem getD_set_self2 {α : Type} {l : List α} {i : Nat} (h : i < l.length)
    (x d : α) : (l.set i x).getD i d = x := by
  rw [List.getD_eq_getElem _ _ (by rw [List.length_set]; exact h)]
  exact List.getElem_set_self _

theorem getD_set_ne2 {α : Type} {l : List α} {i j : Nat} (h : i ≠ j)
    (x d : α) : (l.set i x).getD j d = l.getD j d := by
  rw [List.getD_eq_getElem?_getD, List.getD_eq_getElem?_getD,
    List.getElem?_set_ne h]

theorem getD_replicate_self {α : Type} (n r : Nat) (x : α) :
    (List.replicate n x).getD r x = x := by
  rcases Nat.lt_or_ge r n with h | h
  · rw [List.getD_eq_getElem _ _ (by simpa using h)]
    exact List.getElem_replicate x _
  · rw [List.getD_eq_default _ _ (by simpa using h)]

theorem cdiLoop_char (rm : List (Nat × Nat × Nat)) :
    ∀ (lm : List (Nat × Nat × Nat))
      (acc rows : List (List DotIndexesPerRow)),
    List.foldl (fun acc2 t => acc2.bind (fun rows2 =>
      if t.1 < rows2.length then
        some (rows2.set t.1 (rows2.getD t.1 [] ++ [dotWorkItem rm t]))
      else none)) (some acc) lm = some rows →
    rows.length = acc.length ∧
    (∀ t ∈ lm, t.1 < acc.length) ∧
    ∀ r, rows.getD r [] = acc.getD r [] ++
      (lm.filter (fun t => decide (t.1 = r))).map (dotWorkItem rm) := by
  intro lm
  induction lm with
  | nil =>
    intro acc rows h
    have h2 := Option.some.inj h
    exact ⟨by rw [← h2], by simp, fun r => by rw [← h2]; simp⟩
  | cons t rest ih =>
    intro acc rows h
    rw [List.foldl_cons] at h
    simp only [Option.some_bind] at h
    by_cases ht : t.1 < acc.length
    · rw [if_pos ht] at h
      obtain ⟨hlen, hbnd, hget⟩ :=
        ih (acc.set t.1 (acc.getD t.1 [] ++ [dotWorkItem rm t])) rows h
      refine ⟨by rw [hlen, List.length_set], ?_, fun r => ?_⟩
      · intro t2 ht2
        rcases List.mem_cons.1 ht2 with ht2 | ht2
        · rw [ht2]
          exact ht
        · have := hbnd t2 ht2
          rw [List.length_set] at this
          exact this
      · rw [hget r]
        by_cases hr : t.1 = r
        · subst hr
          rw [getD_set_self2 ht, List.filter_cons, if_pos (by simp),
            List.map_cons, List.append_assoc, List.singleton_append]
        · rw [getD_set_ne2 hr, List.filter_cons, if_neg (by simp [hr])]
    · rw [if_neg ht, foldl_bind_none] at h
      exact absurd h (by simp)

theorem computeDotIndexes_char {lm rm : List (Nat × Nat × Nat)} {nRows : Nat}
    {rows : List (List DotIndexesPerRow)}
    (h : computeDotIndexes lm rm nRows = some rows) :
    rows.length = nRows ∧
    (∀ t ∈ lm, t.1 < nRows) ∧
    ∀ r, rows.getD r [] =
      (lm.filter (fun t => decide (t.1 = r))).map (dotWorkItem rm) := by
  have h2 := cdiLoop_char rm lm (List.replicate nRows []) rows h
  refine ⟨by rw [h2.1, List.length_replicate], ?_, fun r => ?_⟩
  · intro t ht
    have := h2.2.1 t ht
    rw [List.length_replicate] at this
    exact this
  · rw [h2.2.2 r, getD_replicate_self, List.nil_append]

theorem addAt_some {K : Type} [CommRing K] {row : List K} {i : Nat}
    (h : i < row.length) (x : K) :
    addAt row i x = some (row.set i (row.getD i 0 + x)) := by
  rw [addAt, if_pos h]

theorem addAt_fold_char {K : Type} [CommRing K] (v : Nat × Nat → K) :
    ∀ (ps : List (Nat × Nat)) (r out : List K),
    ps.foldl (fun acc2 p => acc2.bind (fun r2 => addAt r2 p.2 (v p)))
      (some r) = some out →
    out.length = r.length ∧
    ∀ c, out.getD c 0 = r.getD c 0 +
      ((ps.filter (fun p => decide (p.2 = c))).map v).sum := by
  intro ps
  induction ps with
  | nil =>
    intro r out h
    have h2 := Option.some.inj h
    exact ⟨by rw [← h2], fun c => by rw [← h2]; simp⟩
  | cons p rest ih =>
    intro r out h
    rw [List.foldl_cons] at h
    simp only [Option.some_bind] at h
    by_cases hp : p.2 < r.length
    · rw [addAt_some hp] at h
      obtain ⟨hlen, hget⟩ := ih (r.set p.2 (r.getD p.2 0 + v p)) out h
      refine ⟨by rw [hlen, List.length_set], fun c => ?_⟩
      rw [hget c]
      by_cases hc : p.2 = c
      · subst hc
        rw [getD_set_self2 hp, List.filter_cons, if_pos (by simp),
          List.map_cons, List.sum_cons, add_assoc]
      · rw [getD_set_ne2 hc, List.filter_cons, if_neg (by simp [hc])]
    · rw [addAt, if_neg hp, foldl_bind_none] at h
      exact absurd h (by simp)

theorem accumRow_char {K : Type} [CommRing K] (lv rv : Matrix K) :
    ∀ (entries : List DotIndexesPerRow) (row out : List K),
    accumRow lv rv entries row = some out →
    out.length = row.length ∧
    ∀ c, out.getD c 0 = row.getD c 0 +
      (entries.map (fun e =>
        ((e.rhsIndexes.filter (fun p => decide (p.2 = c))).map (fun p =>
          innerProd (lv.getD e.oldLhs []) (rv.getD p.1 []))).sum)).sum := by
  intro entries
  induction entries with
  | nil =>
    intro row out h
    have h2 := Option.some.inj h
    exact ⟨by rw [← h2], fun c => by rw [← h2]; simp⟩
  | cons e rest ih =>
    intro row out h
    rw [accumRow, List.foldl_cons] at h
    simp only [Option.some_bind] at h
    cases hin : e.rhsIndexes.foldl (fun acc2 p => acc2.bind (fun r2 =>
        addAt r2 p.2 (innerProd (lv.getD e.oldLhs []) (rv.getD p.1 []))))
        (some row) with
    | none =>
      rw [hin, foldl_bind_none] at h
      exact absurd h (by simp)
    | some row2 =>
      rw [hin] at h
      have h2 := ih row2 out h
      obtain ⟨hi1, hi2⟩ := addAt_fold_char
        (fun p => innerProd (lv.getD e.oldLhs []) (rv.getD p.1 []))
        e.rhsIndexes row row2 hin
      refine ⟨by rw [h2.1, hi1], fun c => ?_⟩
      rw [h2.2 c, hi2 c, List.map_cons, List.sum_cons, add_assoc]

theorem computeDotValues_char {K : Type} [CommRing K] (lv rv : Matrix K)
    (nCols : Nat) :
    ∀ (indexes : List (List DotIndexesPerRow)) (out : Matrix K),
    computeDotValues lv rv indexes nCols = some out →
    out.length = indexes.length ∧
    ∀ r, r < indexes.length →
      accumRow lv rv (indexes.getD r []) (List.replicate nCols 0) =
        some (out.getD r []) := by
  intro indexes
  induction indexes with
  | nil =>
    intro out h
    rw [computeDotValues, List.mapM_nil] at h
    have h2 := Option.some.inj h
    refine ⟨by rw [← h2]; rfl, fun r hr => ?_⟩
    rw [List.length_nil] at hr
    exact absurd hr (Nat.not_lt_zero r)
  | cons es rest ih =>
    intro out h
    rw [computeDotValues, List.mapM_cons] at h
    cases hy : accumRow lv rv es (List.replicate nCols 0) with
    | none =>
      rw [hy] at h
      exact absurd h (by simp)
    | some y =>
      rw [hy] at h
      simp only [Option.bind_eq_bind, Option.pure_def, Option.some_bind] at h
      cases hrest : List.mapM (fun entries =>
          accumRow lv rv entries (List.replicate nCols 0)) rest with
      | none =>
        rw [hrest] at h
        exact absurd h (by simp)
      | some ys =>
        rw [hrest] at h
        simp only [Option.some_bind] at h
        have hout : y :: ys = out := by simpa using h
        obtain ⟨hl, hp⟩ := ih ys hrest
        refine ⟨by rw [← hout, List.length_cons, hl]; rfl, fun r hr => ?_⟩
        cases r with
        | zero =>
          rw [← hout]
          exact hy
        | succ n =>
          rw [← hout]
          rw [List.length_cons] at hr
          exact hp n (by omega)

theorem dot_ok_values {K : Type} [CommRing K] {lhs rhs : Descriptor K}
    {opts : DotOptions} {d2 : Descriptor K}
    (h : lhs.dot rhs opts = .ok d2) (hg : opts.gradients = false) :
    ∃ rl rr indexes,
      removeFromSamples lhs.samples opts.reduceAcross = .ok rl ∧
      removeFromSamples rhs.samples opts.reduceAcross = .ok rr ∧
      lhs.features = rhs.features ∧
      d2.samples = rl.samples ∧
      d2.features = rr.samples ∧
      d2.gradients = none ∧ d2.gradientsSamples = none ∧
      computeDotIndexes (dotMappingsPair lhs rhs opts.reduceAcross).1
        (dotMappingsPair lhs rhs opts.reduceAcross).2
        rl.samples.count = some indexes ∧
      computeDotValues lhs.values rhs.values indexes rr.samples.count =
        some d2.values := by
  rw [Descriptor.dot] at h
  by_cases hfe : lhs.features ≠ rhs.features
  · rw [if_pos hfe] at h
    exact absurd h (by simp)
  · rw [if_neg hfe] at h
    push_neg at hfe
    obtain ⟨u, hcheck, h⟩ := bindR_eq_ok h
    obtain ⟨rr, hrr, h⟩ := bindR_eq_ok h
    obtain ⟨rl, hrl, h⟩ := bindR_eq_ok h
    obtain ⟨rgOpt, hrg, h⟩ := bindR_eq_ok h
    rw [hg] at hrg
    dsimp only at hrg
    have hrgo : rgOpt = none := (RunResult.ok.inj hrg).symm
    subst hrgo
    obtain ⟨output, hout, h⟩ := bindR_eq_ok h
    dsimp only at hout
    have ho : output =
        Descriptor.prepare (Descriptor.new K) rl.samples rr.samples :=
      (RunResult.ok.inj hout).symm
    rcases hb1 : buildIds rl.mapping [] with ⟨lm, st1⟩
    rw [hb1] at h
    dsimp only at h
    rcases hb2 : buildIds rr.mapping st1 with ⟨rm2, st2⟩
    rw [hb2] at h
    dsimp only at h
    cases hcdi : computeDotIndexes lm rm2 output.values.length with
    | none =>
      rw [hcdi] at h
      exact absurd h (by simp)
    | some indexes =>
      rw [hcdi] at h
      dsimp only at h
      cases hcdv : computeDotValues lhs.values rhs.values indexes
          output.features.count with
      | none =>
        rw [hcdv] at h
        exact absurd h (by simp)
      | some nvals =>
        rw [hcdv] at h
        dsimp only at h
        simp only [RunResult.bindR] at h
        have hgo : output.gradients = none := by
          rw [ho]
          rfl
        have hd2 : ({ values := nvals
                      samples := output.samples
                      features := output.features
                      gradients := none
                      gradientsSamples := output.gradientsSamples } :
                        Descriptor K) = d2 := by
          cases hn : opts.normalize with
          | false =>
            rw [hn, if_neg (by simp)] at h
            have h2 := RunResult.ok.inj h
            rw [← h2, ← hgo]
          | true =>
            rw [hn, if_pos rfl] at h
            rw [hgo] at h
            dsimp only at h
            exact RunResult.ok.inj h
        have hpair : dotMappingsPair lhs rhs opts.reduceAcross = (lm, rm2) := by
          rw [dotMappingsPair, hrl, hrr]
          dsimp only
          rw [hb1]
          dsimp only
          rw [hb2]
        have hlen : output.values.length = rl.samples.count := by
          rw [ho]
          show (zerosMat K rl.samples.count rr.samples.count).length = _
          rw [zerosMat, List.length_replicate]
        refine ⟨rl, rr, indexes, hrl, hrr, hfe, ?_, ?_, ?_, ?_, ?_, ?_⟩
        · rw [← hd2]
          show output.samples = rl.samples
          rw [ho]
          rfl
        · rw [← hd2]
          show output.features = rr.samples
          rw [ho]
          rfl
        · rw [← hd2]
        · rw [← hd2]
          show output.gradientsSamples = none
          rw [ho]
          rfl
        · rw [hpair, ← hlen]
          exact hcdi
        · rw [← hd2]
          show computeDotValues lhs.values rhs.values indexes
            rr.samples.count = some nvals
          have hfc : output.features.count = rr.samples.count := by
            rw [ho]
            rfl
          rw [← hfc]
          exact hcdv

theorem decide_and_eq {p q : Prop} [Decidable p] [Decidable q] :
    decide (p ∧ q) = (decide p && decide q) := by
  by_cases hp : p <;> by_cases hq : q <;> simp [hp, hq]

theorem inner_pairs_sum {K : Type} [CommRing K] (lv rv : Matrix K)
    (o c x : Nat) (rm : List (Nat × Nat × Nat)) :
    ((((rm.filter (fun s => decide (s.2.2 = x))).map
        (fun s => (s.2.1, s.1))).filter
        (fun p => decide (p.2 = c))).map
        (fun p => innerProd (lv.getD o []) (rv.getD p.1 []))).sum =
    ((rm.filter (fun b => decide (b.1 = c ∧ b.2.2 = x))).map
        (fun b => innerProd (lv.getD o []) (rv.getD b.2.1 []))).sum := by
  induction rm with
  | nil => rfl
  | cons s rest ih =>
    by_cases h1 : s.2.2 = x
    · by_cases h2 : s.1 = c
      · simp only [List.filter_cons, h1, h2, if_pos, List.map_cons,
          List.sum_cons, and_self, decide_eq_true_eq]
        rw [ih]
      · rw [List.filter_cons, if_pos (by simp [h1]), List.map_cons,
          List.filter_cons, if_neg (by simp [h2]),
          List.filter_cons, if_neg (by simp [h2]), ih]
    · rw [List.filter_cons, if_neg (by simp [h1]),
        List.filter_cons, if_neg (by simp [h1]), ih]

theorem dot_ok_entry {K : Type} [CommRing K] {lhs rhs : Descriptor K}
    {opts : DotOptions} {d2 : Descriptor K}
    (h : lhs.dot rhs opts = .ok d2) (hg : opts.gradients = false) :
    ∀ r c, getEntry d2.values r c =
      dotRawEntry lhs rhs opts.reduceAcross r c := by
  obtain ⟨rl, rr, indexes, hrl, hrr, hfe, hsam, hfea, hgr, hgs, hcdi, hcdv⟩ :=
    dot_ok_values h hg
  obtain ⟨hilen, hbnd, hirow⟩ := computeDotIndexes_char hcdi
  obtain ⟨hvlen, hvrow⟩ :=
    computeDotValues_char lhs.values rhs.values rr.samples.count indexes
      d2.values hcdv
  intro r c
  rw [getEntry, dotRawEntry]
  rcases Nat.lt_or_ge r indexes.length with hr | hr
  · obtain ⟨halen, haget⟩ := accumRow_char lhs.values rhs.values
      (indexes.getD r []) (List.replicate rr.samples.count 0)
      (d2.values.getD r []) (hvrow r hr)
    rw [haget c, getD_replicate_self, zero_add, hirow r, List.map_map]
    apply congrArg
    apply List.map_congr_left
    intro t _
    exact inner_pairs_sum lhs.values rhs.values t.2.1 c t.2.2
      (dotMappingsPair lhs rhs opts.reduceAcross).2
  · have hempty : (dotMappingsPair lhs rhs opts.reduceAcross).1.filter
        (fun t => decide (t.1 = r)) = [] := by
      rw [List.filter_eq_nil_iff]
      intro t ht
      simp only [decide_eq_true_eq]
      intro htr
      have := hbnd t ht
      rw [hilen] at hr
      omega
    rw [hempty]
    have hrow : d2.values.getD r [] = [] := by
      apply List.getD_eq_default
      rw [hvlen]
      exact hr
    rw [hrow]
    simp

/-- Claim C5: contributions are accumulated only for pairs with equal
block keys, so in a successful value-only dot product an output cell
owned by a left reduced row and a right reduced row whose contributing
old rows never share a block key is exactly zero. -/
theorem claim_C5 {K : Type} [CommRing K] {lhs rhs : Descriptor K}
    {opts : DotOptions} {d2 : Descriptor K} {r c : Nat}
    (h : lhs.dot rhs opts = .ok d2) (hgrad : opts.gradients = false)
    (hdisj : ∀ e1 ∈ reducedMapping lhs.samples opts.reduceAcross,
             ∀ e2 ∈ reducedMapping rhs.samples opts.reduceAcross,
             e1.newSampleI = r → e2.newSampleI = c → e1.vars ≠ e2.vars) :
    getEntry d2.values r c = 0 := by
  rw [dot_ok_entry h hgrad r c, dotRawEntry]
  obtain ⟨rl, rr, indexes, hrl, hrr, _, _, _, _, _, _, _⟩ :=
    dot_ok_values h hgrad
  have hredL : reducedMapping lhs.samples opts.reduceAcross = rl.mapping := by
    rw [reducedMapping, hrl]
  have hredR : reducedMapping rhs.samples opts.reduceAcross = rr.mapping := by
    rw [reducedMapping, hrr]
  obtain ⟨⟨ext1, hext1, _⟩, hmem1, hfst1⟩ := buildIds_char rl.mapping []
  obtain ⟨⟨ext2, hext2, _⟩, hmem2, hfst2⟩ :=
    buildIds_char rr.mapping (buildIds rl.mapping []).2
  have hpair : dotMappingsPair lhs rhs opts.reduceAcross =
      ((buildIds rl.mapping []).1,
       (buildIds rr.mapping (buildIds rl.mapping []).2).1) := by
    rw [dotMappingsPair, hrl, hrr]
  rw [hpair]
  dsimp only
  apply List.sum_eq_zero
  intro z hz
  rcases List.mem_map.1 hz with ⟨a, ha, rfl⟩
  have ha2 := List.mem_filter.1 ha
  rw [hfst1] at ha2
  rcases List.mem_map.1 ha2.1 with ⟨e1, he1, rfl⟩
  simp only [decide_eq_true_eq] at ha2
  have hempty : (buildIds rr.mapping (buildIds rl.mapping []).2).1.filter
      (fun b => decide (b.1 = c ∧ b.2.2 =
        (e1.newSampleI, e1.oldSampleI,
          idxOf (buildIds rl.mapping []).2 e1.vars).2.2)) = [] := by
    rw [List.filter_eq_nil_iff]
    intro b hb
    rw [hfst2] at hb
    rcases List.mem_map.1 hb with ⟨e2, he2, rfl⟩
    simp only [decide_eq_true_eq, not_and]
    intro hc hid
    have hv1 : e1.vars ∈ (buildIds rl.mapping []).2 :=
      hmem1 e1 he1
    have hv1b : e1.vars ∈ (buildIds rr.mapping (buildIds rl.mapping []).2).2 := by
      rw [hext2]
      exact List.mem_append_left ext2 hv1
    have hv2 : e2.vars ∈ (buildIds rr.mapping (buildIds rl.mapping []).2).2 :=
      hmem2 e2 he2
    have hido : idxOf (buildIds rl.mapping []).2 e1.vars =
        idxOf (buildIds rr.mapping (buildIds rl.mapping []).2).2 e1.vars := by
      rw [hext2]
      exact (idxOf_append_of_mem hv1).symm
    rw [hido] at hid
    have hveq := idxOf_inj hv2 hv1b hid
    exact hdisj e1 (hredL ▸ he1) e2 (hredR ▸ he2) ha2.2 hc hveq.symm
  rw [hempty]
  rfl

/-- Witness for claim C5: the cross cell between the block-1 left row
and the block-6 right row of a concrete two-block descriptor is zero. -/
theorem claim_C5_witness :
    getEntry (dotOut exC5 exC5
      { reduceAcross := ["v"]
        gradients := false
        normalize := false }).values 0 1 = 0 :=
  @claim_C5 ℤ _ exC5 exC5
    { reduceAcross := ["v"]
      gradients := false
      normalize := false }
    (dotOut exC5 exC5
      { reduceAcross := ["v"]
        gradients := false
        normalize := false }) 0 1 (by decide) (by decide) (by decide)

theorem bindR_eq_invalid {α β : Type} {x : RunResult α} {f : α → RunResult β}
    {m : String} (h : x.bindR f = .invalidParameter m) :
    x = .invalidParameter m ∨ ∃ a, x = .ok a ∧ f a = .invalidParameter m := by
  cases x with
  | ok a => exact Or.inr ⟨a, rfl, h⟩
  | invalidParameter m2 =>
    left
    have h2 : RunResult.invalidParameter (α := β) m2 = .invalidParameter m := h
    rw [RunResult.invalidParameter.inj h2]
  | fatal m2 => exact absurd h (by simp [RunResult.bindR])

theorem isInvalid_exists {α : Type} {x : RunResult α}
    (h : x.isInvalid = true) : ∃ m, x = .invalidParameter m := by
  cases x with
  | ok a => exact absurd h (by simp [RunResult.isInvalid])
  | invalidParameter m => exact ⟨m, rfl⟩
  | fatal m => exact absurd h (by simp [RunResult.isInvalid])

theorem checkReduceAcross_invalid_iff {K : Type} (lhs rhs : Descriptor K) :
    ∀ l : List String, (checkReduceAcross lhs rhs l).isInvalid = true ↔
      ∃ v ∈ l, v ∉ lhs.samples.names ∨ v ∉ rhs.samples.names := by
  intro l
  induction l with
  | nil => simp [checkReduceAcross, RunResult.isInvalid]
  | cons v vs ih =>
    rw [checkReduceAcross]
    by_cases h1 : lhs.samples.names.contains v
    · have hc1 : ¬ ((!lhs.samples.names.contains v) = true) := by
        simp
        exact List.mem_of_elem_eq_true h1
      rw [if_neg hc1]
      by_cases h2 : rhs.samples.names.contains v
      · have hc2 : ¬ ((!rhs.samples.names.contains v) = true) := by
          simp
          exact List.mem_of_elem_eq_true h2
        rw [if_neg hc2]
        rw [ih]
        constructor
        · rintro ⟨w, hw, hc⟩
          exact ⟨w, List.mem_cons.2 (Or.inr hw), hc⟩
        · rintro ⟨w, hw, hc⟩
          rcases List.mem_cons.1 hw with hw | hw
          · subst hw
            rcases hc with hc | hc
            · exact absurd (List.mem_of_elem_eq_true h1) hc
            · exact absurd (List.mem_of_elem_eq_true h2) hc
          · exact ⟨w, hw, hc⟩
      · have hc2 : (!rhs.samples.names.contains v) = true := by
          simp
          exact fun hm => h2 (List.elem_eq_true_of_mem hm)
        rw [if_pos hc2]
        constructor
        · intro _
          refine ⟨v, List.mem_cons_self v vs, Or.inr ?_⟩
          intro hm
          exact h2 (List.elem_eq_true_of_mem hm)
        · intro _
          rfl
    · have hc1 : (!lhs.samples.names.contains v) = true := by
        simp
        exact fun hm => h1 (List.elem_eq_true_of_mem hm)
      rw [if_pos hc1]
      constructor
      · intro _
        refine ⟨v, List.mem_cons_self v vs, Or.inl ?_⟩
        intro hm
        exact h1 (List.elem_eq_true_of_mem hm)
      · intro _
        rfl

theorem checkReduceAcross_ok {K : Type} (lhs rhs : Descriptor K)
    {l : List String}
    (h : ∀ v ∈ l, v ∈ lhs.samples.names ∧ v ∈ rhs.samples.names) :
    checkReduceAcross lhs rhs l = .ok () := by
  induction l with
  | nil => rfl
  | cons v vs ih =>
    rw [checkReduceAcross]
    have hv := h v (List.mem_cons_self v vs)
    have hc1 : ¬ ((!lhs.samples.names.contains v) = true) := by
      simp
      exact hv.1
    have hc2 : ¬ ((!rhs.samples.names.contains v) = true) := by
      simp
      exact hv.2
    rw [if_neg hc1, if_neg hc2]
    exact ih (fun w hw => h w (List.mem_cons.2 (Or.inr hw)))

theorem removeFromSamples_invalid_iff (s : Indexes) (vars : List String) :
    (removeFromSamples s vars).isInvalid = true ↔
      ∃ v ∈ vars, v ∉ s.names := by
  rw [removeFromSamples, isInvalid_bindR]
  constructor
  · rintro (h | ⟨ps, hps, h⟩)
    · exact (findPositions_invalid_iff vars s.names).1 h
    · exfalso
      revert h
      cases hloop : rfsLoop ps 0 s.rows
          { newSamples := [], newFeatures := [], mapping := [] } with
      | none => simp [RunResult.isInvalid]
      | some st =>
        dsimp only
        rw [isInvalid_bindR]
        rintro (h2 | ⟨idx, hidx, h2⟩)
        · revert h2
          rw [mkIndexes]
          by_cases h3 : (s.names.filter (fun n => !vars.contains n)).all
              isValidIdent = true
          · rw [if_neg (by rw [h3]; simp)]
            by_cases h4 : (st.newSamples.all (fun r => decide (r.length =
                (s.names.filter (fun n => !vars.contains n)).length))) = true
            · rw [if_neg (by rw [h4]; simp)]
              simp [RunResult.isInvalid]
            · rw [if_pos (by rw [Bool.eq_false_iff.2 h4]; simp)]
              simp [RunResult.isInvalid]
          · rw [if_pos (by rw [Bool.eq_false_iff.2 h3]; simp)]
            simp [RunResult.isInvalid]
        · exact absurd h2 (by simp [RunResult.isInvalid])
  · intro h
    left
    exact (findPositions_invalid_iff vars s.names).2 h

theorem dotTail_not_invalid {K : Type} [CommRing K] (lhs rhs : Descriptor K)
    (opts : DotOptions) (rl rr : RemovedSamples)
    (removedGrad : Option RemovedSamples) :
    ((match removedGrad with
      | some rg => Descriptor.prepareGradients (Descriptor.new K)
          rl.samples rg.samples rr.samples
      | none => RunResult.ok (Descriptor.prepare (Descriptor.new K)
          rl.samples rr.samples)).bindR (fun output =>
      match buildIds rl.mapping [] with
      | (lhsMapping, st1) =>
        match buildIds rr.mapping st1 with
        | (rhsMapping, st2) =>
          match computeDotIndexes lhsMapping rhsMapping
              output.values.length with
          | none => RunResult.fatal "row index out of bounds"
          | some indexes =>
          match computeDotValues lhs.values rhs.values indexes
              output.features.count with
          | none => RunResult.fatal "column index out of bounds"
          | some newValues =>
          (match removedGrad with
           | none => RunResult.ok { output with values := newValues }
           | some rg =>
             match lhs.gradients with
             | none => RunResult.fatal "missing gradient data"
             | some lhsGradients =>
               match buildIds rg.mapping st2 with
               | (gradMapping, _) =>
                 let nGradRows := (output.gradients.getD []).length
                 match computeDotIndexes gradMapping rhsMapping nGradRows with
                 | none => RunResult.fatal "row index out of bounds"
                 | some gIndexes =>
                 match computeDotValues lhsGradients rhs.values gIndexes
                     output.features.count with
                 | none => RunResult.fatal "column index out of bounds"
                 | some newGradients =>
                   RunResult.ok { output with
                                  values := newValues
                                  gradients := some newGradients }).bindR
            (fun output2 =>
              if opts.normalize then
                match output2.gradients, output2.gradientsSamples with
                | some _, some gs =>
                  if gs.size ≠ output2.samples.size + 2 then
                    RunResult.fatal "unexpected gradient samples size"
                  else if gs.names.getLast? ≠ some "spatial" then
                    RunResult.fatal
                      "the last gradient samples variable should be spatial"
                  else if gs.rows.all (fun gr =>
                      (output2.samples.position
                        (gr.take (gs.size - 2))).isSome) then
                    RunResult.ok output2
                  else
                    RunResult.fatal
                      "this gradient sample does not correspond to a value sample"
                | some _, none => RunResult.fatal "missing gradient storage"
                | none, _ => RunResult.ok output2
              else RunResult.ok output2))).isInvalid = false := by
  cases removedGrad with
  | none =>
    dsimp only
    rcases hb1 : buildIds rl.mapping [] with ⟨lm, st1⟩
    dsimp only
    rcases hb2 : buildIds rr.mapping st1 with ⟨rm2, st2⟩
    dsimp only
    simp only [RunResult.bindR]
    cases hcdi : computeDotIndexes lm rm2
        ((Descriptor.prepare (Descriptor.new K)
          rl.samples rr.samples).values.length) with
    | none => rfl
    | some indexes =>
      dsimp only
      cases hcdv : computeDotValues lhs.values rhs.values indexes
          ((Descriptor.prepare (Descriptor.new K)
            rl.samples rr.samples).features.count) with
      | none => rfl
      | some nvals =>
        dsimp only
        cases hn : opts.normalize with
        | false =>
          rw [if_neg (by simp)]
          rfl
        | true =>
          rw [if_pos rfl]
          rfl
  | some rg =>
    dsimp only
    rw [Descriptor.prepareGradients]
    by_cases hsp : rg.samples.names.getLast? ≠ some "spatial"
    · rw [if_pos hsp]
      rfl
    · rw [if_neg hsp]
      rcases hb1 : buildIds rl.mapping [] with ⟨lm, st1⟩
      dsimp only
      rcases hb2 : buildIds rr.mapping st1 with ⟨rm2, st2⟩
      dsimp only
      simp only [RunResult.bindR]
      cases hcdi : computeDotIndexes lm rm2
          (zerosMat K rl.samples.count rr.samples.count).length with
      | none => rfl
      | some indexes =>
        dsimp only
        cases hcdv : computeDotValues lhs.values rhs.values indexes
            (rr.samples.count) with
        | none => rfl
        | some nvals =>
          dsimp only
          cases hlg : lhs.gradients with
          | none => rfl
          | some lg =>
            dsimp only
            rcases hb3 : buildIds rg.mapping st2 with ⟨gm, st3⟩
            dsimp only
            cases hcdi2 : computeDotIndexes gm rm2
                ((some (zerosMat K rg.samples.count
                  rr.samples.count)).getD []).length with
            | none => rfl
            | some gidx =>
              dsimp only
              cases hcdv2 : computeDotValues lg rhs.values gidx
                  (rr.samples.count) with
              | none => rfl
              | some ngr =>
                dsimp only
                cases hn : opts.normalize with
                | false =>
                  rw [if_neg (by simp)]
                  rfl
                | true =>
                  rw [if_pos rfl]
                  split
                  · rfl
                  split
                  · rfl
                  all_goals rfl

theorem dotRemainder_isInvalid_iff {K : Type} [CommRing K]
    (lhs rhs : Descriptor K) (opts : DotOptions) (rl rr : RemovedSamples) :
    (((match opts.gradients, lhs.gradientsSamples with
       | true, none => RunResult.invalidParameter
           "the left hand side descriptor does not contain gradient data"
       | true, some gs => (removeFromSamples gs opts.reduceAcross).bindR
           (fun rg => RunResult.ok (some rg))
       | false, _ => RunResult.ok none).bindR (fun removedGrad =>
      (match removedGrad with
       | some rg => Descriptor.prepareGradients (Descriptor.new K)
           rl.samples rg.samples rr.samples
       | none => RunResult.ok (Descriptor.prepare (Descriptor.new K)
           rl.samples rr.samples)).bindR (fun output =>
        match buildIds rl.mapping [] with
        | (lhsMapping, st1) =>
          match buildIds rr.mapping st1 with
          | (rhsMapping, st2) =>
            match computeDotIndexes lhsMapping rhsMapping
                output.values.length with
            | none => RunResult.fatal "row index out of bounds"
            | some indexes =>
            match computeDotValues lhs.values rhs.values indexes
                output.features.count with
            | none => RunResult.fatal "column index out of bounds"
            | some newValues =>
            (match removedGrad with
             | none => RunResult.ok { output with values := newValues }
             | some rg =>
               match lhs.gradients with
               | none => RunResult.fatal "missing gradient data"
               | some lhsGradients =>
                 match buildIds rg.mapping st2 with
                 | (gradMapping, _) =>
                   let nGradRows := (output.gradients.getD []).length
                   match computeDotIndexes gradMapping rhsMapping
                       nGradRows with
                   | none => RunResult.fatal "row index out of bounds"
                   | some gIndexes =>
                   match computeDotValues lhsGradients rhs.values gIndexes
                       output.features.count with
                   | none => RunResult.fatal "column index out of bounds"
                   | some newGradients =>
                     RunResult.ok { output with
                                    values := newValues
                                    gradients := some newGradients }).bindR
              (fun output2 =>
                if opts.normalize then
                  match output2.gradients, output2.gradientsSamples with
                  | some _, some gs =>
                    if gs.size ≠ output2.samples.size + 2 then
                      RunResult.fatal "unexpected gradient samples size"
                    else if gs.names.getLast? ≠ some "spatial" then
                      RunResult.fatal
                        "the last gradient samples variable should be spatial"
                    else if gs.rows.all (fun gr =>
                        (output2.samples.position
                          (gr.take (gs.size - 2))).isSome) then
                      RunResult.ok output2
                    else
                      RunResult.fatal
                        "this gradient sample does not correspond to a value sample"
                  | some _, none => RunResult.fatal "missing gradient storage"
                  | none, _ => RunResult.ok output2
                else RunResult.ok output2))))).isInvalid = true ↔
      (opts.gradients = true ∧ lhs.gradientsSamples = none) ∨
      (opts.gradients = true ∧ ∃ gs, lhs.gradientsSamples = some gs ∧
        ∃ v ∈ opts.reduceAcross, v ∉ gs.names) := by
  cases hog : opts.gradients with
  | false =>
    apply iff_of_false
    · exact ne_true_of_eq_false (dotTail_not_invalid lhs rhs opts rl rr none)
    · rintro (⟨h, _⟩ | ⟨h, _⟩) <;> simp at h
  | true =>
    cases hgs : lhs.gradientsSamples with
    | none =>
      apply iff_of_true
      · rfl
      · exact Or.inl ⟨rfl, rfl⟩
    | some gs =>
      dsimp only
      cases hrg : removeFromSamples gs opts.reduceAcross with
      | invalidParameter m =>
        apply iff_of_true
        · rfl
        · refine Or.inr ⟨rfl, gs, rfl, ?_⟩
          exact (removeFromSamples_invalid_iff gs opts.reduceAcross).1
            (by rw [hrg]; rfl)
      | fatal m =>
        apply iff_of_false
        · exact ne_true_of_eq_false rfl
        · rintro (⟨_, h⟩ | ⟨_, gs2, hgs2, v, hv, hnv⟩)
          · exact Option.noConfusion h
          · have hmix : (removeFromSamples gs
                opts.reduceAcross).isInvalid = true :=
              (removeFromSamples_invalid_iff gs opts.reduceAcross).2
                ⟨v, hv, (Option.some.inj hgs2) ▸ hnv⟩
            rw [hrg] at hmix
            exact absurd hmix (by simp [RunResult.isInvalid])
      | ok rg =>
        apply iff_of_false
        · exact ne_true_of_eq_false
            (dotTail_not_invalid lhs rhs opts rl rr (some rg))
        · rintro (⟨_, h⟩ | ⟨_, gs2, hgs2, v, hv, hnv⟩)
          · exact Option.noConfusion h
          · have hmix : (removeFromSamples gs
                opts.reduceAcross).isInvalid = true :=
              (removeFromSamples_invalid_iff gs opts.reduceAcross).2
                ⟨v, hv, (Option.some.inj hgs2) ▸ hnv⟩
            rw [hrg] at hmix
            exact absurd hmix (by simp [RunResult.isInvalid])

theorem checkReduceAcross_not_fatal {K : Type} (lhs rhs : Descriptor K) :
    ∀ (l : List String) (m : String), checkReduceAcross lhs rhs l ≠ .fatal m := by
  intro l
  induction l with
  | nil =>
    intro m h
    exact RunResult.noConfusion h
  | cons v vs ih =>
    intro m
    rw [checkReduceAcross]
    by_cases h1 : (!lhs.samples.names.contains v) = true
    · rw [if_pos h1]
      exact fun h => RunResult.noConfusion h
    · rw [if_neg h1]
      by_cases h2 : (!rhs.samples.names.contains v) = true
      · rw [if_pos h2]
        exact fun h => RunResult.noConfusion h
      · rw [if_neg h2]
        exact ih m

theorem dot_isInvalid_iff {K : Type} [CommRing K] (lhs rhs : Descriptor K)
    (opts : DotOptions) :
    (lhs.dot rhs opts).isInvalid = true ↔
      lhs.features ≠ rhs.features ∨
      (lhs.features = rhs.features ∧ ∃ v ∈ opts.reduceAcross,
        v ∉ lhs.samples.names ∨ v ∉ rhs.samples.names) ∨
      (lhs.features = rhs.features ∧
        (∀ v ∈ opts.reduceAcross,
          v ∈ lhs.samples.names ∧ v ∈ rhs.samples.names) ∧
        (removeFromSamples rhs.samples opts.reduceAcross).isOk = true ∧
        (removeFromSamples lhs.samples opts.reduceAcross).isOk = true ∧
        opts.gradients = true ∧ lhs.gradientsSamples = none) ∨
      (lhs.features = rhs.features ∧
        (∀ v ∈ opts.reduceAcross,
          v ∈ lhs.samples.names ∧ v ∈ rhs.samples.names) ∧
        (removeFromSamples rhs.samples opts.reduceAcross).isOk = true ∧
        (removeFromSamples lhs.samples opts.reduceAcross).isOk = true ∧
        opts.gradients = true ∧ ∃ gs, lhs.gradientsSamples = some gs ∧
          ∃ v ∈ opts.reduceAcross, v ∉ gs.names) := by
  rw [Descriptor.dot]
  by_cases hfe : lhs.features ≠ rhs.features
  · rw [if_pos hfe]
    apply iff_of_true
    · rfl
    · exact Or.inl hfe
  · rw [if_neg hfe]
    push_neg at hfe
    cases hchk : checkReduceAcross lhs rhs opts.reduceAcross with
    | fatal m =>
      exact absurd hchk (checkReduceAcross_not_fatal lhs rhs opts.reduceAcross m)
    | invalidParameter m =>
      apply iff_of_true
      · rfl
      · exact Or.inr (Or.inl ⟨hfe,
          (checkReduceAcross_invalid_iff lhs rhs opts.reduceAcross).1
            (by rw [hchk]; rfl)⟩)
    | ok u =>
      simp only [RunResult.bindR]
      have hpres : ∀ v ∈ opts.reduceAcross,
          v ∈ lhs.samples.names ∧ v ∈ rhs.samples.names := by
        intro v hv
        constructor
        · by_contra hc
          have h2 := (checkReduceAcross_invalid_iff lhs rhs
            opts.reduceAcross).2 ⟨v, hv, Or.inl hc⟩
          rw [hchk] at h2
          exact absurd h2 (by simp [RunResult.isInvalid])
        · by_contra hc
          have h2 := (checkReduceAcross_invalid_iff lhs rhs
            opts.reduceAcross).2 ⟨v, hv, Or.inr hc⟩
          rw [hchk] at h2
          exact absurd h2 (by simp [RunResult.isInvalid])
      have hnomiss : ¬ ∃ v ∈ opts.reduceAcross,
          v ∉ lhs.samples.names ∨ v ∉ rhs.samples.names := by
        rintro ⟨v, hv, hc | hc⟩
        · exact hc (hpres v hv).1
        · exact hc (hpres v hv).2
      cases hrr : removeFromSamples rhs.samples opts.reduceAcross with
      | invalidParameter m =>
        exfalso
        obtain ⟨v, hv, hc⟩ := (removeFromSamples_invalid_iff rhs.samples
          opts.reduceAcross).1 (by rw [hrr]; rfl)
        exact hc (hpres v hv).2
      | fatal m =>
        apply iff_of_false
        · exact ne_true_of_eq_false rfl
        · rintro (h | ⟨_, h⟩ | ⟨_, _, h, _, _, _⟩ | ⟨_, _, h, _, _, _⟩)
          · exact h hfe
          · exact hnomiss h
          · exact absurd h (by simp [RunResult.isOk])
          · exact absurd h (by simp [RunResult.isOk])
      | ok rr =>
        simp only [RunResult.bindR]
        have hrrok : (removeFromSamples rhs.samples
            opts.reduceAcross).isOk = true := by
          rw [hrr]
          rfl
        cases hrl : removeFromSamples lhs.samples opts.reduceAcross with
        | invalidParameter m =>
          exfalso
          obtain ⟨v, hv, hc⟩ := (removeFromSamples_invalid_iff lhs.samples
            opts.reduceAcross).1 (by rw [hrl]; rfl)
          exact hc (hpres v hv).1
        | fatal m =>
          apply iff_of_false
          · exact ne_true_of_eq_false rfl
          · rintro (h | ⟨_, h⟩ | ⟨_, _, _, h, _, _⟩ | ⟨_, _, _, h, _, _⟩)
            · exact h hfe
            · exact hnomiss h
            · exact absurd h (by simp [RunResult.isOk])
            · exact absurd h (by simp [RunResult.isOk])
        | ok rl =>
          simp only [RunResult.bindR]
          have hrlok : (removeFromSamples lhs.samples
              opts.reduceAcross).isOk = true := by
            rw [hrl]
            rfl
          refine Iff.trans (dotRemainder_isInvalid_iff lhs rhs opts rl rr) ?_
          constructor
          · rintro (⟨hog, hgs⟩ | ⟨hog, gs, hgs, hmissg⟩)
            · exact Or.inr (Or.inr (Or.inl
                ⟨hfe, hpres, rfl, rfl, hog, hgs⟩))
            · exact Or.inr (Or.inr (Or.inr
                ⟨hfe, hpres, rfl, rfl, hog, gs, hgs, hmissg⟩))
          · rintro (h | ⟨_, h⟩ | ⟨_, _, _, _, hog, hgs⟩ |
              ⟨_, _, _, _, hog, gs, hgs, hmissg⟩)
            · exact absurd hfe h
            · exact absurd h hnomiss
            · exact Or.inl ⟨hog, hgs⟩
            · exact Or.inr ⟨hog, gs, hgs, hmissg⟩

theorem cdiLoop_some (rm : List (Nat × Nat × Nat)) :
    ∀ (lm : List (Nat × Nat × Nat)) (acc : List (List DotIndexesPerRow)),
    (∀ t ∈ lm, t.1 < acc.length) →
    ∃ rows, List.foldl (fun acc2 t => acc2.bind (fun rows2 =>
      if t.1 < rows2.length then
        some (rows2.set t.1 (rows2.getD t.1 [] ++ [dotWorkItem rm t]))
      else none)) (some acc) lm = some rows := by
  intro lm
  induction lm with
  | nil =>
    intro acc _
    exact ⟨acc, rfl⟩
  | cons t rest ih =>
    intro acc h
    rw [List.foldl_cons]
    simp only [Option.some_bind]
    rw [if_pos (h t (List.mem_cons_self t rest))]
    exact ih (acc.set t.1 (acc.getD t.1 [] ++ [dotWorkItem rm t]))
      (fun t2 ht2 => by
        rw [List.length_set]
        exact h t2 (List.mem_cons.2 (Or.inr ht2)))

theorem computeDotIndexes_some (lm rm : List (Nat × Nat × Nat)) (nRows : Nat)
    (h : ∀ t ∈ lm, t.1 < nRows) :
    ∃ rows, computeDotIndexes lm rm nRows = some rows := by
  obtain ⟨rows, hrows⟩ := cdiLoop_some rm lm (List.replicate nRows [])
    (fun t ht => by
      rw [List.length_replicate]
      exact h t ht)
  exact ⟨rows, hrows⟩

theorem addAt_fold_some {K : Type} [CommRing K] (v : Nat × Nat → K) :
    ∀ (ps : List (Nat × Nat)) (r : List K),
    (∀ p ∈ ps, p.2 < r.length) →
    ∃ out, ps.foldl (fun acc2 p => acc2.bind (fun r2 => addAt r2 p.2 (v p)))
      (some r) = some out ∧ out.length = r.length := by
  intro ps
  induction ps with
  | nil =>
    intro r _
    exact ⟨r, rfl, rfl⟩
  | cons p rest ih =>
    intro r h
    rw [List.foldl_cons]
    simp only [Option.some_bind]
    rw [addAt_some (h p (List.mem_cons_self p rest))]
    obtain ⟨out, h1, h2⟩ := ih (r.set p.2 (r.getD p.2 0 + v p))
      (fun q hq => by
        rw [List.length_set]
        exact h q (List.mem_cons.2 (Or.inr hq)))
    exact ⟨out, h1, by rw [h2, List.length_set]⟩

theorem accumRow_some {K : Type} [CommRing K] (lv rv : Matrix K) :
    ∀ (entries : List DotIndexesPerRow) (row : List K),
    (∀ e ∈ entries, ∀ p ∈ e.rhsIndexes, p.2 < row.length) →
    ∃ out, accumRow lv rv entries row = some out := by
  intro entries
  induction entries with
  | nil =>
    intro row _
    exact ⟨row, rfl⟩
  | cons e rest ih =>
    intro row h
    rw [accumRow, List.foldl_cons]
    simp only [Option.some_bind]
    obtain ⟨row2, h1, h2⟩ := addAt_fold_some
      (fun p => innerProd (lv.getD e.oldLhs []) (rv.getD p.1 []))
      e.rhsIndexes row (h e (List.mem_cons_self e rest))
    rw [h1]
    obtain ⟨out, hout⟩ := ih row2 (fun e2 he2 p hp => by
      rw [h2]
      exact h e2 (List.mem_cons.2 (Or.inr he2)) p hp)
    exact ⟨out, hout⟩

theorem computeDotValues_some {K : Type} [CommRing K] (lv rv : Matrix K)
    (nCols : Nat) :
    ∀ (indexes : List (List DotIndexesPerRow)),
    (∀ entries ∈ indexes, ∀ e ∈ entries, ∀ p ∈ e.rhsIndexes, p.2 < nCols) →
    ∃ out, computeDotValues lv rv indexes nCols = some out := by
  intro indexes
  induction indexes with
  | nil =>
    intro _
    exact ⟨[], rfl⟩
  | cons es rest ih =>
    intro h
    rw [computeDotValues, List.mapM_cons]
    obtain ⟨y, hy⟩ := accumRow_some lv rv es (List.replicate nCols 0)
      (fun e he p hp => by
        rw [List.length_replicate]
        exact h es (List.mem_cons_self es rest) e he p hp)
    rw [hy]
    obtain ⟨ys, hys⟩ := ih (fun es2 hes2 => h es2 (List.mem_cons.2 (Or.inr hes2)))
    rw [computeDotValues] at hys
    rw [hys]
    simp only [Option.bind_eq_bind, Option.pure_def, Option.some_bind]
    exact ⟨y :: ys, rfl⟩

theorem densifySamplesIdx_count {K : Type} [CommRing K] (d : Descriptor K)
    (vars : List String)
    (hf : d.samples.names.filter (fun n => !vars.contains n) ≠ []) :
    (densifySamplesIdx d vars).count = (densifyReduced d vars).length := by
  rw [densifySamplesIdx, Indexes.count]
  dsimp only
  rw [if_neg (fun h0 => hf (List.length_eq_zero.1 h0))]

theorem buildIds_fst_new_lt {K : Type} [CommRing K] {d : Descriptor K}
    {vars : List String} {st : List Row} {out : List (Nat × Nat × Nat)}
    {stF : List Row} (hb : buildIds (densifyMapping d vars) st = (out, stF)) :
    ∀ t ∈ out, t.1 < (densifyReduced d vars).length := by
  intro t ht
  have h3 := (buildIds_char (densifyMapping d vars) st).2.2
  rw [hb] at h3
  dsimp only at h3
  rw [h3, List.mem_map] at ht
  obtain ⟨di, hdi, rfl⟩ := ht
  exact densifyMapping_new_lt hdi

theorem dot_ok_exists {K : Type} [CommRing K] (lhs rhs : Descriptor K)
    (opts : DotOptions)
    (hlwf : lhs.wellFormed = true) (hrwf : rhs.wellFormed = true)
    (hfe : lhs.features = rhs.features)
    (hnd : opts.reduceAcross.Nodup)
    (hmeml : ∀ v ∈ opts.reduceAcross, v ∈ lhs.samples.names)
    (hmemr : ∀ v ∈ opts.reduceAcross, v ∈ rhs.samples.names)
    (hg : opts.gradients = false)
    (hfl : lhs.samples.names.filter
      (fun n => !opts.reduceAcross.contains n) ≠ [])
    (hfr : rhs.samples.names.filter
      (fun n => !opts.reduceAcross.contains n) ≠ []) :
    ∃ d2, lhs.dot rhs opts = .ok d2 := by
  have hrr := removeFromSamples_ok_d rhs opts.reduceAcross
    (wf_samples hrwf) hnd hmemr
  have hrl := removeFromSamples_ok_d lhs opts.reduceAcross
    (wf_samples hlwf) hnd hmeml
  rw [Descriptor.dot, if_neg (fun hne => hne hfe),
    checkReduceAcross_ok lhs rhs (fun v hv => ⟨hmeml v hv, hmemr v hv⟩),
    hrr, hrl, hg]
  simp only [RunResult.bindR]
  rcases hb1 : buildIds (densifyMapping lhs opts.reduceAcross) []
    with ⟨lm, st1⟩
  dsimp only
  rcases hb2 : buildIds (densifyMapping rhs opts.reduceAcross) st1
    with ⟨rm2, st2⟩
  dsimp only
  have hvl : (Descriptor.prepare (Descriptor.new K)
      (densifySamplesIdx lhs opts.reduceAcross)
      (densifySamplesIdx rhs opts.reduceAcross)).values.length =
      (densifyReduced lhs opts.reduceAcross).length := by
    show (zerosMat K (densifySamplesIdx lhs opts.reduceAcross).count
      (densifySamplesIdx rhs opts.reduceAcross).count).length = _
    rw [zerosMat, List.length_replicate]
    exact densifySamplesIdx_count lhs opts.reduceAcross hfl
  have hfc : (Descriptor.prepare (Descriptor.new K)
      (densifySamplesIdx lhs opts.reduceAcross)
      (densifySamplesIdx rhs opts.reduceAcross)).features.count =
      (densifyReduced rhs opts.reduceAcross).length := by
    show (densifySamplesIdx rhs opts.reduceAcross).count = _
    exact densifySamplesIdx_count rhs opts.reduceAcross hfr
  obtain ⟨indexes, hcdi⟩ := computeDotIndexes_some lm rm2
    ((Descriptor.prepare (Descriptor.new K)
      (densifySamplesIdx lhs opts.reduceAcross)
      (densifySamplesIdx rhs opts.reduceAcross)).values.length)
    (fun t ht => by
      rw [hvl]
      exact buildIds_fst_new_lt hb1 t ht)
  rw [hcdi]
  dsimp only
  obtain ⟨hilen, hibnd, higet⟩ := computeDotIndexes_char hcdi
  obtain ⟨nvals, hcdv⟩ := computeDotValues_some lhs.values rhs.values
    ((Descriptor.prepare (Descriptor.new K)
      (densifySamplesIdx lhs opts.reduceAcross)
      (densifySamplesIdx rhs opts.reduceAcross)).features.count)
    indexes
    (fun entries hentries e he p hp => by
      obtain ⟨r, hr, heq⟩ := List.mem_iff_getElem.1 hentries
      have hent : entries = indexes.getD r [] := by
        rw [List.getD_eq_getElem?_getD, List.getElem?_eq_getElem hr,
          Option.getD_some, heq]
      rw [hent, higet r, List.mem_map] at he
      obtain ⟨t, htf, rfl⟩ := he
      rw [dotWorkItem] at hp
      dsimp only at hp
      rw [List.mem_map] at hp
      obtain ⟨s, hs, rfl⟩ := hp
      show s.1 < _
      rw [hfc]
      exact buildIds_fst_new_lt hb2 s (List.mem_of_mem_filter hs))
  rw [hcdv]
  dsimp only
  cases hn : opts.normalize with
  | false => exact ⟨_, rfl⟩
  | true => exact ⟨_, rfl⟩

/-- Claim C6 (amended): dot returns an InvalidParameter error in exactly
these cases: the two feature indexes differ; a reduce_across name is
missing from the sample column names of the left or of the right side;
gradients are requested and the left side carries no gradient-samples
index; gradients are requested and a reduce_across name is missing from
the gradient-samples column names.  Success is not unconditional in all
remaining cases (fatal outcomes exist), but it holds whenever both
descriptors are well formed, the features agree, the reduce names are
duplicate-free and present on both sides, no gradients are requested,
and at least one sample column survives the reduction on each side. -/
theorem claim_C6_amended {K : Type} [CommRing K] (lhs rhs : Descriptor K)
    (opts : DotOptions) :
    ((lhs.dot rhs opts).isInvalid = true ↔
      lhs.features ≠ rhs.features ∨
      (lhs.features = rhs.features ∧ ∃ v ∈ opts.reduceAcross,
        v ∉ lhs.samples.names ∨ v ∉ rhs.samples.names) ∨
      (lhs.features = rhs.features ∧
        (∀ v ∈ opts.reduceAcross,
          v ∈ lhs.samples.names ∧ v ∈ rhs.samples.names) ∧
        (removeFromSamples rhs.samples opts.reduceAcross).isOk = true ∧
        (removeFromSamples lhs.samples opts.reduceAcross).isOk = true ∧
        opts.gradients = true ∧ lhs.gradientsSamples = none) ∨
      (lhs.features = rhs.features ∧
        (∀ v ∈ opts.reduceAcross,
          v ∈ lhs.samples.names ∧ v ∈ rhs.samples.names) ∧
        (removeFromSamples rhs.samples opts.reduceAcross).isOk = true ∧
        (removeFromSamples lhs.samples opts.reduceAcross).isOk = true ∧
        opts.gradients = true ∧ ∃ gs, lhs.gradientsSamples = some gs ∧
          ∃ v ∈ opts.reduceAcross, v ∉ gs.names)) ∧
    (lhs.wellFormed = true → rhs.wellFormed = true →
      lhs.features = rhs.features → opts.reduceAcross.Nodup →
      (∀ v ∈ opts.reduceAcross, v ∈ lhs.samples.names) →
      (∀ v ∈ opts.reduceAcross, v ∈ rhs.samples.names) →
      opts.gradients = false →
      lhs.samples.names.filter (fun n => !opts.reduceAcross.contains n) ≠ [] →
      rhs.samples.names.filter (fun n => !opts.reduceAcross.contains n) ≠ [] →
      ∃ d2, lhs.dot rhs opts = .ok d2) :=
  ⟨dot_isInvalid_iff lhs rhs opts,
   fun h1 h2 h3 h4 h5 h6 h7 h8 h9 =>
     dot_ok_exists lhs rhs opts h1 h2 h3 h4 h5 h6 h7 h8 h9⟩

/-- Witness for claim C6 (amended): the hypotheses of the success
clause hold at a concrete pair of descriptors and the call returns a
descriptor. -/
theorem claim_C6_amended_witness :
    exC5.wellFormed = true ∧
    ∃ d2, exC5.dot exC5
      { reduceAcross := ["v"], gradients := false, normalize := false } =
        .ok d2 :=
  ⟨by decide,
   (claim_C6_amended exC5 exC5
     { reduceAcross := ["v"], gradients := false, normalize := false }).2
     (by decide) (by decide) rfl (by decide) (by decide) (by decide) rfl
     (by decide) (by decide)⟩

theorem innerProd_eq_sum {K : Type} [CommRing K] :
    ∀ u v : List K, u.length = v.length →
    innerProd u v = ∑ k in Finset.range u.length, u.getD k 0 * v.getD k 0 := by
  intro u
  induction u with
  | nil =>
    intro v _
    simp [innerProd]
  | cons a u ih =>
    intro v hv
    cases v with
    | nil => simp at hv
    | cons b v =>
      simp only [List.length_cons] at hv
      have hv2 : u.length = v.length := by omega
      show (List.zipWith (fun x y => x * y) (a :: u) (b :: v)).sum = _
      rw [List.zipWith_cons_cons, List.sum_cons, List.length_cons,
        Finset.sum_range_succ']
      simp only [List.getD_cons_succ, List.getD_cons_zero]
      have h2 : (List.zipWith (fun x y => x * y) u v).sum = innerProd u v := rfl
      rw [h2, ih v hv2, add_comm]

theorem sum_range_mul_split {M : Type} [AddCommMonoid M] (F : Nat) (h : Nat → M) :
    ∀ B : Nat, ∑ k in Finset.range (B * F), h k =
      ∑ i in Finset.range B, ∑ j in Finset.range F, h (i * F + j) := by
  intro B
  induction B with
  | zero => simp
  | succ n ih =>
    have hm : (n + 1) * F = n * F + F := by ring
    rw [hm, Finset.sum_range_add, ih, Finset.sum_range_succ]

theorem block_interval_iff {i j idx F : Nat} (hj : j < F) :
    (idx * F ≤ i * F + j ∧ i * F + j < idx * F + F) ↔ idx = i := by
  constructor
  · rintro ⟨h1, h2⟩
    by_contra hc
    rcases Nat.lt_or_ge idx i with hlt | hge
    · have hmul : idx * F + F ≤ i * F := by
        have hs : idx + 1 ≤ i := hlt
        calc idx * F + F = (idx + 1) * F := by ring
          _ ≤ i * F := Nat.mul_le_mul_right F hs
      omega
    · have hgt : i < idx := by omega
      have hmul : i * F + F ≤ idx * F := by
        have hs : i + 1 ≤ idx := hgt
        calc i * F + F = (i + 1) * F := by ring
          _ ≤ idx * F := Nat.mul_le_mul_right F hs
      omega
  · rintro rfl
    omega

theorem find_congr_mem {α : Type} {p q : α → Bool} :
    ∀ l : List α, (∀ x ∈ l, p x = q x) → l.find? p = l.find? q := by
  intro l
  induction l with
  | nil =>
    intro _
    rfl
  | cons a t ih =>
    intro h
    by_cases hqa : q a = true
    · rw [List.find?_cons_of_pos _ hqa,
        List.find?_cons_of_pos _ ((h a (List.mem_cons_self a t)).trans hqa)]
    · have hqa2 : ¬ q a = true := hqa
      rw [List.find?_cons_of_neg _ hqa2,
        List.find?_cons_of_neg _ (by
          rw [h a (List.mem_cons_self a t)]
          exact hqa2)]
      exact ih (fun x hx => h x (List.mem_cons.2 (Or.inr hx)))

theorem find_match_eq_filter_sum {α M : Type} [AddCommMonoid M]
    (p : α → Bool) (g : α → M) :
    ∀ l : List α,
    l.Pairwise (fun a b => p a = true → p b = true → False) →
    (match l.find? p with
     | some a => g a
     | none => 0) = ((l.filter p).map g).sum := by
  intro l
  induction l with
  | nil =>
    intro _
    rfl
  | cons a t ih =>
    intro hpw
    rw [List.pairwise_cons] at hpw
    by_cases hpa : p a = true
    · rw [List.find?_cons_of_pos _ hpa, List.filter_cons, if_pos hpa]
      have ht : t.filter p = [] := by
        rw [List.filter_eq_nil_iff]
        intro b hb hpb
        exact hpw.1 b hb hpa hpb
      rw [ht, List.map_cons, List.map_nil, List.sum_cons, List.sum_nil,
        add_zero]
    · rw [List.find?_cons_of_neg _ hpa, List.filter_cons, if_neg hpa]
      exact ih hpw.2

theorem sum_match_find_blocks {M : Type} [AddCommMonoid M] (blocks : List Row)
    (g : Nat → DensifiedIndex → M) (r : Nat) :
    ∀ mapping : List DensifiedIndex,
    (∀ e ∈ mapping, e.vars ∈ blocks) →
    mapping.Pairwise (fun e1 e2 =>
      e1.newSampleI ≠ e2.newSampleI ∨ e1.vars ≠ e2.vars) →
    (∑ i in Finset.range blocks.length,
      (match mapping.find? (fun e => decide (e.newSampleI = r ∧
          idxOf blocks e.vars = i)) with
       | some e => g i e
       | none => 0)) =
    ((mapping.filter (fun e => decide (e.newSampleI = r))).map
      (fun e => g (idxOf blocks e.vars) e)).sum := by
  intro mapping
  induction mapping with
  | nil =>
    intro _ _
    simp
  | cons e rest ih =>
    intro hmem hpw
    rw [List.pairwise_cons] at hpw
    by_cases hr : e.newSampleI = r
    · have hi0 : idxOf blocks e.vars < blocks.length :=
        idxOf_lt_length (hmem e (List.mem_cons_self e rest))
      have hpt : ∀ i ∈ Finset.range blocks.length,
          (match (e :: rest).find? (fun e2 => decide (e2.newSampleI = r ∧
              idxOf blocks e2.vars = i)) with
           | some e2 => g i e2
           | none => 0) =
          (if i = idxOf blocks e.vars then g (idxOf blocks e.vars) e else 0) +
          (match rest.find? (fun e2 => decide (e2.newSampleI = r ∧
              idxOf blocks e2.vars = i)) with
           | some e2 => g i e2
           | none => 0) := by
        intro i _
        by_cases hii : i = idxOf blocks e.vars
        · subst hii
          rw [List.find?_cons_of_pos _ (by simp [hr]), if_pos rfl]
          have hrest : rest.find? (fun e2 => decide (e2.newSampleI = r ∧
              idxOf blocks e2.vars = idxOf blocks e.vars)) = none := by
            rw [List.find?_eq_none]
            intro e2 he2
            simp only [decide_eq_true_eq, not_and]
            intro h2r h2i
            rcases hpw.1 e2 he2 with hne | hne
            · exact hne (hr.trans h2r.symm)
            · exact hne (idxOf_inj (hmem e (List.mem_cons_self e rest))
                (hmem e2 (List.mem_cons.2 (Or.inr he2))) h2i.symm)
          rw [hrest]
          simp
        · rw [List.find?_cons_of_neg _ (by
            simp only [decide_eq_true_eq, not_and]
            intro _ hcc
            exact hii hcc.symm), if_neg hii, zero_add]
      rw [Finset.sum_congr rfl hpt, Finset.sum_add_distrib,
        Finset.sum_ite_eq' (Finset.range blocks.length)
          (idxOf blocks e.vars) (fun _ => g (idxOf blocks e.vars) e),
        if_pos (Finset.mem_range.2 hi0),
        ih (fun x hx => hmem x (List.mem_cons.2 (Or.inr hx))) hpw.2,
        List.filter_cons, if_pos (by simp [hr]), List.map_cons, List.sum_cons]
    · have hpt : ∀ i ∈ Finset.range blocks.length,
          (match (e :: rest).find? (fun e2 => decide (e2.newSampleI = r ∧
              idxOf blocks e2.vars = i)) with
           | some e2 => g i e2
           | none => 0) =
          (match rest.find? (fun e2 => decide (e2.newSampleI = r ∧
              idxOf blocks e2.vars = i)) with
           | some e2 => g i e2
           | none => 0) := by
        intro i _
        rw [List.find?_cons_of_neg _ (by
          simp only [decide_eq_true_eq, not_and]
          intro hc
          exact absurd hc hr)]
      rw [Finset.sum_congr rfl hpt,
        ih (fun x hx => hmem x (List.mem_cons.2 (Or.inr hx))) hpw.2,
        List.filter_cons, if_neg (by simp [hr])]

theorem matrix_ext {K : Type} [CommRing K] {m1 m2 : Matrix K} {R C : Nat}
    (h1 : matWf m1 R C = true) (h2 : matWf m2 R C = true)
    (h : ∀ r c, r < R → c < C → getEntry m1 r c = getEntry m2 r c) :
    m1 = m2 := by
  apply List.ext_getElem
  · rw [matWf_length h1, matWf_length h2]
  · intro r hr1 hr2
    apply List.ext_getElem
    · rw [matWf_rowlen h1 _ (List.getElem_mem hr1),
        matWf_rowlen h2 _ (List.getElem_mem hr2)]
    · intro c hc1 hc2
      have hrR : r < R := by
        rw [← matWf_length h1]
        exact hr1
      have hcC : c < C := by
        rw [← matWf_rowlen h1 _ (List.getElem_mem hr1)]
        exact hc1
      have he := h r c hrR hcC
      rw [getEntry, getEntry, List.getD_eq_getElem _ _ hr1,
        List.getD_eq_getElem _ _ hr2, List.getD_eq_getElem _ _ hc1,
        List.getD_eq_getElem _ _ hc2] at he
      exact he

theorem matMulT_entry {K : Type} [CommRing K] {A B : Matrix K} {r c : Nat}
    (hr : r < A.length) (hc : c < B.length) :
    getEntry (matMulT A B) r c = innerProd (A.getD r []) (B.getD c []) := by
  have h1 : (matMulT A B).getD r [] =
      B.map (fun br => innerProd (A.getD r []) br) := by
    rw [matMulT, List.getD_eq_getElem _ _ (by
        rw [List.length_map]
        exact hr),
      List.getElem_map, List.getD_eq_getElem _ _ hr]
  have h2 : (B.map (fun br => innerProd (A.getD r []) br)).getD c 0 =
      innerProd (A.getD r []) (B.getD c []) := by
    rw [List.getD_eq_getElem _ _ (by
        rw [List.length_map]
        exact hc),
      List.getElem_map, List.getD_eq_getElem _ _ hc]
  rw [getEntry, h1, h2]

theorem matMulT_wf {K : Type} [CommRing K] (A B : Matrix K) :
    matWf (matMulT A B) A.length B.length = true := by
  rw [matWf, Bool.and_eq_true]
  constructor
  · rw [matMulT, List.length_map]
    simp
  · rw [List.all_eq_true]
    intro row hrow
    rcases List.mem_map.1 hrow with ⟨ar, _, rfl⟩
    simp

theorem firstSeenFold_append :
    ∀ (l acc : List Row), (acc ++ l).Nodup →
    l.foldl (fun acc2 x => if x ∈ acc2 then acc2 else acc2 ++ [x]) acc =
      acc ++ l := by
  intro l
  induction l with
  | nil =>
    intro acc _
    rw [List.foldl_nil, List.append_nil]
  | cons x t ih =>
    intro acc h
    rw [List.foldl_cons]
    have hdis : acc.Disjoint (x :: t) := by
      rw [List.nodup_append] at h
      exact h.2.2
    have hx : x ∉ acc := fun hmem => hdis hmem (List.mem_cons_self x t)
    rw [if_neg hx]
    have h2 : ((acc ++ [x]) ++ t).Nodup := by
      rw [List.append_assoc, List.singleton_append]
      exact h
    rw [ih (acc ++ [x]) h2, List.append_assoc, List.singleton_append]

theorem firstSeenDedup_of_nodup {l : List Row} (h : l.Nodup) :
    firstSeenDedup l = l := by
  rw [firstSeenDedup, firstSeenFold_append l [] (by simpa using h),
    List.nil_append]

theorem enumFrom_filter_fst {α : Type} (x : α) :
    ∀ (l : List α) (k r : Nat),
    (List.enumFrom k l).filter (fun p => decide (p.1 = r)) =
      if k ≤ r ∧ r < k + l.length then [(r, l.getD (r - k) x)] else [] := by
  intro l
  induction l with
  | nil =>
    intro k r
    rw [if_neg (by
      simp only [List.length_nil]
      omega)]
    rfl
  | cons a t ih =>
    intro k r
    rw [List.enumFrom_cons, List.filter_cons]
    by_cases hk : k = r
    · subst hk
      rw [if_pos (by simp), ih (k + 1) k, if_neg (by omega),
        if_pos (by
          simp only [List.length_cons]
          omega),
        Nat.sub_self, List.getD_cons_zero]
    · rw [if_neg (by simp [hk]), ih (k + 1) r]
      by_cases hcase : k + 1 ≤ r ∧ r < k + 1 + t.length
      · rw [if_pos hcase, if_pos (by
          simp only [List.length_cons]
          omega)]
        have hsub : r - k = (r - (k + 1)) + 1 := by omega
        rw [hsub, List.getD_cons_succ]
      · rw [if_neg hcase, if_neg (by
          simp only [List.length_cons]
          omega)]

theorem idxOf_getElem_nodup {α : Type} [DecidableEq α] {l : List α}
    (h : l.Nodup) {i : Nat} (hi : i < l.length) : idxOf l l[i] = i := by
  have hmem : l[i] ∈ l := List.getElem_mem hi
  have hlt : idxOf l l[i] < l.length := idxOf_lt_length hmem
  have hg : l.getD (idxOf l l[i]) l[i] = l[i] := getD_idxOf hmem l[i]
  rw [List.getD_eq_getElem _ _ hlt] at hg
  exact (h.getElem_inj_iff).1 hg

theorem densify_values_char {K : Type} [CommRing K] {d : Descriptor K}
    {vars : List String}
    (hwf : d.wellFormed = true) (hnd : vars.Nodup)
    (hmem : ∀ v ∈ vars, v ∈ d.samples.names)
    (hrows : d.samples.rows.Nodup)
    (hvne : vars ≠ []) (hfs : d.features.size ≠ 0)
    (hok : (d.densify vars none).2 = .ok ()) :
    matWf (d.densify vars none).1.values (densifyReduced d vars).length
      ((densifyBlocks d vars).length * d.features.count) = true ∧
    (∀ r k, getEntry (d.densify vars none).1.values r k =
      (match (densifyMapping d vars).find? (fun e =>
          decide (e.newSampleI = r ∧
          idxOf (densifyBlocks d vars) e.vars * d.features.count ≤ k ∧
          k < idxOf (densifyBlocks d vars) e.vars * d.features.count +
            d.features.count)) with
       | some e => (d.values.getD e.oldSampleI []).getD
           (k - idxOf (densifyBlocks d vars) e.vars * d.features.count) 0
       | none => (0 : K))) ∧
    (densifySamplesIdx d vars).count = (densifyReduced d vars).length ∧
    (d.densify vars none).1.samples = densifySamplesIdx d vars := by
  obtain ⟨nv, tail, restF, g, gs, hfr, hcopy, hout⟩ :=
    densify_none_ok_spine hwf hnd hmem hvne hfs hok
  have hval : (d.densify vars none).1.values = nv := by
    rw [hout]
  have hsam : (d.densify vars none).1.samples = densifySamplesIdx d vars := by
    rw [hout]
  rw [hval]
  have hvalwf := wf_values hwf
  have hF : d.features.count = d.features.rows.length := by
    rw [Indexes.count, if_neg]
    intro h0
    exact hfs h0
  by_cases hre : d.samples.rows = []
  · have hmap : densifyMapping d vars = [] := by
      rw [densifyMapping, hre]
      rfl
    have hredE : densifyReduced d vars = [] := by
      rw [densifyReduced, hre]
      rfl
    have hc0 : (densifySamplesIdx d vars).count = 0 := by
      rw [densifySamplesIdx, Indexes.count]
      dsimp only
      rw [hredE]
      split
      · rfl
      · rfl
    rw [hmap] at hcopy
    have hnv : nv = zerosMat K (densifySamplesIdx d vars).count
        (densifyFeaturesIdx d vars (densifyBlocks d vars)).count := by
      have hid : densifyCopy d.values tail d.features.count
          (densifyFeaturesIdx d vars (densifyBlocks d vars)) []
          (zerosMat K (densifySamplesIdx d vars).count
            (densifyFeaturesIdx d vars (densifyBlocks d vars)).count) =
          some (zerosMat K (densifySamplesIdx d vars).count
            (densifyFeaturesIdx d vars (densifyBlocks d vars)).count) := rfl
      rw [hid] at hcopy
      exact (Option.some.inj hcopy).symm
    have hnv2 : nv = [] := by
      rw [hnv, hc0]
      rfl
    refine ⟨?_, ?_, ?_, hsam⟩
    · rw [hnv2, hredE]
      simp [matWf]
    · intro r k
      rw [hnv2, hmap]
      show (0 : K) = _
      rfl
    · rw [hc0, hredE]
      rfl
  · have hnamesne : d.samples.names ≠ [] := by
      have hswf := wf_samples hwf
      rw [Indexes.wf] at hswf
      simp only [Bool.and_eq_true, Bool.or_eq_true] at hswf
      rcases hswf.2 with h | h
      · rw [Bool.not_eq_true', List.isEmpty_eq_false] at h
        exact h
      · exact absurd (by simpa using h) hre
    have hcount : d.samples.count = d.samples.rows.length := by
      rw [Indexes.count, if_neg]
      intro h0
      exact hnamesne (List.length_eq_zero.1 h0)
    have hhead : d.features.rows.head? = some tail := by
      rw [hfr]
      rfl
    have hblens : ∀ bb ∈ densifyBlocks d vars, bb.length = vars.length :=
      fun bb hb => densifyBlocks_len hb
    by_cases hfie : d.samples.names.filter (fun n => !vars.contains n) = []
    · exfalso
      obtain ⟨r0, rest, hre2⟩ := List.exists_cons_of_ne_nil hre
      have hc0 : (densifySamplesIdx d vars).count = 0 := by
        show (if (d.samples.names.filter
            (fun n => !vars.contains n)).length = 0 then 0
          else (densifyReduced d vars).length) = 0
        rw [if_pos]
        rw [hfie]
        rfl
      rw [hc0] at hcopy
      have hz : zerosMat K 0 (densifyFeaturesIdx d vars
          (densifyBlocks d vars)).count = ([] : Matrix K) := rfl
      rw [hz] at hcopy
      have hmapeq : densifyMapping d vars =
          ({ oldSampleI := 0,
             newSampleI := idxOf (densifyReduced d vars)
               (dropPositions (densifyPositions d vars) r0),
             vars := blockOf (densifyPositions d vars) r0 } :
               DensifiedIndex) ::
          (List.enumFrom 1 rest).map (fun p =>
            ({ oldSampleI := p.1,
               newSampleI := idxOf (densifyReduced d vars)
                 (dropPositions (densifyPositions d vars) p.2),
               vars := blockOf (densifyPositions d vars) p.2 } :
                 DensifiedIndex)) := by
        rw [densifyMapping, hre2]
        rfl
      rw [hmapeq] at hcopy
      have hb0len : (blockOf (densifyPositions d vars) r0).length =
          vars.length := by
        rw [blockOf, List.length_map, densifyPositions, varPositions,
          List.length_map]
      have hb0mem : blockOf (densifyPositions d vars) r0 ∈
          densifyBlocks d vars := by
        rw [densifyBlocks]
        apply mem_btOfList.2
        apply List.mem_map_of_mem
        rw [hre2]
        exact List.mem_cons_self r0 rest
      have hpos : (densifyFeaturesIdx d vars (densifyBlocks d vars)).position
          (blockOf (densifyPositions d vars) r0 ++ tail) =
          some (idxOf (densifyBlocks d vars)
            (blockOf (densifyPositions d vars) r0) *
              d.features.rows.length) := by
        rw [Indexes.position]
        have hNF : (densifyFeaturesIdx d vars (densifyBlocks d vars)).rows =
            (densifyBlocks d vars).flatMap
              (fun bb => d.features.rows.map (bb ++ ·)) := rfl
        rw [hNF, findBlockTail hhead hblens hb0len, if_pos hb0mem]
      rw [densifyCopy, List.foldl_cons] at hcopy
      simp only [Option.some_bind] at hcopy
      rw [hpos] at hcopy
      dsimp only at hcopy
      have hss : ∀ (i s w : Nat) (v : List K),
          setSlice ([] : Matrix K) i s w v = none := by
        intro i s w v
        rfl
      rw [hss] at hcopy
      rw [foldl_bind_none] at hcopy
      exact absurd hcopy (by simp)
    · have hRcount : (densifySamplesIdx d vars).count =
          (densifyReduced d vars).length := by
        show (if (d.samples.names.filter
            (fun n => !vars.contains n)).length = 0 then 0
          else (densifyReduced d vars).length) =
          (densifyReduced d vars).length
        rw [if_neg]
        intro h0
        exact hfie (List.length_eq_zero.1 h0)
      rw [hRcount] at hcopy
      have hvl : d.values.length = d.samples.rows.length := by
        rw [matWf_length hvalwf, hcount]
      have hment : ∀ e ∈ densifyMapping d vars,
          e.vars ∈ densifyBlocks d vars ∧ e.vars.length = vars.length :=
        fun e he => densifyMapping_vars he
      have hnewlt : ∀ e ∈ densifyMapping d vars,
          e.newSampleI < (densifyReduced d vars).length :=
        fun e he => densifyMapping_new_lt he
      have hsrc : ∀ e ∈ densifyMapping d vars,
          (d.values.getD e.oldSampleI []).length = d.features.count := by
        intro e he
        obtain ⟨row, hrow, holt, _, _⟩ := densifyMapping_mem he
        have h2 : e.oldSampleI < d.values.length := by
          rw [hvl]
          exact holt
        rw [List.getD_eq_getElem _ _ h2]
        exact matWf_rowlen hvalwf _ (List.getElem_mem h2)
      have hNFlen : (densifyFeaturesIdx d vars (densifyBlocks d vars)).count =
          (densifyBlocks d vars).length * d.features.count := by
        have hfne : d.features.names ≠ [] := by
          intro h0
          apply hfs
          rw [Indexes.size, h0]
          rfl
        show (if (vars ++ d.features.names).length = 0 then 0
          else ((densifyBlocks d vars).flatMap
            (fun b => d.features.rows.map (fun f => b ++ f))).length) = _
        rw [if_neg, List.length_flatMap]
        · have hme : List.map (List.length ∘
              (fun b => d.features.rows.map (fun f => b ++ f)))
              (densifyBlocks d vars) =
              List.map (fun _ => d.features.rows.length)
                (densifyBlocks d vars) := by
            apply List.map_congr_left
            intro b _
            show (d.features.rows.map (fun f => b ++ f)).length = _
            rw [List.length_map]
          rw [hme, List.map_const', List.sum_replicate, smul_eq_mul, hF]
        · intro h0
          rw [List.length_append] at h0
          exact hfne (List.length_eq_zero.1 (by omega))
      have hC : ∀ e ∈ densifyMapping d vars,
          idxOf (densifyBlocks d vars) e.vars * d.features.count +
            d.features.count ≤
            (densifyFeaturesIdx d vars (densifyBlocks d vars)).count := by
        intro e he
        rw [hNFlen]
        have hlt2 : idxOf (densifyBlocks d vars) e.vars + 1 ≤
            (densifyBlocks d vars).length := idxOf_lt_length (hment e he).1
        calc idxOf (densifyBlocks d vars) e.vars * d.features.count +
              d.features.count
            = (idxOf (densifyBlocks d vars) e.vars + 1) *
                d.features.count := by ring
          _ ≤ (densifyBlocks d vars).length * d.features.count :=
              Nat.mul_le_mul_right _ hlt2
      have hpw := @densifyMapping_pairwise K _ d vars (wf_samples hwf) hrows
      have hNF : (densifyFeaturesIdx d vars (densifyBlocks d vars)).rows =
          (densifyBlocks d vars).flatMap
            (fun bb => d.features.rows.map (bb ++ ·)) := rfl
      obtain ⟨m2, hm2, hm2wf, hentry⟩ := densifyCopy_entry hNF hhead hF.symm
        hblens hment
        (matWf_zeros (densifyReduced d vars).length
          (densifyFeaturesIdx d vars (densifyBlocks d vars)).count)
        hnewlt hsrc hC hpw
      have hnveq : nv = m2 := Option.some.inj (hcopy.symm.trans hm2)
      subst hnveq
      refine ⟨?_, ?_, hRcount, hsam⟩
      · rw [← hNFlen]
        exact hm2wf
      · intro r k
        rw [hentry r k]
        cases hfind : (densifyMapping d vars).find? (fun e =>
            decide (e.newSampleI = r ∧
            idxOf (densifyBlocks d vars) e.vars * d.features.count ≤ k ∧
            k < idxOf (densifyBlocks d vars) e.vars *
              d.features.count + d.features.count)) with
        | some e => rfl
        | none => exact getEntry_zerosMat _ _ r k

theorem dotRawEntry_eq_pairs {K : Type} [CommRing K] (lhs rhs : Descriptor K)
    (vars : List String) (r c : Nat)
    (hlwfS : lhs.samples.wf = true) (hrwfS : rhs.samples.wf = true)
    (hnd : vars.Nodup)
    (hmeml : ∀ v ∈ vars, v ∈ lhs.samples.names)
    (hmemr : ∀ v ∈ vars, v ∈ rhs.samples.names) :
    dotRawEntry lhs rhs vars r c =
      (((densifyMapping lhs vars).filter
          (fun e => decide (e.newSampleI = r))).map
        (fun e1 =>
          (((densifyMapping rhs vars).filter (fun e2 =>
              decide (e2.newSampleI = c ∧ e2.vars = e1.vars))).map
            (fun e2 => innerProd (lhs.values.getD e1.oldSampleI [])
              (rhs.values.getD e2.oldSampleI []))).sum)).sum := by
  have hrlo := removeFromSamples_ok_d lhs vars hlwfS hnd hmeml
  have hrro := removeFromSamples_ok_d rhs vars hrwfS hnd hmemr
  have hpair : dotMappingsPair lhs rhs vars =
      ((buildIds (densifyMapping lhs vars) []).1,
       (buildIds (densifyMapping rhs vars)
         (buildIds (densifyMapping lhs vars) []).2).1) := by
    rw [dotMappingsPair, hrlo, hrro]
  obtain ⟨⟨ext1, hext1, _⟩, hmem1, hfst1⟩ :=
    buildIds_char (densifyMapping lhs vars) []
  obtain ⟨⟨ext2, hext2, _⟩, hmem2, hfst2⟩ :=
    buildIds_char (densifyMapping rhs vars)
      (buildIds (densifyMapping lhs vars) []).2
  rw [dotRawEntry]
  rw [hpair]
  dsimp only
  rw [hfst1, hfst2, List.filter_map, List.map_map]
  apply congrArg
  apply List.map_congr_left
  intro e1 he1f
  have he1 : e1 ∈ densifyMapping lhs vars :=
    List.mem_of_mem_filter he1f
  have he1v : e1.vars ∈ (buildIds (densifyMapping lhs vars) []).2 :=
    hmem1 e1 he1
  have hidi : idxOf (buildIds (densifyMapping lhs vars) []).2 e1.vars =
      idxOf (buildIds (densifyMapping rhs vars)
        (buildIds (densifyMapping lhs vars) []).2).2 e1.vars := by
    rw [hext2]
    exact (idxOf_append_of_mem he1v).symm
  show (List.map (fun b : Nat × Nat × Nat =>
      innerProd (lhs.values.getD e1.oldSampleI [])
        (rhs.values.getD b.2.1 []))
    (List.filter (fun b : Nat × Nat × Nat => decide (b.1 = c ∧ b.2.2 =
        idxOf (buildIds (densifyMapping lhs vars) []).2 e1.vars))
      (List.map (fun di : DensifiedIndex =>
        (di.newSampleI, di.oldSampleI,
          idxOf (buildIds (densifyMapping rhs vars)
            (buildIds (densifyMapping lhs vars) []).2).2 di.vars))
        (densifyMapping rhs vars)))).sum = _
  rw [List.filter_map, List.map_map]
  have hfc : (densifyMapping rhs vars).filter
      ((fun b : Nat × Nat × Nat => decide (b.1 = c ∧ b.2.2 =
        idxOf (buildIds (densifyMapping lhs vars) []).2 e1.vars)) ∘
        (fun di : DensifiedIndex => (di.newSampleI, di.oldSampleI,
          idxOf (buildIds (densifyMapping rhs vars)
            (buildIds (densifyMapping lhs vars) []).2).2 di.vars))) =
      (densifyMapping rhs vars).filter (fun e2 =>
        decide (e2.newSampleI = c ∧ e2.vars = e1.vars)) := by
    apply List.filter_congr
    intro e2 he2
    show decide (e2.newSampleI = c ∧
      idxOf (buildIds (densifyMapping rhs vars)
        (buildIds (densifyMapping lhs vars) []).2).2 e2.vars =
      idxOf (buildIds (densifyMapping lhs vars) []).2 e1.vars) = _
    rw [decide_eq_decide]
    apply and_congr_right
    intro _
    rw [hidi]
    constructor
    · intro hid
      exact idxOf_inj (hmem2 e2 he2)
        (by
          rw [hext2]
          exact List.mem_append_left ext2 he1v) hid
    · intro hveq
      rw [hveq]
  rw [hfc]
  apply congrArg
  apply List.map_congr_left
  intro e2 _
  rfl

theorem filter_eq_single_of_find {α : Type} (p : α → Bool) :
    ∀ l : List α,
    l.Pairwise (fun a b => p a = true → p b = true → False) →
    ∀ a, l.find? p = some a → l.filter p = [a] := by
  intro l
  induction l with
  | nil =>
    intro _ a h
    exact absurd h (by simp)
  | cons x t ih =>
    intro hpw a h
    rw [List.pairwise_cons] at hpw
    by_cases hpx : p x = true
    · rw [List.find?_cons_of_pos _ hpx] at h
      have hax : x = a := Option.some.inj h
      subst hax
      rw [List.filter_cons, if_pos hpx]
      have ht : t.filter p = [] := by
        rw [List.filter_eq_nil_iff]
        intro b hb hpb
        exact hpw.1 b hb hpx hpb
      rw [ht]
    · rw [List.find?_cons_of_neg _ hpx] at h
      rw [List.filter_cons, if_neg hpx]
      exact ih hpw.2 a h

theorem densifyMapping_src_len {K : Type} [CommRing K] {d : Descriptor K}
    {vars : List String} (hwf : d.wellFormed = true) {e : DensifiedIndex}
    (he : e ∈ densifyMapping d vars) :
    (d.values.getD e.oldSampleI []).length = d.features.count := by
  obtain ⟨row, hrow, holt, _, _⟩ := densifyMapping_mem he
  have hre : d.samples.rows ≠ [] := by
    intro h0
    rw [h0] at hrow
    exact absurd hrow (List.not_mem_nil row)
  have hnamesne : d.samples.names ≠ [] := by
    have hswf := wf_samples hwf
    rw [Indexes.wf] at hswf
    simp only [Bool.and_eq_true, Bool.or_eq_true] at hswf
    rcases hswf.2 with h | h
    · rw [Bool.not_eq_true', List.isEmpty_eq_false] at h
      exact h
    · exact absurd (by simpa using h) hre
  have hcount : d.samples.count = d.samples.rows.length := by
    rw [Indexes.count, if_neg]
    intro h0
    exact hnamesne (List.length_eq_zero.1 h0)
  have hvl : d.values.length = d.samples.rows.length := by
    rw [matWf_length (wf_values hwf), hcount]
  have h2 : e.oldSampleI < d.values.length := by
    rw [hvl]
    exact holt
  rw [List.getD_eq_getElem _ _ h2]
  exact matWf_rowlen (wf_values hwf) _ (List.getElem_mem h2)

theorem densified_inner_eq_pairs {K : Type} [CommRing K]
    {lhs rhs : Descriptor K} {vars : List String} {r c : Nat}
    (hlwf : lhs.wellFormed = true) (hrwf : rhs.wellFormed = true)
    (hfe : lhs.features = rhs.features)
    (hlnd : lhs.samples.rows.Nodup) (hrnd : rhs.samples.rows.Nodup)
    (hnd : vars.Nodup)
    (hmeml : ∀ v ∈ vars, v ∈ lhs.samples.names)
    (hmemr : ∀ v ∈ vars, v ∈ rhs.samples.names)
    (hblocks : densifyBlocks lhs vars = densifyBlocks rhs vars)
    (hvne : vars ≠ []) (hfs : lhs.features.size ≠ 0)
    (hdl : (lhs.densify vars none).2 = .ok ())
    (hdr : (rhs.densify vars none).2 = .ok ())
    (hr : r < (densifyReduced lhs vars).length)
    (hc : c < (densifyReduced rhs vars).length) :
    innerProd ((lhs.densify vars none).1.values.getD r [])
      ((rhs.densify vars none).1.values.getD c []) =
    (((densifyMapping lhs vars).filter
        (fun e => decide (e.newSampleI = r))).map
      (fun e1 =>
        (((densifyMapping rhs vars).filter (fun e2 =>
            decide (e2.newSampleI = c ∧ e2.vars = e1.vars))).map
          (fun e2 => innerProd (lhs.values.getD e1.oldSampleI [])
            (rhs.values.getD e2.oldSampleI []))).sum)).sum := by
  have hfsr : rhs.features.size ≠ 0 := by
    rw [← hfe]
    exact hfs
  have hFr : rhs.features.count = lhs.features.count := by
    rw [hfe]
  obtain ⟨hwfl, hentl, _, _⟩ :=
    densify_values_char hlwf hnd hmeml hlnd hvne hfs hdl
  obtain ⟨hwfr, hentr, _, _⟩ :=
    densify_values_char hrwf hnd hmemr hrnd hvne hfsr hdr
  rw [← hblocks, hFr] at hwfr hentr
  have hulen : ((lhs.densify vars none).1.values.getD r []).length =
      (densifyBlocks lhs vars).length * lhs.features.count := by
    rw [List.getD_eq_getElem _ _ (by
      rw [matWf_length hwfl]
      exact hr)]
    exact matWf_rowlen hwfl _ (List.getElem_mem _)
  have hvlen : ((rhs.densify vars none).1.values.getD c []).length =
      (densifyBlocks lhs vars).length * lhs.features.count := by
    rw [List.getD_eq_getElem _ _ (by
      rw [matWf_length hwfr]
      exact hc)]
    exact matWf_rowlen hwfr _ (List.getElem_mem _)
  rw [innerProd_eq_sum _ _ (by rw [hulen, hvlen]), hulen, sum_range_mul_split]
  have hstep1 : ∀ i ∈ Finset.range (densifyBlocks lhs vars).length,
      ∀ j ∈ Finset.range lhs.features.count,
      ((lhs.densify vars none).1.values.getD r []).getD
          (i * lhs.features.count + j) 0 *
        ((rhs.densify vars none).1.values.getD c []).getD
          (i * lhs.features.count + j) 0 =
      (match (densifyMapping lhs vars).find? (fun e =>
          decide (e.newSampleI = r ∧
            idxOf (densifyBlocks lhs vars) e.vars = i)) with
       | some e => (lhs.values.getD e.oldSampleI []).getD j 0
       | none => (0 : K)) *
      (match (densifyMapping rhs vars).find? (fun e =>
          decide (e.newSampleI = c ∧
            idxOf (densifyBlocks lhs vars) e.vars = i)) with
       | some e => (rhs.values.getD e.oldSampleI []).getD j 0
       | none => (0 : K)) := by
    intro i _ j hj
    rw [Finset.mem_range] at hj
    have hu : ((lhs.densify vars none).1.values.getD r []).getD
        (i * lhs.features.count + j) 0 =
        getEntry (lhs.densify vars none).1.values r
          (i * lhs.features.count + j) := rfl
    have hv : ((rhs.densify vars none).1.values.getD c []).getD
        (i * lhs.features.count + j) 0 =
        getEntry (rhs.densify vars none).1.values c
          (i * lhs.features.count + j) := rfl
    rw [hu, hentl r (i * lhs.features.count + j), hv,
      hentr c (i * lhs.features.count + j)]
    have hfl : (densifyMapping lhs vars).find? (fun e =>
        decide (e.newSampleI = r ∧
          idxOf (densifyBlocks lhs vars) e.vars * lhs.features.count ≤
            i * lhs.features.count + j ∧
          i * lhs.features.count + j <
            idxOf (densifyBlocks lhs vars) e.vars * lhs.features.count +
              lhs.features.count)) =
        (densifyMapping lhs vars).find? (fun e =>
          decide (e.newSampleI = r ∧
            idxOf (densifyBlocks lhs vars) e.vars = i)) := by
      apply find_congr_mem
      intro e _
      rw [decide_eq_decide]
      exact and_congr_right (fun _ => block_interval_iff hj)
    have hfr2 : (densifyMapping rhs vars).find? (fun e =>
        decide (e.newSampleI = c ∧
          idxOf (densifyBlocks lhs vars) e.vars * lhs.features.count ≤
            i * lhs.features.count + j ∧
          i * lhs.features.count + j <
            idxOf (densifyBlocks lhs vars) e.vars * lhs.features.count +
              lhs.features.count)) =
        (densifyMapping rhs vars).find? (fun e =>
          decide (e.newSampleI = c ∧
            idxOf (densifyBlocks lhs vars) e.vars = i)) := by
      apply find_congr_mem
      intro e _
      rw [decide_eq_decide]
      exact and_congr_right (fun _ => block_interval_iff hj)
    rw [hfl, hfr2]
    cases hfind1 : (densifyMapping lhs vars).find? (fun e =>
        decide (e.newSampleI = r ∧
          idxOf (densifyBlocks lhs vars) e.vars = i)) with
    | none =>
      cases hfind2 : (densifyMapping rhs vars).find? (fun e =>
          decide (e.newSampleI = c ∧
            idxOf (densifyBlocks lhs vars) e.vars = i)) with
      | none => rfl
      | some e2 =>
        dsimp only
        rw [zero_mul, zero_mul]
    | some e1 =>
      have hp1 := List.find?_some hfind1
      simp only [decide_eq_true_eq] at hp1
      cases hfind2 : (densifyMapping rhs vars).find? (fun e =>
          decide (e.newSampleI = c ∧
            idxOf (densifyBlocks lhs vars) e.vars = i)) with
      | none =>
        dsimp only
        rw [mul_zero, mul_zero]
      | some e2 =>
        have hp2 := List.find?_some hfind2
        simp only [decide_eq_true_eq] at hp2
        dsimp only
        rw [hp1.2, hp2.2, Nat.add_sub_cancel_left]
  rw [Finset.sum_congr rfl (fun i hi =>
    Finset.sum_congr rfl (fun j hj => hstep1 i hi j hj))]
  have hstep2 : ∀ i ∈ Finset.range (densifyBlocks lhs vars).length,
      (∑ j in Finset.range lhs.features.count,
        (match (densifyMapping lhs vars).find? (fun e =>
            decide (e.newSampleI = r ∧
              idxOf (densifyBlocks lhs vars) e.vars = i)) with
         | some e => (lhs.values.getD e.oldSampleI []).getD j 0
         | none => (0 : K)) *
        (match (densifyMapping rhs vars).find? (fun e =>
            decide (e.newSampleI = c ∧
              idxOf (densifyBlocks lhs vars) e.vars = i)) with
         | some e => (rhs.values.getD e.oldSampleI []).getD j 0
         | none => (0 : K))) =
      (match (densifyMapping lhs vars).find? (fun e =>
          decide (e.newSampleI = r ∧
            idxOf (densifyBlocks lhs vars) e.vars = i)) with
       | some e1 =>
         (match (densifyMapping rhs vars).find? (fun e =>
             decide (e.newSampleI = c ∧
               idxOf (densifyBlocks lhs vars) e.vars = i)) with
          | some e2 => innerProd (lhs.values.getD e1.oldSampleI [])
              (rhs.values.getD e2.oldSampleI [])
          | none => (0 : K))
       | none => (0 : K)) := by
    intro i _
    cases hfind1 : (densifyMapping lhs vars).find? (fun e =>
        decide (e.newSampleI = r ∧
          idxOf (densifyBlocks lhs vars) e.vars = i)) with
    | none =>
      dsimp only
      exact Finset.sum_eq_zero (fun j _ => zero_mul _)
    | some e1 =>
      cases hfind2 : (densifyMapping rhs vars).find? (fun e =>
          decide (e.newSampleI = c ∧
            idxOf (densifyBlocks lhs vars) e.vars = i)) with
      | none =>
        dsimp only
        exact Finset.sum_eq_zero (fun j _ => mul_zero _)
      | some e2 =>
        have hl1 : (lhs.values.getD e1.oldSampleI []).length =
            lhs.features.count :=
          densifyMapping_src_len hlwf (List.mem_of_find?_eq_some hfind1)
        have hl2 : (rhs.values.getD e2.oldSampleI []).length =
            lhs.features.count := by
          rw [densifyMapping_src_len hrwf (List.mem_of_find?_eq_some hfind2)]
          exact hFr
        dsimp only
        rw [innerProd_eq_sum _ _ (by rw [hl1, hl2]), hl1]
  rw [Finset.sum_congr rfl hstep2]
  refine Eq.trans (sum_match_find_blocks (densifyBlocks lhs vars)
    (fun i e1 =>
      (match (densifyMapping rhs vars).find? (fun e =>
          decide (e.newSampleI = c ∧
            idxOf (densifyBlocks lhs vars) e.vars = i)) with
       | some e2 => innerProd (lhs.values.getD e1.oldSampleI [])
           (rhs.values.getD e2.oldSampleI [])
       | none => (0 : K)))
    r (densifyMapping lhs vars)
    (fun e he => (densifyMapping_vars he).1)
    (densifyMapping_pairwise (wf_samples hlwf) hlnd)) ?_
  apply congrArg
  apply List.map_congr_left
  intro e1 he1f
  have he1 : e1 ∈ densifyMapping lhs vars := List.mem_of_mem_filter he1f
  have he1b : e1.vars ∈ densifyBlocks lhs vars := (densifyMapping_vars he1).1
  have hpwcond : (densifyMapping rhs vars).Pairwise (fun a b =>
      (fun e2 => decide (e2.newSampleI = c ∧
        idxOf (densifyBlocks lhs vars) e2.vars =
          idxOf (densifyBlocks lhs vars) e1.vars)) a = true →
      (fun e2 => decide (e2.newSampleI = c ∧
        idxOf (densifyBlocks lhs vars) e2.vars =
          idxOf (densifyBlocks lhs vars) e1.vars)) b = true → False) := by
    apply List.Pairwise.imp_of_mem ?_
      (densifyMapping_pairwise (wf_samples hrwf) hrnd)
    intro a b ha hb hne hpa hpb
    simp only [decide_eq_true_eq] at hpa hpb
    rcases hne with hne | hne
    · exact hne (hpa.1.trans hpb.1.symm)
    · have hab : idxOf (densifyBlocks lhs vars) a.vars =
          idxOf (densifyBlocks lhs vars) b.vars := hpa.2.trans hpb.2.symm
      exact hne (idxOf_inj
        (hblocks ▸ (densifyMapping_vars ha).1)
        (hblocks ▸ (densifyMapping_vars hb).1) hab)
  have hfc2 : (densifyMapping rhs vars).filter (fun e2 =>
      decide (e2.newSampleI = c ∧
        idxOf (densifyBlocks lhs vars) e2.vars =
          idxOf (densifyBlocks lhs vars) e1.vars)) =
      (densifyMapping rhs vars).filter (fun e2 =>
        decide (e2.newSampleI = c ∧ e2.vars = e1.vars)) := by
    apply List.filter_congr
    intro e2 he2
    rw [decide_eq_decide]
    apply and_congr_right
    intro _
    constructor
    · intro hid
      exact idxOf_inj (hblocks ▸ (densifyMapping_vars he2).1) he1b hid
    · intro hveq
      rw [hveq]
  show (match (densifyMapping rhs vars).find? (fun e2 =>
      decide (e2.newSampleI = c ∧
        idxOf (densifyBlocks lhs vars) e2.vars =
          idxOf (densifyBlocks lhs vars) e1.vars)) with
    | some e2 => innerProd (lhs.values.getD e1.oldSampleI [])
        (rhs.values.getD e2.oldSampleI [])
    | none => (0 : K)) = _
  cases hf2 : (densifyMapping rhs vars).find? (fun e2 =>
      decide (e2.newSampleI = c ∧
        idxOf (densifyBlocks lhs vars) e2.vars =
          idxOf (densifyBlocks lhs vars) e1.vars)) with
  | none =>
    dsimp only
    have hfil : (densifyMapping rhs vars).filter (fun e2 =>
        decide (e2.newSampleI = c ∧
          idxOf (densifyBlocks lhs vars) e2.vars =
            idxOf (densifyBlocks lhs vars) e1.vars)) = [] := by
      rw [List.filter_eq_nil_iff]
      exact List.find?_eq_none.1 hf2
    rw [← hfc2, hfil]
    rfl
  | some e2 =>
    dsimp only
    rw [← hfc2, filter_eq_single_of_find _ (densifyMapping rhs vars)
      hpwcond e2 hf2]
    simp

theorem densifyReduced_nil {K : Type} [CommRing K] (d : Descriptor K)
    (hrows : d.samples.rows.Nodup) : densifyReduced d [] = d.samples.rows := by
  rw [densifyReduced]
  have hps : densifyPositions d [] = [] := rfl
  rw [hps]
  have hfun : dropPositions ([] : List Nat) = fun r : Row => r :=
    funext dropPositions_nil
  rw [hfun, List.map_id']
  exact firstSeenDedup_of_nodup hrows

theorem densifySamplesIdx_nil {K : Type} [CommRing K] (d : Descriptor K)
    (hrows : d.samples.rows.Nodup) : densifySamplesIdx d [] = d.samples := by
  rw [densifySamplesIdx, densifyReduced_nil d hrows]
  have h1 : d.samples.names.filter
      (fun n => !(([] : List String).contains n)) = d.samples.names := by
    apply List.filter_eq_self.2
    intro a _
    rfl
  rw [h1]

theorem densifyMapping_nil {K : Type} [CommRing K] (d : Descriptor K)
    (hrows : d.samples.rows.Nodup) :
    densifyMapping d [] = d.samples.rows.enum.map (fun p =>
      { oldSampleI := p.1, newSampleI := p.1, vars := [] }) := by
  rw [densifyMapping]
  apply List.map_congr_left
  intro p hp
  have hget := List.mem_enum_iff_getElem?.1 hp
  rw [List.getElem?_eq_some] at hget
  obtain ⟨hlt, hrow⟩ := hget
  have hps : densifyPositions d [] = [] := rfl
  rw [hps, dropPositions_nil, densifyReduced_nil d hrows]
  have hidx : idxOf d.samples.rows p.2 = p.1 := by
    rw [← hrow]
    exact idxOf_getElem_nodup hrows hlt
  rw [hidx]
  rfl

theorem pairs_nil_entry {K : Type} [CommRing K] (lhs rhs : Descriptor K)
    (r c : Nat)
    (hlnd : lhs.samples.rows.Nodup) (hrnd : rhs.samples.rows.Nodup)
    (hr : r < lhs.samples.rows.length) (hc : c < rhs.samples.rows.length) :
    (((densifyMapping lhs []).filter
        (fun e => decide (e.newSampleI = r))).map
      (fun e1 =>
        (((densifyMapping rhs []).filter (fun e2 =>
            decide (e2.newSampleI = c ∧ e2.vars = e1.vars))).map
          (fun e2 => innerProd (lhs.values.getD e1.oldSampleI [])
            (rhs.values.getD e2.oldSampleI []))).sum)).sum =
    innerProd (lhs.values.getD r []) (rhs.values.getD c []) := by
  rw [densifyMapping_nil lhs hlnd, densifyMapping_nil rhs hrnd,
    List.filter_map, List.map_map]
  have hfo : lhs.samples.rows.enum.filter
      ((fun e : DensifiedIndex => decide (e.newSampleI = r)) ∘
        (fun p : Nat × Row =>
          ({ oldSampleI := p.1, newSampleI := p.1, vars := [] } :
            DensifiedIndex))) =
      lhs.samples.rows.enum.filter
        (fun p : Nat × Row => decide (p.1 = r)) := by
    apply List.filter_congr
    intro p _
    rfl
  have he0 : lhs.samples.rows.enum = List.enumFrom 0 lhs.samples.rows := rfl
  rw [hfo, he0, enumFrom_filter_fst ([] : Row) lhs.samples.rows 0 r,
    if_pos ⟨Nat.zero_le r, by omega⟩, List.map_cons, List.map_nil,
    List.sum_cons, List.sum_nil, add_zero]
  show (((rhs.samples.rows.enum.map (fun p : Nat × Row =>
      ({ oldSampleI := p.1, newSampleI := p.1, vars := [] } :
        DensifiedIndex))).filter (fun e2 =>
        decide (e2.newSampleI = c ∧ e2.vars = ([] : Row)))).map
      (fun e2 => innerProd (lhs.values.getD r [])
        (rhs.values.getD e2.oldSampleI []))).sum = _
  rw [List.filter_map, List.map_map]
  have hfi : rhs.samples.rows.enum.filter
      ((fun e2 : DensifiedIndex =>
        decide (e2.newSampleI = c ∧ e2.vars = ([] : Row))) ∘
        (fun p : Nat × Row =>
          ({ oldSampleI := p.1, newSampleI := p.1, vars := [] } :
            DensifiedIndex))) =
      rhs.samples.rows.enum.filter
        (fun p : Nat × Row => decide (p.1 = c)) := by
    apply List.filter_congr
    intro p _
    show decide (p.1 = c ∧ ([] : Row) = []) = decide (p.1 = c)
    rw [decide_eq_decide]
    exact and_iff_left rfl
  have he1 : rhs.samples.rows.enum = List.enumFrom 0 rhs.samples.rows := rfl
  rw [hfi, he1, enumFrom_filter_fst ([] : Row) rhs.samples.rows 0 c,
    if_pos ⟨Nat.zero_le c, by omega⟩, List.map_cons, List.map_nil,
    List.sum_cons, List.sum_nil, add_zero]
  rfl

theorem Indexes.count_le_rows (i : Indexes) : i.count ≤ i.rows.length := by
  rw [Indexes.count]
  split
  · exact Nat.zero_le _
  · exact Nat.le_refl _

/-- Claim C1 (amended): under equal features, duplicate-free sample rows
on both sides, a duplicate-free reduction list present on both sides,
matching observed block keys, at least one feature column, and
successful densify calls, a successful value-only dot product returns
the densified left samples index as its samples, the densified right
samples index as its features, and the product of the densified left
values with the transpose of the densified right values as its values;
with an empty reduction list densify leaves both descriptors unchanged,
so the values are then the plain product of the original value matrices
with the second transposed. -/
theorem claim_C1_amended {K : Type} [CommRing K] {lhs rhs : Descriptor K}
    {vars : List String} {out : Descriptor K}
    (hlwf : lhs.wellFormed = true) (hrwf : rhs.wellFormed = true)
    (hfe : lhs.features = rhs.features)
    (hlnd : lhs.samples.rows.Nodup) (hrnd : rhs.samples.rows.Nodup)
    (hnd : vars.Nodup)
    (hmeml : ∀ v ∈ vars, v ∈ lhs.samples.names)
    (hmemr : ∀ v ∈ vars, v ∈ rhs.samples.names)
    (hblocks : densifyBlocks lhs vars = densifyBlocks rhs vars)
    (hfs : lhs.features.size ≠ 0)
    (hdl : (lhs.densify vars none).2 = .ok ())
    (hdr : (rhs.densify vars none).2 = .ok ())
    (hdot : lhs.dot rhs
      { reduceAcross := vars
        gradients := false
        normalize := false } = .ok out) :
    out.samples = (lhs.densify vars none).1.samples ∧
    out.features = (rhs.densify vars none).1.samples ∧
    out.values = matMulT (lhs.densify vars none).1.values
      (rhs.densify vars none).1.values := by
  have hg : ({ reduceAcross := vars
               gradients := false
               normalize := false } : DotOptions).gradients = false := rfl
  obtain ⟨rl, rr, indexes, hrl, hrr, _, hsam, hfea, _, _, hcdi, hcdv⟩ :=
    dot_ok_values hdot hg
  have hrl2 : removeFromSamples lhs.samples vars = .ok rl := hrl
  have hrr2 : removeFromSamples rhs.samples vars = .ok rr := hrr
  have hrleq : rl =
      { samples := densifySamplesIdx lhs vars
        newFeatures := densifyBlocks lhs vars
        mapping := densifyMapping lhs vars } :=
    RunResult.ok.inj (hrl2.symm.trans
      (removeFromSamples_ok_d lhs vars (wf_samples hlwf) hnd hmeml))
  have hrreq : rr =
      { samples := densifySamplesIdx rhs vars
        newFeatures := densifyBlocks rhs vars
        mapping := densifyMapping rhs vars } :=
    RunResult.ok.inj (hrr2.symm.trans
      (removeFromSamples_ok_d rhs vars (wf_samples hrwf) hnd hmemr))
  obtain ⟨hilen, _, _⟩ := computeDotIndexes_char hcdi
  obtain ⟨hvlen, hvrow⟩ := computeDotValues_char lhs.values rhs.values
    rr.samples.count indexes out.values hcdv
  have houtwf : matWf out.values rl.samples.count rr.samples.count = true := by
    rw [matWf, Bool.and_eq_true]
    constructor
    · simp only [decide_eq_true_eq]
      rw [hvlen, hilen]
    · rw [List.all_eq_true]
      intro row hrow
      obtain ⟨i, hi, heq⟩ := List.mem_iff_getElem.1 hrow
      have hgd : out.values.getD i [] = row := by
        rw [List.getD_eq_getElem _ _ hi, heq]
      have hacc := hvrow i (by
        rw [← hvlen]
        exact hi)
      obtain ⟨hlen2, _⟩ := accumRow_char lhs.values rhs.values
        (indexes.getD i []) (List.replicate rr.samples.count 0)
        (out.values.getD i []) hacc
      rw [hgd, List.length_replicate] at hlen2
      simp only [decide_eq_true_eq]
      exact hlen2
  have hfsr : rhs.features.size ≠ 0 := by
    rw [← hfe]
    exact hfs
  by_cases hvn : vars = []
  · subst hvn
    have hno_l : lhs.densify [] none = (lhs, .ok ()) := by
      rw [Descriptor.densify, if_pos (by simp)]
    have hno_r : rhs.densify [] none = (rhs, .ok ()) := by
      rw [Descriptor.densify, if_pos (by simp)]
    have hlv : lhs.values.length = rl.samples.count := by
      rw [hrleq]
      show _ = (densifySamplesIdx lhs []).count
      rw [densifySamplesIdx_nil lhs hlnd]
      exact matWf_length (wf_values hlwf)
    have hrv : rhs.values.length = rr.samples.count := by
      rw [hrreq]
      show _ = (densifySamplesIdx rhs []).count
      rw [densifySamplesIdx_nil rhs hrnd]
      exact matWf_length (wf_values hrwf)
    refine ⟨?_, ?_, ?_⟩
    · rw [hsam, hrleq, hno_l]
      show densifySamplesIdx lhs [] = lhs.samples
      exact densifySamplesIdx_nil lhs hlnd
    · rw [hfea, hrreq, hno_r]
      show densifySamplesIdx rhs [] = rhs.samples
      exact densifySamplesIdx_nil rhs hrnd
    · rw [hno_l, hno_r]
      show out.values = matMulT lhs.values rhs.values
      have hmmwf : matWf (matMulT lhs.values rhs.values)
          rl.samples.count rr.samples.count = true := by
        rw [← hlv, ← hrv]
        exact matMulT_wf lhs.values rhs.values
      apply matrix_ext houtwf hmmwf
      intro r2 c2 hr2 hc2
      have h1 : getEntry out.values r2 c2 =
          dotRawEntry lhs rhs [] r2 c2 := dot_ok_entry hdot hg r2 c2
      have hrb : r2 < lhs.samples.rows.length := by
        have hle := Indexes.count_le_rows lhs.samples
        have hc : rl.samples.count = lhs.samples.count := by
          rw [hrleq]
          show (densifySamplesIdx lhs []).count = _
          rw [densifySamplesIdx_nil lhs hlnd]
        rw [hc] at hr2
        omega
      have hcb : c2 < rhs.samples.rows.length := by
        have hle := Indexes.count_le_rows rhs.samples
        have hc : rr.samples.count = rhs.samples.count := by
          rw [hrreq]
          show (densifySamplesIdx rhs []).count = _
          rw [densifySamplesIdx_nil rhs hrnd]
        rw [hc] at hc2
        omega
      rw [h1, dotRawEntry_eq_pairs lhs rhs [] r2 c2 (wf_samples hlwf)
        (wf_samples hrwf) List.nodup_nil (by simp) (by simp),
        pairs_nil_entry lhs rhs r2 c2 hlnd hrnd hrb hcb,
        matMulT_entry (by
          rw [hlv]
          exact hr2) (by
          rw [hrv]
          exact hc2)]
  · obtain ⟨hwfl, hentl, hcountl, hsaml⟩ :=
      densify_values_char hlwf hnd hmeml hlnd hvn hfs hdl
    obtain ⟨hwfr, hentr, hcountr, hsamr⟩ :=
      densify_values_char hrwf hnd hmemr hrnd hvn hfsr hdr
    have hRl : rl.samples.count = (densifyReduced lhs vars).length := by
      rw [hrleq]
      exact hcountl
    have hRr : rr.samples.count = (densifyReduced rhs vars).length := by
      rw [hrreq]
      exact hcountr
    refine ⟨?_, ?_, ?_⟩
    · rw [hsam, hrleq, hsaml]
    · rw [hfea, hrreq, hsamr]
    · have hdlL : (lhs.densify vars none).1.values.length =
          rl.samples.count := by
        rw [matWf_length hwfl, hRl]
      have hdrL : (rhs.densify vars none).1.values.length =
          rr.samples.count := by
        rw [matWf_length hwfr, hRr]
      have hmmwf : matWf (matMulT (lhs.densify vars none).1.values
          (rhs.densify vars none).1.values)
          rl.samples.count rr.samples.count = true := by
        rw [← hdlL, ← hdrL]
        exact matMulT_wf _ _
      apply matrix_ext houtwf hmmwf
      intro r2 c2 hr2 hc2
      have h1 : getEntry out.values r2 c2 =
          dotRawEntry lhs rhs vars r2 c2 := dot_ok_entry hdot hg r2 c2
      rw [h1, dotRawEntry_eq_pairs lhs rhs vars r2 c2 (wf_samples hlwf)
        (wf_samples hrwf) hnd hmeml hmemr,
        matMulT_entry (by
          rw [hdlL]
          exact hr2) (by
          rw [hdrL]
          exact hc2)]
      exact (densified_inner_eq_pairs hlwf hrwf hfe hlnd hrnd hnd hmeml
        hmemr hblocks hvn hfs hdl hdr (hRl ▸ hr2) (hRr ▸ hc2)).symm

/-- Witness for the amended claim C1 at a concrete two-block descriptor:
the value-only dot product reducing over v agrees with densifying both
copies along v and multiplying the densified values. -/
theorem claim_C1_amended_witness :
    (dotOut exC5 exC5
      { reduceAcross := ["v"]
        gradients := false
        normalize := false }).samples = (exC5.densify ["v"] none).1.samples ∧
    (dotOut exC5 exC5
      { reduceAcross := ["v"]
        gradients := false
        normalize := false }).features = (exC5.densify ["v"] none).1.samples ∧
    (dotOut exC5 exC5
      { reduceAcross := ["v"]
        gradients := false
        normalize := false }).values =
      matMulT (exC5.densify ["v"] none).1.values
        (exC5.densify ["v"] none).1.values :=
  @claim_C1_amended ℤ _ exC5 exC5 ["v"]
    (dotOut exC5 exC5
      { reduceAcross := ["v"]
        gradients := false
        normalize := false })
    (by decide) (by decide) rfl (by decide) (by decide) (by decide)
    (by decide) (by decide) rfl (by decide) (by decide) (by decide)
    (by decide)
